import Mathlib

/-! # Reading-CSV: a dense matrix and a two-pass CSV reader

A shallow embedding of `src/matrix.hpp` (class `matrix<T>`) and `src/ReadCSV.hpp`
(class `csv<T>`), followed by theorems about the embedded code.

Modelling conventions
* A C++ `char` is a Lean `Char`; a `std::string` and the raw content of a file are a
  `List Char`, one element per byte.
* A thrown C++ exception is the `.error` branch of `Except Exception _`.
* `uint64_t` quantities are natural numbers; where the code multiplies or adds
  caller-supplied 64-bit values the result is reduced modulo `2 ^ 64`.
* The element type of the reader is `ℚ`: `stod` is modelled as the exact decimal value
  of the characters it consumes. Rounding to the nearest `double` and the range errors
  of `strtod` are outside the model.
* Output written to `cout` is not modelled, except the line number that the constructor
  prints just before it throws `empty_line`, which is carried by the exception value.
* An unchecked access outside a vector is undefined behaviour; code that can run into it
  returns an `Option` whose `none` stands for it. Memory exhaustion (`std::bad_alloc`,
  `std::length_error`) is not modelled.
* `std::ifstream` is opened in text mode. `TextMode.posix` delivers the bytes of the
  file unchanged; `TextMode.windows` delivers every `\r\n` pair as a single `\n`.
  In both modes `seekg` counts bytes of the file.
* The operators of `matrix<T>` are embedded twice. As functions of the matrices that their
  operands hold they return what the call returns or throws. As calls on objects (`Objects`,
  the operands being addresses) they also return the objects as the call leaves them; the
  theorems `operator_plus_at_eq` and its siblings relate the two.
-/

namespace ReadingCSV

/-! ## Exceptions -/

/-- Exception classes of `matrix<T>` and `csv<T>`, together with the `std::out_of_range`
thrown by `std::vector::at`. -/
inductive Exception where
  /-- Thrown by `csv<T>` when the file cannot be opened. -/
  | file_notfound
  /-- Thrown by `csv<T>` when the stream ends in a failed state that is not end-of-file. -/
  | input_failed
  /-- Thrown by the `csv<T>` constructor; `line_number` is the value `NRows + 1` that the
  constructor prints to `cout` immediately before throwing. -/
  | empty_line (line_number : Nat)
  /-- Text "Expected less columns!": the row has more columns than the header. -/
  | less_column
  /-- Text "Expected more columns!": the row has fewer columns than the header. -/
  | more_column
  /-- Thrown by `read_rows` when a column is not a number. -/
  | number_invalid
  /-- Thrown by the `matrix<T>` constructors on a zero dimension. -/
  | zero_size
  /-- Thrown by the `matrix<T>` constructor taking a vector of the wrong size. -/
  | initializer_wrong_size
  /-- Thrown by matrix addition and subtraction. -/
  | incompatible_sizes_add
  /-- Thrown by matrix multiplication. -/
  | incompatible_sizes_multiply
  /-- The exception `std::out_of_range` of `std::vector::at`. -/
  | out_of_range
  deriving DecidableEq, Repr

/-! ## `matrix<T>` (src/matrix.hpp) -/

/-- Modulus of `uint64_t` arithmetic. -/
def UINT64_MOD : Nat := 2 ^ 64

/-- Private data of `matrix<T>`: `rows`, `cols` and the flattened `elements`. -/
structure matrix (T : Type) where
  rows : Nat
  cols : Nat
  elements : List T
  deriving DecidableEq, Repr

/-- Constructor `matrix(const uint64_t &_rows, const uint64_t &_cols, const vector<T> &_elements)`:
the members are initialised from the arguments, then the two checks run in this order. -/
def matrix.from_vector {T : Type} (_rows _cols : Nat) (_elements : List T) :
    Except Exception (matrix T) :=
  if _rows = 0 ∨ _cols = 0 then .error .zero_size
  else if _elements.length ≠ _rows * _cols % UINT64_MOD then .error .initializer_wrong_size
  else .ok { rows := _rows, cols := _cols, elements := _elements }

/-- Member `get_rows`. -/
def matrix.get_rows {T : Type} (m : matrix T) : Nat := m.rows

/-- Member `get_cols`. -/
def matrix.get_cols {T : Type} (m : matrix T) : Nat := m.cols

/-- Flat index `(cols * row) + col` of `operator()` and `at`, in `uint64_t` arithmetic. -/
def matrix.flat_index {T : Type} (m : matrix T) (row col : Nat) : Nat :=
  (m.cols * row + col) % UINT64_MOD

/-- Member `operator()(row, col)`: `elements[(cols * row) + col]` without range checking.
The result `none` stands for the undefined behaviour of an index outside the vector. -/
def matrix.call {T : Type} (m : matrix T) (row col : Nat) : Option T :=
  m.elements[m.flat_index row col]?

/-- Member `at(row, col)`: `elements.at((cols * row) + col)`, where `std::vector::at`
throws `std::out_of_range` exactly when the flat index is not below `elements.size()`. -/
def matrix.at_ {T : Type} (m : matrix T) (row col : Nat) : Except Exception T :=
  match m.elements[m.flat_index row col]? with
  | some x => .ok x
  | none => .error .out_of_range

/-- The loop `for (uint64_t k = 0; k < n; k++)` started in state `s`, its iteration `k`
being `body k`. The result `none` stands for undefined behaviour in one of the iterations,
after which the later iterations have no defined effect. -/
def for_loop {σ : Type} (body : Nat → σ → Option σ) : Nat → σ → Option σ
  | 0, s => some s
  | n + 1, s => (for_loop body n s).bind (body n)

/-- Assignment `m(row, col) = value` through the non-const `operator()`, that is
`elements[(cols * row) + col] = value` without range checking. The result `none` stands
for the undefined behaviour of an index outside the vector. -/
def matrix.assign {T : Type} (m : matrix T) (row col : Nat) (value : T) : Option (matrix T) :=
  if m.flat_index row col < m.elements.length then
    some { m with elements := m.elements.set (m.flat_index row col) value }
  else none

/-- Constructor `matrix(const uint64_t &_rows, const uint64_t &_cols)`: after the check,
`elements = vector<T>(rows * cols)` holds `rows * cols` value-initialised elements, the
product being computed in `uint64_t`. -/
def matrix.zeros {T : Type} [Zero T] (_rows _cols : Nat) : Except Exception (matrix T) :=
  if _rows = 0 ∨ _cols = 0 then .error .zero_size
  else .ok { rows := _rows, cols := _cols,
             elements := List.replicate (_rows * _cols % UINT64_MOD) 0 }

/-- Constructor `matrix(const vector<T> &_diagonal)`, to which the constructor taking an
`initializer_list` delegates. The outer result is the exception thrown, if any; the inner
result is `none` when the loop `elements[(cols * i) + i] = _diagonal[i]` writes outside the
vector, which is undefined behaviour. -/
def matrix.from_diagonal {T : Type} [Zero T] (_diagonal : List T) :
    Except Exception (Option (matrix T)) :=
  if _diagonal.length = 0 then .error .zero_size
  else
    .ok (for_loop
      (fun i m => (_diagonal[i]?).bind (fun d => m.assign i i d))
      _diagonal.length
      { rows := _diagonal.length, cols := _diagonal.length,
        elements := List.replicate (_diagonal.length * _diagonal.length % UINT64_MOD) 0 })

/-- The nested loops `for (i = 0; i < rows; i++) for (j = 0; j < cols; j++)` that the
operators run over the cells of their result `c`, with `cell i j` the statement executed
for the cell in row `i` and column `j`. -/
def for_each_cell {T : Type} (rows cols : Nat) (cell : Nat → Nat → matrix T → Option (matrix T))
    (c : matrix T) : Option (matrix T) :=
  for_loop (fun i c => for_loop (fun j c => cell i j c) cols c) rows c

/-- Binary `operator+`. The outer result is the exception thrown, if any; the inner
result is `none` when an unchecked access of the loops falls outside a vector. -/
def operator_plus {T : Type} [Zero T] [Add T] (a b : matrix T) :
    Except Exception (Option (matrix T)) :=
  if a.get_rows ≠ b.get_rows ∨ a.get_cols ≠ b.get_cols then .error .incompatible_sizes_add
  else
    match (matrix.zeros a.get_rows a.get_cols : Except Exception (matrix T)) with
    | .error e => .error e
    | .ok c =>
      .ok (for_each_cell a.get_rows a.get_cols
        (fun i j c => (a.call i j).bind (fun x => (b.call i j).bind (fun y =>
          c.assign i j (x + y)))) c)

/-- Unary `operator-`, with the result convention of `operator_plus`. -/
def operator_negate {T : Type} [Zero T] [Neg T] (m : matrix T) :
    Except Exception (Option (matrix T)) :=
  match (matrix.zeros m.get_rows m.get_cols : Except Exception (matrix T)) with
  | .error e => .error e
  | .ok c =>
    .ok (for_each_cell m.get_rows m.get_cols
      (fun i j c => (m.call i j).bind (fun x => c.assign i j (-x))) c)

/-- Binary `operator-`, with the result convention of `operator_plus`. -/
def operator_minus {T : Type} [Zero T] [Sub T] (a b : matrix T) :
    Except Exception (Option (matrix T)) :=
  if a.get_rows ≠ b.get_rows ∨ a.get_cols ≠ b.get_cols then .error .incompatible_sizes_add
  else
    match (matrix.zeros a.get_rows a.get_cols : Except Exception (matrix T)) with
    | .error e => .error e
    | .ok c =>
      .ok (for_each_cell a.get_rows a.get_cols
        (fun i j c => (a.call i j).bind (fun x => (b.call i j).bind (fun y =>
          c.assign i j (x - y)))) c)

/-- The statement `a = a + b; return a;` of `operator+=`, and likewise of `operator-=`,
given the result of the right-hand side. The first component is what the call returns or
throws; the second is the left operand `a` after the call, which keeps its value when
the right-hand side throws. -/
def assign_result {T : Type} (a : matrix T) (sum : Except Exception (Option (matrix T))) :
    Except Exception (Option (matrix T)) × matrix T :=
  match sum with
  | .error e => (.error e, a)
  | .ok none => (.ok none, a)
  | .ok (some c) => (.ok (some c), c)

/-- Compound `operator+=`: `a = a + b; return a;`. -/
def operator_plus_assign {T : Type} [Zero T] [Add T] (a b : matrix T) :
    Except Exception (Option (matrix T)) × matrix T :=
  assign_result a (operator_plus a b)

/-- Compound `operator-=`: `a = a - b; return a;`. -/
def operator_minus_assign {T : Type} [Zero T] [Sub T] (a b : matrix T) :
    Except Exception (Option (matrix T)) × matrix T :=
  assign_result a (operator_minus a b)

/-- Matrix `operator*`, with the result convention of `operator_plus`. The innermost
loop runs `c(i, j) += a(i, k) * b(k, j)` for `k` below `a.get_cols()`. -/
def operator_times {T : Type} [Zero T] [Add T] [Mul T] (a b : matrix T) :
    Except Exception (Option (matrix T)) :=
  if a.get_cols ≠ b.get_rows then .error .incompatible_sizes_multiply
  else
    match (matrix.zeros a.get_rows b.get_cols : Except Exception (matrix T)) with
    | .error e => .error e
    | .ok c =>
      .ok (for_each_cell a.get_rows b.get_cols
        (fun i j c => for_loop
          (fun k c => (a.call i k).bind (fun x => (b.call k j).bind (fun y =>
            (c.call i j).bind (fun z => c.assign i j (z + x * y)))))
          a.get_cols c) c)

/-- Scalar `operator*(const T &s, const matrix<T> &m)`, with the result convention of
`operator_plus`. -/
def operator_times_scalar {T : Type} [Zero T] [Mul T] (s : T) (m : matrix T) :
    Except Exception (Option (matrix T)) :=
  match (matrix.zeros m.get_rows m.get_cols : Except Exception (matrix T)) with
  | .error e => .error e
  | .ok c =>
    .ok (for_each_cell m.get_rows m.get_cols
      (fun i j c => (m.call i j).bind (fun x => c.assign i j (s * x))) c)

/-- Scalar `operator*(const matrix<T> &m, const T &s)`: `return s * m;`. -/
def operator_times_scalar_right {T : Type} [Zero T] [Mul T] (m : matrix T) (s : T) :
    Except Exception (Option (matrix T)) :=
  operator_times_scalar s m

/-! ## Operators as calls on objects -/

/-- The matrix objects of a program, by address. An argument passed by reference is the
address of an object; the result `c` that an operator builds is a local object, which has
an address of its own during the call. -/
abbrev Objects (T : Type) := Nat → matrix T

/-- The statement `c(row, col) = value` on the object at address `c`, through the non-const
`operator()`. The result `none` stands for undefined behaviour. -/
def Objects.assign {T : Type} (objs : Objects T) (c row col : Nat) (value : T) :
    Option (Objects T) :=
  ((objs c).assign row col value).map (fun m => Function.update objs c m)

/-- The steps that the operators share after their check: `matrix<T> c(rows, cols);`, the
local being created at the address `c`, the nested loops over the cells, `cell i j` being
the statement executed for the cell in row `i` and column `j`, and `return c;`. The first
component is what the call returns or throws; the second holds the objects as the call
leaves them, the local included. After undefined behaviour the second component has no
meaning. The bounds `rows` and `cols` of the loops are what `get_rows()` and `get_cols()`
return for the operands when the call begins: the loops do not write to the operands
(theorem `operator_call_eq`), so that the calls in the loop conditions keep returning them. -/
def operator_call {T : Type} [Zero T] (objs : Objects T) (c rows cols : Nat)
    (cell : Nat → Nat → Objects T → Option (Objects T)) :
    Except Exception (Option (matrix T)) × Objects T :=
  match (matrix.zeros rows cols : Except Exception (matrix T)) with
  | .error e => (.error e, objs)
  | .ok m =>
    match for_loop (fun i s => for_loop (fun j s => cell i j s) cols s) rows
        (Function.update objs c m) with
    | none => (.ok none, objs)
    | some s => (.ok (some (s c)), s)

/-- Binary `operator+` as a call on the objects at the addresses `a` and `b`, which it
receives by reference to `const`: the cell statement is `c(i, j) = a(i, j) + b(i, j)`. -/
def operator_plus_at {T : Type} [Zero T] [Add T] (objs : Objects T) (a b c : Nat) :
    Except Exception (Option (matrix T)) × Objects T :=
  if (objs a).get_rows ≠ (objs b).get_rows ∨ (objs a).get_cols ≠ (objs b).get_cols then
    (.error .incompatible_sizes_add, objs)
  else
    operator_call objs c (objs a).get_rows (objs a).get_cols
      (fun i j s => ((s a).call i j).bind (fun x => ((s b).call i j).bind (fun y =>
        s.assign c i j (x + y))))

/-- Unary `operator-` as a call on the object at the address `m`: the cell statement is
`c(i, j) = -m(i, j)`. -/
def operator_negate_at {T : Type} [Zero T] [Neg T] (objs : Objects T) (m c : Nat) :
    Except Exception (Option (matrix T)) × Objects T :=
  operator_call objs c (objs m).get_rows (objs m).get_cols
    (fun i j s => ((s m).call i j).bind (fun x => s.assign c i j (-x)))

/-- Binary `operator-` as a call on the objects at the addresses `a` and `b`: the cell
statement is `c(i, j) = a(i, j) - b(i, j)`. -/
def operator_minus_at {T : Type} [Zero T] [Sub T] (objs : Objects T) (a b c : Nat) :
    Except Exception (Option (matrix T)) × Objects T :=
  if (objs a).get_rows ≠ (objs b).get_rows ∨ (objs a).get_cols ≠ (objs b).get_cols then
    (.error .incompatible_sizes_add, objs)
  else
    operator_call objs c (objs a).get_rows (objs a).get_cols
      (fun i j s => ((s a).call i j).bind (fun x => ((s b).call i j).bind (fun y =>
        s.assign c i j (x - y))))

/-- Matrix `operator*` as a call on the objects at the addresses `a` and `b`: the cell
statement is the loop of `c(i, j) += a(i, k) * b(k, j)` for `k` below `a.get_cols()`. -/
def operator_times_at {T : Type} [Zero T] [Add T] [Mul T] (objs : Objects T) (a b c : Nat) :
    Except Exception (Option (matrix T)) × Objects T :=
  if (objs a).get_cols ≠ (objs b).get_rows then (.error .incompatible_sizes_multiply, objs)
  else
    operator_call objs c (objs a).get_rows (objs b).get_cols
      (fun i j s => for_loop
        (fun k s => ((s a).call i k).bind (fun x => ((s b).call k j).bind (fun y =>
          ((s c).call i j).bind (fun z => s.assign c i j (z + x * y)))))
        (objs a).get_cols s)

/-- Scalar `operator*(const T &s, const matrix<T> &m)` as a call on the object at the
address `m`: the cell statement is `c(i, j) = s * m(i, j)`. -/
def operator_times_scalar_at {T : Type} [Zero T] [Mul T] (objs : Objects T) (s : T)
    (m c : Nat) : Except Exception (Option (matrix T)) × Objects T :=
  operator_call objs c (objs m).get_rows (objs m).get_cols
    (fun i j t => ((t m).call i j).bind (fun x => t.assign c i j (s * x)))

/-- Scalar `operator*(const matrix<T> &m, const T &s)` as a call: `return s * m;`. -/
def operator_times_scalar_right_at {T : Type} [Zero T] [Mul T] (objs : Objects T) (m : Nat)
    (s : T) (c : Nat) : Except Exception (Option (matrix T)) × Objects T :=
  operator_times_scalar_at objs s m c

/-- Compound `operator+=` as a call on the objects at the addresses `a` and `b`:
`a = a + b; return a;`. The sum is built in a temporary at the address `c` and then
assigned to the object `a`, a copy of which is returned; when `a + b` throws, nothing is
assigned. -/
def operator_plus_assign_at {T : Type} [Zero T] [Add T] (objs : Objects T) (a b c : Nat) :
    Except Exception (Option (matrix T)) × Objects T :=
  match operator_plus_at objs a b c with
  | (.ok (some sum), s) => (.ok (some sum), Function.update s a sum)
  | (outcome, s) => (outcome, s)

/-- Compound `operator-=` as a call on the objects at the addresses `a` and `b`:
`a = a - b; return a;`. -/
def operator_minus_assign_at {T : Type} [Zero T] [Sub T] (objs : Objects T) (a b c : Nat) :
    Except Exception (Option (matrix T)) × Objects T :=
  match operator_minus_at objs a b c with
  | (.ok (some difference), s) => (.ok (some difference), Function.update s a difference)
  | (outcome, s) => (outcome, s)

/-! ## Streams -/

/-- One call of `std::getline(stream, str, delim)` on a stream whose unread characters are
`s`: it fails when nothing is left; otherwise it delivers the characters before the first
`delim` (or all of them when there is none), and the delimiter itself is consumed. The
second component is what remains unread. -/
def getline (delim : Char) (s : List Char) : Option (List Char × List Char) :=
  match s with
  | [] => none
  | _ :: _ => some (s.takeWhile (fun c => c != delim), (s.dropWhile (fun c => c != delim)).drop 1)

/-- The strings delivered by the successive iterations of `while (getline(stream, str, delim))`
on a stream whose unread characters are the argument. A delimiter that ends the input does
not start a further string. Theorem `getline_all_eq_getline` states it in terms of `getline`. -/
def getline_all (delim : Char) : List Char → List (List Char)
  | [] => []
  | c :: cs =>
    if c = delim then [] :: getline_all delim cs
    else
      match getline_all delim cs with
      | [] => [[c]]
      | t :: ts => (c :: t) :: ts

/-- Newline translation of a text-mode stream on Windows: a carriage return that is
immediately followed by a line feed is not delivered. The end-of-file byte `0x1A` of such
streams is not modelled. -/
def crlf_to_lf : List Char → List Char
  | [] => []
  | c :: cs => if c = '\r' ∧ cs.head? = some '\n' then crlf_to_lf cs else c :: crlf_to_lf cs

/-- Platform convention of a text-mode `std::ifstream`. -/
inductive TextMode where
  | posix
  | windows
  deriving DecidableEq, Repr

/-- Characters delivered by a text-mode stream positioned in front of the bytes `raw`. -/
def TextMode.deliver : TextMode → List Char → List Char
  | .posix, raw => raw
  | .windows, raw => crlf_to_lf raw

/-- The files that can be opened, by name: `none` when `is_open()` is false, otherwise
the bytes of the file. -/
abbrev FileSystem := String → Option (List Char)

/-! ## `csv<T>` (src/ReadCSV.hpp) -/

/-- Private data of `csv<T>` with `T` an exact number type. -/
structure csv where
  datafile : String
  NCols : Nat
  headers : List Char
  NRows : Nat
  NChar : Nat
  Row_numbers : List ℚ
  Matrix_elements : List ℚ

/-- The loop `for (i = 0; i < size; i++)` of `is_valid_num` over the characters from index
`i` on, with the current value of the counter `dot`. -/
def is_valid_num_loop : List Char → Nat → Nat → Bool
  | [], _, _ => true
  | c :: cs, i, dot =>
    if c = ' ' then is_valid_num_loop cs (i + 1) dot
    else if c = '.' then
      if dot + 1 > 1 then false else is_valid_num_loop cs (i + 1) (dot + 1)
    else if i = 0 ∧ c = '-' then is_valid_num_loop cs (i + 1) dot
    else if c.isDigit = false then false
    else is_valid_num_loop cs (i + 1) dot

/-- Member `is_valid_num`. -/
def is_valid_num (value_st : List Char) : Bool :=
  is_valid_num_loop value_st 0 0

/-- The C function `isspace` in the "C" locale. -/
def isspace (c : Char) : Bool :=
  c = ' ' ∨ c = '\t' ∨ c = '\n' ∨ c = '\x0b' ∨ c = '\x0c' ∨ c = '\r'

/-- Value of a string of decimal digits. -/
def digits_value (ds : List Char) : Nat :=
  ds.foldl (fun n d => 10 * n + (d.toNat - '0'.toNat)) 0

/-- The decimal subject sequence that `strtod` recognises at the start of a string:
leading white space is skipped, then an optional sign, then digits optionally containing
one radix character. The result is the sign (`true` for `-`), the digits before the radix
character and the digits after it; `none` when no digit is found (no conversion).
Exponents, hexadecimal numbers, `inf` and `nan` all need a letter and are not modelled:
`read_rows` calls `stod` only on strings that `is_valid_num` accepts, which hold no letter. -/
def strtod_subject (s : List Char) : Option (Bool × List Char × List Char) :=
  let s1 := s.dropWhile isspace
  let signed : Bool × List Char :=
    match s1 with
    | [] => (false, [])
    | c :: cs => if c = '-' then (true, cs) else if c = '+' then (false, cs) else (false, c :: cs)
  let int_part := signed.2.takeWhile Char.isDigit
  let frac_part :=
    match signed.2.dropWhile Char.isDigit with
    | [] => []
    | c :: cs => if c = '.' then cs.takeWhile Char.isDigit else []
  if int_part = [] ∧ frac_part = [] then none else some (signed.1, int_part, frac_part)

/-- Exact value of a decimal subject sequence. -/
def subject_value (p : Bool × List Char × List Char) : ℚ :=
  let magnitude : ℚ := (digits_value p.2.1 : ℚ) + (digits_value p.2.2 : ℚ) / 10 ^ p.2.2.length
  if p.1 then -magnitude else magnitude

/-- Library function `std::stod`: the value of the subject sequence at the start of the
string, the rest of the string being ignored; `none` when it throws
`std::invalid_argument` because no conversion can be performed. -/
def stod (s : List Char) : Option ℚ :=
  (strtod_subject s).map subject_value

/-- The loop `while (getline(string_stream, column, ','))` of `read_rows` over the columns
still to be delivered, with the current values of `j` and `v`, followed by the final check
of `j` against `NCols`. -/
def read_rows_loop (NCols : Nat) : List (List Char) → Nat → List ℚ → Except Exception (List ℚ)
  | [], j, v => if j < NCols then .error .more_column else .ok v
  | column :: rest, j, v =>
    if j + 1 > NCols then .error .less_column
    else if is_valid_num column then
      match stod column with
      | some x => read_rows_loop NCols rest (j + 1) (v ++ [x])
      | none => .error .number_invalid
    else .error .number_invalid

/-- Member `read_rows`. -/
def csv.read_rows (self : csv) (line : List Char) : Except Exception (List ℚ) :=
  read_rows_loop self.NCols (getline_all ',' line) 0 []

/-- The loop `while (getline(input, line))` of the constructor over the lines still to be
delivered, with the current value of `NRows`; the result is the final `NRows`. -/
def count_rows : List (List Char) → Nat → Except Exception Nat
  | [], NRows => .ok NRows
  | line :: rest, NRows =>
    if line.length = 2 then .error (.empty_line (NRows + 1))
    else count_rows rest (NRows + 1)

/-- Constructor `csv(const string &_file_name)`.

When the very first `getline` fails (the file holds no byte) the stream is left with
`failbit` set: `seekg` clears `eofbit` and then does nothing, the row loop does not run,
`input.eof()` is false and `input.fail()` is true, so `input_failed` is thrown. In every
other case the row loop ends at the end of the file and `input.eof()` is true. -/
def csv.new (tm : TextMode) (fs : FileSystem) (_file_name : String) : Except Exception csv :=
  match fs _file_name with
  | none => .error .file_notfound
  | some raw =>
    match getline '\n' (tm.deliver raw) with
    | none => .error .input_failed
    | some (headers, _) =>
      let NChar := headers.length + 2
      let NCols := (getline_all ',' headers).length
      match count_rows (getline_all '\n' (tm.deliver (raw.drop NChar))) 0 with
      | .error e => .error e
      | .ok NRows =>
        .ok { datafile := _file_name, NCols := NCols, headers := headers, NRows := NRows,
              NChar := NChar, Row_numbers := [], Matrix_elements := [] }

/-- The call `vec.insert(vec.begin() + pos, first, last)` of `std::vector`. -/
def vector_insert {α : Type} (vec : List α) (pos : Nat) (values : List α) : List α :=
  vec.take pos ++ values ++ vec.drop pos

/-- The loop `while (getline(input, line))` of `read_data` over the lines still to be
delivered, with the current value of `i` and of the object. The first component is the
exception that left the loop, if any; the second is the object as the loop leaves it.
`Row_numbers[i]` is written with `List.set` and read back with `List.getD`, which agree
with the vector accesses whenever `i < Row_numbers.size()`; that is the case in every call
on the source the reader was constructed from (theorem `csv_new_line_count`). The counts
`i`, `NCols` and `NRows` are bounded by the size of the file and do not wrap around. -/
def read_data_loop (row_num : Bool) : List (List Char) → Nat → csv → Option Exception × csv
  | [], _, self => (none, self)
  | line :: rest, i, self =>
    match self.read_rows line with
    | .error e => (some e, self)
    | .ok v =>
      if row_num = true then
        let Row_numbers := self.Row_numbers.set i ((i : ℚ) + 1)
        let with_number :=
          vector_insert self.Matrix_elements (i * (self.NCols + 1)) [Row_numbers.getD i 0]
        let with_values := vector_insert with_number (i * (self.NCols + 1) + 1) v
        read_data_loop row_num rest (i + 1)
          { self with Row_numbers := Row_numbers, Matrix_elements := with_values }
      else
        read_data_loop row_num rest (i + 1)
          { self with Matrix_elements := vector_insert self.Matrix_elements (i * self.NCols) v }

/-- Member `read_data(row_num)`. The first component is the returned matrix or the
exception thrown; the second is the object after the call, which a caller that catches
the exception can go on using. -/
def csv.read_data (tm : TextMode) (fs : FileSystem) (self : csv) (row_num : Bool) :
    Except Exception (matrix ℚ) × csv :=
  match fs self.datafile with
  | none => (.error .file_notfound, self)
  | some raw =>
    let cleared : csv :=
      { self with Matrix_elements := [], Row_numbers := List.replicate self.NRows 0 }
    match read_data_loop row_num (getline_all '\n' (tm.deliver (raw.drop self.NChar))) 0 cleared with
    | (some e, after) => (.error e, after)
    | (none, after) =>
      if row_num = true then
        (matrix.from_vector after.NRows (after.NCols + 1) after.Matrix_elements, after)
      else
        (matrix.from_vector after.NRows after.NCols after.Matrix_elements, after)

/-- Member `get_row_numbers`. -/
def csv.get_row_numbers (self : csv) : List ℚ := self.Row_numbers

/-! ## Notions of the specification -/

/-- Validity of a token in the words of the specification: space characters apart, the
token holds at most one `.`, a `-` only as its very first character, and otherwise only
ASCII digits. -/
def spec_valid_token (token : List Char) : Prop :=
  token.count '.' ≤ 1 ∧
    ∀ (i : Nat) (c : Char), token[i]? = some c →
      c = ' ' ∨ c = '.' ∨ (c = '-' ∧ i = 0) ∨ c.isDigit = true

/-- The decimal number written by a token once its space characters are ignored. -/
def spec_token_value (token : List Char) : Option ℚ :=
  stod (token.filter (fun c => c != ' '))

/-- A field that `read_rows` takes for a number: `is_valid_num` accepts it and `stod`
converts it. -/
def valid_number (field : List Char) : Bool :=
  is_valid_num field && (stod field).isSome

/-- Rows laid out one after the other, each preceded by its 1-based ordinal, the first
row having ordinal `i + 1`. -/
def numbered_rows : Nat → List (List ℚ) → List ℚ
  | _, [] => []
  | i, row :: rest => ((i : ℚ) + 1) :: row ++ numbered_rows (i + 1) rest

/-- The bytes of a text file whose lines all end with the two-byte terminator `\r\n`:
a header line followed by data lines. -/
def crlf_source (header : List Char) (lines : List (List Char)) : List Char :=
  header ++ ['\r', '\n'] ++ (lines.map (fun line => line ++ ['\r', '\n'])).flatten

/-- Two states of one reader object: they agree on every member that `read_data` never
assigns, and may differ in the buffers `Row_numbers` and `Matrix_elements`. -/
def csv.same_reader (a b : csv) : Prop :=
  a.datafile = b.datafile ∧ a.NCols = b.NCols ∧ a.headers = b.headers ∧
    a.NRows = b.NRows ∧ a.NChar = b.NChar

/-! ## Notions of the data model of matrices -/

/-- The invariant of the data model for a value of the C++ class: both dimensions are
positive and the vector holds exactly `rows * cols` elements, a number that fits in 64
bits as every vector size does. -/
def matrix.well_formed {T : Type} (m : matrix T) : Prop :=
  0 < m.rows ∧ 0 < m.cols ∧ m.elements.length = m.rows * m.cols ∧
    m.elements.length < UINT64_MOD

/-- The element at logical position `(row, col)` of a matrix in row-major order, the one
at flat index `row * cols + col`. -/
def matrix.entry {T : Type} [Zero T] (m : matrix T) (row col : Nat) : T :=
  m.elements.getD (row * m.cols + col) 0

/-- State of a result matrix of shape `rows x cols` while its cells are written in
row-major order: the cells with a flat index below `done` hold their final value
`f row col`, the cell with flat index `done` holds `current`, the later cells are zero. -/
def matrix.filled {T : Type} [Zero T] (f : Nat → Nat → T) (rows cols done : Nat) (current : T)
    (c : matrix T) : Prop :=
  c.rows = rows ∧ c.cols = cols ∧ c.elements.length = rows * cols ∧
    ∀ q : Nat, q < rows * cols →
      c.elements[q]? =
        some (if q < done then f (q / cols) (q % cols) else if q = done then current else 0)

/-- The sum of the products `a(i, k) * b(k, j)` for `k` below `n`, accumulated from zero
in increasing `k`. -/
def dot_product {T : Type} [Zero T] [Add T] [Mul T] (a b : matrix T) (i j n : Nat) : T :=
  (List.range n).foldl (fun acc k => acc + a.entry i k * b.entry k j) 0

/-- What the constructors establish: both dimensions are positive and the vector holds as
many elements as the product `rows * cols` computed in `uint64_t`. -/
def matrix.constructed {T : Type} (m : matrix T) : Prop :=
  0 < m.rows ∧ 0 < m.cols ∧ m.elements.length = m.rows * m.cols % UINT64_MOD

/-! ## Sample values -/

/-- A reader object whose header had a single column. -/
def one_column_reader : csv :=
  { datafile := "data.csv", NCols := 1, headers := ['a'], NRows := 1, NChar := 3,
    Row_numbers := [], Matrix_elements := [] }

/-- A file system that holds a single file with the given bytes under every name. -/
def single_file (content : String) : FileSystem := fun _ => some content.toList

/-- The 2 x 2 matrix of the integers 1, 2, 3, 4 in row-major order. -/
def sample_square : matrix ℤ := { rows := 2, cols := 2, elements := [1, 2, 3, 4] }

/-- A 2 x 3 matrix of integers. -/
def sample_wide : matrix ℤ := { rows := 2, cols := 3, elements := [1, 0, 2, 0, 1, 3] }

/-- A column of `2 ^ 32` zeros. -/
def tall_column : matrix ℤ :=
  { rows := 2 ^ 32, cols := 1, elements := List.replicate (2 ^ 32) 0 }

/-- A row of `2 ^ 32` zeros. -/
def long_row : matrix ℤ :=
  { rows := 1, cols := 2 ^ 32, elements := List.replicate (2 ^ 32) 0 }

/-- The matrix that `matrix(2 ^ 32, 2 ^ 32)` returns: its dimensions are positive and its
vector is empty, because the product of the dimensions is `0` in `uint64_t`. -/
def empty_square : matrix ℤ := { rows := 2 ^ 32, cols := 2 ^ 32, elements := [] }

/-- The reader that the constructor returns for the sample file `all_number.csv` with header
`a,b,c` and the rows `1,2,3` and `4,5,6`, its lines ended by two bytes. -/
def sample_reader : csv :=
  { datafile := "all_number.csv", NCols := 3, headers := "a,b,c".toList, NRows := 2, NChar := 7,
    Row_numbers := [], Matrix_elements := [] }

/-! # Theorems -/

/-! ## Token validation -/

/-- Loop invariant of `is_valid_num`: with at most one `.` seen so far, the loop accepts
exactly when the rest adds no second `.` and holds only permitted characters. -/
theorem is_valid_num_loop_iff (cs : List Char) (i dot : Nat) (hdot : dot ≤ 1) :
    is_valid_num_loop cs i dot = true ↔
      (dot + cs.count '.' ≤ 1 ∧
        ∀ (k : Nat) (c : Char), cs[k]? = some c →
          c = ' ' ∨ c = '.' ∨ (c = '-' ∧ i + k = 0) ∨ c.isDigit = true) := by
  induction cs generalizing i dot with
  | nil => simp [is_valid_num_loop, hdot]
  | cons a as ih =>
    have hall : (∀ (k : Nat) (c : Char), (a :: as)[k]? = some c →
          c = ' ' ∨ c = '.' ∨ (c = '-' ∧ i + k = 0) ∨ c.isDigit = true) ↔
        ((a = ' ' ∨ a = '.' ∨ (a = '-' ∧ i = 0) ∨ a.isDigit = true) ∧
          ∀ (k : Nat) (c : Char), as[k]? = some c →
            c = ' ' ∨ c = '.' ∨ (c = '-' ∧ i + 1 + k = 0) ∨ c.isDigit = true) := by
      constructor
      · intro h
        refine ⟨?_, ?_⟩
        · simpa using h 0 a (by simp)
        · intro k c hk
          have := h (k + 1) c (by simpa using hk)
          simpa [Nat.add_assoc, Nat.add_comm 1 k] using this
      · rintro ⟨h0, hs⟩ k c hk
        cases k with
        | zero =>
          simp at hk
          subst hk
          simpa using h0
        | succ k =>
          have := hs k c (by simpa using hk)
          simpa [Nat.add_assoc, Nat.add_comm 1 k] using this
    rw [hall]
    unfold is_valid_num_loop
    by_cases hsp : a = ' '
    · subst hsp
      have hc : List.count '.' (' ' :: as) = List.count '.' as := by
        rw [List.count_cons]; simp
      simp only [if_true, hc, ih (i + 1) dot hdot]
      simp
    · by_cases hd : a = '.'
      · subst hd
        have hc : List.count '.' ('.' :: as) = List.count '.' as + 1 := by
          rw [List.count_cons]; simp
        simp only [hsp, if_false, if_true, hc]
        by_cases h1 : dot + 1 > 1
        · simp only [h1, if_true]
          constructor
          · intro h; cases h
          · rintro ⟨h, -⟩; omega
        · simp only [h1, if_false]
          rw [ih (i + 1) (dot + 1) (by omega)]
          have : dot + 1 + List.count '.' as = dot + (List.count '.' as + 1) := by omega
          rw [this]
          simp
      · have hc : List.count '.' (a :: as) = List.count '.' as := by
          rw [List.count_cons]; simp [hd]
        simp only [hsp, hd, if_false, hc]
        by_cases hm : i = 0 ∧ a = '-'
        · simp only [hm, and_self, if_true]
          rw [← hm.1, ih (i + 1) dot hdot]
          simp [hm.1]
        · simp only [hm, if_false]
          by_cases hg : a.isDigit = false
          · simp only [hg, if_true]
            constructor
            · intro h; cases h
            · rintro ⟨-, h, -⟩
              rcases h with h | h | h | h
              · exact h.elim
              · exact h.elim
              · exact absurd ⟨h.2, h.1⟩ hm
              · cases h
          · have hg2 : a.isDigit = true := by simpa using hg
            simp only [hg2, if_false, Bool.true_eq_false]
            rw [ih (i + 1) dot hdot]
            simp

/-- C2: `is_valid_num` returns true exactly on the tokens that, space characters apart,
hold at most one `.`, a `-` only as the very first character of the token, and otherwise
only ASCII digits. -/
theorem is_valid_num_iff_spec (token : List Char) :
    is_valid_num token = true ↔ spec_valid_token token := by
  unfold is_valid_num spec_valid_token
  rw [is_valid_num_loop_iff token 0 0 (by omega)]
  simp


/-! ## Row parsing -/

/-- Value delivered by `stod` once the subject sequence and the values of its two digit
strings are known. -/
theorem stod_eq_of_subject (s : List Char) (neg : Bool) (ip fp : List Char) (a b : Nat)
    (hs : strtod_subject s = some (neg, ip, fp)) (ha : digits_value ip = a)
    (hb : digits_value fp = b) :
    stod s = some (if neg then -((a : ℚ) + (b : ℚ) / 10 ^ fp.length)
      else (a : ℚ) + (b : ℚ) / 10 ^ fp.length) := by
  simp [stod, hs, subject_value, ha, hb]

/-- A row with one column that is a valid number is read as that number. -/
theorem read_rows_single (self : csv) (line : List Char) (x : ℚ) (hN : self.NCols = 1)
    (hcols : getline_all ',' line = [line]) (hvalid : is_valid_num line = true)
    (hx : stod line = some x) : self.read_rows line = .ok [x] := by
  simp [csv.read_rows, hcols, read_rows_loop, hN, hvalid, hx]

/-- A row whose first column fails `is_valid_num` is rejected as an invalid number. -/
theorem read_rows_first_invalid (self : csv) (line column : List Char) (rest : List (List Char))
    (hN : 1 ≤ self.NCols) (hcols : getline_all ',' line = column :: rest)
    (hvalid : is_valid_num column = false) : self.read_rows line = .error .number_invalid := by
  have h : ¬ (0 + 1 > self.NCols) := by omega
  simp [csv.read_rows, hcols, read_rows_loop, h, hvalid]

/-- C5: in a one-column reader, `read_rows` rejects the field `12.3.4` as an invalid
number, reads the field `-12.3` as the single value -12.3 and reads the field ` 12 ` as the
single value 12. -/
theorem read_rows_examples (self : csv) (hN : self.NCols = 1) :
    self.read_rows "12.3.4".toList = .error .number_invalid ∧
    self.read_rows "-12.3".toList = .ok [-12.3] ∧
    self.read_rows " 12 ".toList = .ok [12] := by
  refine ⟨?_, ?_, ?_⟩
  · exact read_rows_first_invalid self _ "12.3.4".toList [] (by omega) (by decide) (by decide)
  · apply read_rows_single self _ _ hN (by decide) (by decide)
    rw [stod_eq_of_subject "-12.3".toList true "12".toList "3".toList 12 3
      (by decide) (by decide) (by decide)]
    norm_num
  · apply read_rows_single self _ _ hN (by decide) (by decide)
    rw [stod_eq_of_subject " 12 ".toList false "12".toList [] 12 0
      (by decide) (by decide) (by decide)]
    norm_num

/-- Witness of `read_rows_examples` on a concrete one-column reader. -/
theorem read_rows_examples_witness :
    one_column_reader.read_rows "12.3.4".toList = .error .number_invalid ∧
    one_column_reader.read_rows "-12.3".toList = .ok [-12.3] ∧
    one_column_reader.read_rows " 12 ".toList = .ok [12] :=
  read_rows_examples one_column_reader rfl

/-- C4: the one-column row `1 2` passes `is_valid_num` and `read_rows` succeeds on it, yet
the value returned is 1, while the decimal number written by the token with its space
ignored is 12: the accepted character `2` is dropped by the conversion. -/
theorem read_rows_drops_after_space :
    is_valid_num "1 2".toList = true ∧
    one_column_reader.read_rows "1 2".toList = .ok [1] ∧
    spec_token_value "1 2".toList = some 12 := by
  refine ⟨by decide, ?_, ?_⟩
  · apply read_rows_single one_column_reader _ _ rfl (by decide) (by decide)
    rw [stod_eq_of_subject "1 2".toList false "1".toList [] 1 0
      (by decide) (by decide) (by decide)]
    norm_num
  · have hf : List.filter (fun c => c != ' ') "1 2".toList = "12".toList := by decide
    rw [spec_token_value, hf, stod_eq_of_subject "12".toList false "12".toList [] 12 0
      (by decide) (by decide) (by decide)]
    norm_num


/-- In a string without digits the leading run of digits is empty. -/
theorem takeWhile_isDigit_of_no_digit (l : List Char) (h : ∀ c ∈ l, c.isDigit = false) :
    l.takeWhile Char.isDigit = [] := by
  cases l with
  | nil => rfl
  | cons a as => simp [List.takeWhile, h a (by simp)]

/-- In a string without digits nothing is dropped as a leading run of digits. -/
theorem dropWhile_isDigit_of_no_digit (l : List Char) (h : ∀ c ∈ l, c.isDigit = false) :
    l.dropWhile Char.isDigit = l := by
  cases l with
  | nil => rfl
  | cons a as => simp [List.dropWhile, h a (by simp)]

/-- A string without digits has no subject sequence. -/
theorem strtod_subject_of_no_digit (s : List Char) (h : ∀ c ∈ s, c.isDigit = false) :
    strtod_subject s = none := by
  have h1 : ∀ c ∈ s.dropWhile isspace, c.isDigit = false := fun c hc =>
    h c ((List.dropWhile_sublist isspace).subset hc)
  unfold strtod_subject
  generalize s.dropWhile isspace = s1 at h1
  have key : ∀ l : List Char, (∀ c ∈ l, c.isDigit = false) →
      (l.takeWhile Char.isDigit = [] ∧
        (match l.dropWhile Char.isDigit with
          | [] => []
          | c :: cs => if c = '.' then cs.takeWhile Char.isDigit else []) = []) := by
    intro l hl
    refine ⟨takeWhile_isDigit_of_no_digit l hl, ?_⟩
    rw [dropWhile_isDigit_of_no_digit l hl]
    cases l with
    | nil => rfl
    | cons a as =>
      by_cases ha : a = '.'
      · simp only [ha, if_true]
        exact takeWhile_isDigit_of_no_digit as (fun c hc => hl c (by simp [hc]))
      · simp [ha]
  cases s1 with
  | nil => simp
  | cons a as =>
    by_cases hm : a = '-'
    · have := key as (fun c hc => h1 c (by simp [hc]))
      simp [hm, this.1, this.2]
    · by_cases hp : a = '+'
      · have := key as (fun c hc => h1 c (by simp [hc]))
        simp [hp, this.1, this.2]
      · have := key (a :: as) h1
        simp only [hm, hp, if_false]
        simp [this.1, this.2]

/-- Once a column within the first `NCols` positions has no conversion, the row is
rejected as an invalid number, whatever the columns around it. -/
theorem read_rows_loop_of_no_conversion (NCols : Nat) (token : List Char)
    (hnone : stod token = none) (columns : List (List Char)) (i j : Nat) (v : List ℚ)
    (hi : columns[i]? = some token) (hj : j + i < NCols) :
    read_rows_loop NCols columns j v = .error .number_invalid := by
  induction columns generalizing i j v with
  | nil => simp at hi
  | cons column rest ih =>
    have hlt : ¬ (j + 1 > NCols) := by omega
    cases i with
    | zero =>
      simp at hi
      subst hi
      unfold read_rows_loop
      simp only [hlt, if_false, hnone]
      split <;> rfl
    | succ k =>
      have hk : rest[k]? = some token := by simpa using hi
      unfold read_rows_loop
      simp only [hlt, if_false]
      split
      · cases hx : stod column with
        | none => rfl
        | some x => exact ih k (j + 1) (v ++ [x]) hk (by omega)
      · rfl

/-- C6: a token that passes `is_valid_num` and holds no digit is never converted by
`stod`, and `read_rows` fails with `number_invalid` on every line that delivers such a
token as one of its first `NCols` columns. -/
theorem read_rows_digitless_token (self : csv) (line token : List Char) (i : Nat)
    (hi : i < self.NCols) (hmet : (getline_all ',' line)[i]? = some token)
    (_hvalid : is_valid_num token = true) (hdigitless : ∀ c ∈ token, c.isDigit = false) :
    stod token = none ∧ self.read_rows line = .error .number_invalid := by
  have hnone : stod token = none := by
    simp [stod, strtod_subject_of_no_digit token hdigitless]
  exact ⟨hnone, read_rows_loop_of_no_conversion self.NCols token hnone _ i 0 [] hmet (by omega)⟩

/-- Witness of `read_rows_digitless_token`: the token `.` in a one-column reader. -/
theorem read_rows_digitless_token_witness :
    stod ".".toList = none ∧
      one_column_reader.read_rows ".".toList = .error .number_invalid :=
  read_rows_digitless_token one_column_reader ".".toList ".".toList 0 (by decide) (by decide)
    (by decide) (by decide)


/-- A string that holds no delimiter and is followed by one is delivered whole by the
first `getline`. -/
theorem getline_all_append_delim (delim : Char) (f rest : List Char) (hf : delim ∉ f) :
    getline_all delim (f ++ delim :: rest) = f :: getline_all delim rest := by
  induction f with
  | nil => simp [getline_all]
  | cons a as ih =>
    have ha : a ≠ delim := fun h => hf (by simp [h])
    have has : delim ∉ as := fun h => hf (by simp [h])
    simp [getline_all, ha, ih has]

/-- A non-empty string that holds no delimiter is delivered whole by a single `getline`. -/
theorem getline_all_of_no_delim (delim : Char) (f : List Char) (hf : delim ∉ f) (hne : f ≠ []) :
    getline_all delim f = [f] := by
  induction f with
  | nil => exact absurd rfl hne
  | cons a as ih =>
    have ha : a ≠ delim := fun h => hf (by simp [h])
    have has : delim ∉ as := fun h => hf (by simp [h])
    cases as with
    | nil => simp [getline_all, ha]
    | cons b bs =>
      have := ih has (by simp)
      simp only [getline_all, ha, if_false] at this ⊢
      rw [this]

/-- Columns delivered from a line written as fields joined by commas: every field is
delivered, except a last field that is empty. -/
theorem getline_all_intercalate (fields : List (List Char)) (last : List Char)
    (hfields : ∀ f ∈ fields, ',' ∉ f) (hlast : ',' ∉ last) :
    getline_all ',' (List.intercalate [','] (fields ++ [last]))
      = fields ++ (if last = [] then [] else [last]) := by
  induction fields with
  | nil =>
    by_cases hl : last = []
    · simp [hl, List.intercalate, getline_all]
    · simp [hl, List.intercalate, getline_all_of_no_delim ',' last hlast hl]
  | cons f fs ih =>
    have hstep : List.intercalate [','] (f :: fs ++ [last])
        = f ++ ',' :: List.intercalate [','] (fs ++ [last]) := by
      cases fs with
      | nil => simp [List.intercalate, List.intersperse]
      | cons g gs => simp [List.intercalate, List.intersperse]
    rw [hstep, getline_all_append_delim ',' f _ (hfields f (by simp)),
      ih (fun g hg => hfields g (by simp [hg]))]
    simp

/-- A valid number holds no comma. -/
theorem valid_number_no_comma (field : List Char) (h : valid_number field = true) :
    ',' ∉ field := by
  intro hmem
  have hv : is_valid_num field = true := by
    simp [valid_number] at h; exact h.1
  rw [is_valid_num, is_valid_num_loop_iff field 0 0 (by omega)] at hv
  obtain ⟨k, hk, hget⟩ := List.getElem_of_mem hmem
  have := hv.2 k ',' (by rw [List.getElem?_eq_getElem hk, hget])
  rcases this with h | h | h | h
  · exact absurd h (by decide)
  · exact absurd h (by decide)
  · exact absurd h.1 (by decide)
  · exact absurd h (by decide)

/-- A valid number is not the empty string. -/
theorem valid_number_ne_nil (field : List Char) (h : valid_number field = true) :
    field ≠ [] := by
  intro hnil
  subst hnil
  revert h
  decide

/-- Columns that are valid numbers and fit below `NCols` are all converted and pushed. -/
theorem read_rows_loop_valid_prefix (NCols : Nat) (columns rest : List (List Char))
    (hvalid : ∀ f ∈ columns, valid_number f = true) (j : Nat) (v : List ℚ)
    (hj : j + columns.length ≤ NCols) :
    read_rows_loop NCols (columns ++ rest) j v
      = read_rows_loop NCols rest (j + columns.length) (v ++ columns.filterMap stod) := by
  induction columns generalizing j v with
  | nil => simp
  | cons column more ih =>
    have hlen : (column :: more).length = more.length + 1 := rfl
    rw [hlen] at hj
    have hlt : ¬ (j + 1 > NCols) := by omega
    have hc := hvalid column (by simp)
    simp only [valid_number, Bool.and_eq_true, Option.isSome_iff_exists] at hc
    obtain ⟨hv, x, hx⟩ := hc
    have hrec := ih (fun f hf => hvalid f (by simp [hf])) (j + 1) (v ++ [x]) (by omega)
    rw [List.cons_append, read_rows_loop]
    simp only [hlt, if_false, hv, if_true, hx]
    rw [hrec, List.filterMap_cons, hx, List.append_assoc, List.singleton_append,
      Nat.add_assoc, Nat.add_comm 1 more.length]
    rfl

/-- Valid numbers joined by commas are delivered one by one as the columns of the line. -/
theorem getline_all_intercalate_valid (fields : List (List Char))
    (hvalid : ∀ f ∈ fields, valid_number f = true) :
    getline_all ',' (List.intercalate [','] fields) = fields := by
  rcases List.eq_nil_or_concat fields with hnil | ⟨init, last, hfl⟩
  · subst hnil; simp [List.intercalate, getline_all]
  · subst hfl
    rw [List.concat_eq_append] at hvalid ⊢
    have hl : last ≠ [] := valid_number_ne_nil last (hvalid last (by simp))
    rw [getline_all_intercalate init last
      (fun f hf => valid_number_no_comma f (hvalid f (by simp [hf])))
      (valid_number_no_comma last (hvalid last (by simp)))]
    simp [hl]

/-- C3: in a reader with `NCols = N ≥ 1`, a line of `N - 1` comma-separated fields that
are all valid numbers fails with `more_column` (too few columns), and a line of `N + 1`
comma-separated fields whose first `N` are valid numbers fails with `less_column` (too many
columns) whatever the content of the extra field, provided that field is not empty. -/
theorem read_rows_column_count (self : csv) (N : Nat) (hN : self.NCols = N) (hpos : 1 ≤ N) :
    (∀ fields : List (List Char), fields.length = N - 1 →
      (∀ f ∈ fields, valid_number f = true) →
        self.read_rows (List.intercalate [','] fields) = .error .more_column) ∧
    (∀ (fields : List (List Char)) (extra : List Char), fields.length = N →
      (∀ f ∈ fields, valid_number f = true) → ',' ∉ extra → extra ≠ [] →
        self.read_rows (List.intercalate [','] (fields ++ [extra])) = .error .less_column) := by
  constructor
  · intro fields hlen hvalid
    have hcols := getline_all_intercalate_valid fields hvalid
    have hloop := read_rows_loop_valid_prefix self.NCols fields [] hvalid 0 []
      (by rw [hN, hlen]; omega)
    rw [List.append_nil] at hloop
    rw [csv.read_rows, hcols, hloop, read_rows_loop]
    have : fields.length < self.NCols := by rw [hN, hlen]; omega
    simp [this]
  · intro fields extra hlen hvalid hcomma hne
    have hcols := getline_all_intercalate fields extra
      (fun f hf => valid_number_no_comma f (hvalid f hf)) hcomma
    simp only [hne, if_false] at hcols
    have hloop := read_rows_loop_valid_prefix self.NCols fields [extra] hvalid 0 []
      (by rw [hN, hlen]; omega)
    rw [csv.read_rows, hcols, hloop, read_rows_loop]
    have : ¬ (fields.length + 1 ≤ self.NCols) := by rw [hN, hlen]; omega
    simp [this]

/-- Witness of `read_rows_column_count` with `N = 1`: the empty line has too few columns
and the line `1,x` has too many. -/
theorem read_rows_column_count_witness :
    one_column_reader.read_rows (List.intercalate [','] []) = .error .more_column ∧
    one_column_reader.read_rows (List.intercalate [','] (["1".toList] ++ ["x".toList]))
      = .error .less_column :=
  ⟨(read_rows_column_count one_column_reader 1 rfl (by decide)).1 [] rfl (by simp),
   (read_rows_column_count one_column_reader 1 rfl (by decide)).2 ["1".toList] "x".toList rfl
     (by decide) (by decide) (by decide)⟩

/-- Counterexample to the column-count property when the extra field is empty: with `N = 1`
the line `1,` has `N + 1` fields, exactly `N` commas and a valid first field, yet
`read_rows` succeeds on it, because `getline` never delivers the empty extra field. -/
theorem read_rows_trailing_comma :
    valid_number "1".toList = true ∧
    List.intercalate [','] (["1".toList] ++ [[]]) = "1,".toList ∧
    one_column_reader.read_rows "1,".toList = .ok [1] ∧
    one_column_reader.read_rows "1,".toList ≠ .error .less_column := by
  have hread : one_column_reader.read_rows "1,".toList = .ok [1] := by
    have hcols : getline_all ',' "1,".toList = ["1".toList] := by decide
    have hvalid : is_valid_num "1".toList = true := by decide
    have hx : stod "1".toList = some 1 := by
      rw [stod_eq_of_subject "1".toList false "1".toList [] 1 0
        (by decide) (by decide) (by decide)]
      norm_num
    rw [csv.read_rows, hcols]
    simp only [read_rows_loop, one_column_reader]
    rw [hvalid, hx]
    simp
  refine ⟨by decide, by decide, hread, ?_⟩
  rw [hread]
  intro h
  cases h

/-! ## Matrix construction and access -/

/-- C9: for `rows > 0`, `cols > 0` and a vector `flat` of `rows * cols` elements, the
constructor `matrix(rows, cols, flat)` succeeds, and for every `r < rows` and `c < cols`
both `at(r, c)` and `operator()(r, c)` return `flat[r * cols + c]`. -/
theorem from_vector_round_trip {T : Type} (rows cols : Nat) (flat : List T)
    (hrows : 0 < rows) (hcols : 0 < cols) (hsize : flat.length < UINT64_MOD)
    (hlen : flat.length = rows * cols) :
    ∃ m : matrix T, matrix.from_vector rows cols flat = .ok m ∧
      ∀ r c : Nat, r < rows → c < cols →
        ∃ h : r * cols + c < flat.length,
          m.at_ r c = .ok (flat.get ⟨r * cols + c, h⟩) ∧
          m.call r c = some (flat.get ⟨r * cols + c, h⟩) := by
  refine ⟨{ rows := rows, cols := cols, elements := flat }, ?_, ?_⟩
  · have hmod : rows * cols % UINT64_MOD = rows * cols := by
      apply Nat.mod_eq_of_lt
      rw [← hlen]; exact hsize
    simp [matrix.from_vector, hmod, hlen, Nat.pos_iff_ne_zero.mp hrows,
      Nat.pos_iff_ne_zero.mp hcols]
  · intro r c hr hc
    have hlt : r * cols + c < flat.length := by
      rw [hlen]
      calc r * cols + c < r * cols + cols := by omega
        _ = (r + 1) * cols := by ring
        _ ≤ rows * cols := Nat.mul_le_mul_right cols hr
    have hidx : (cols * r + c) % UINT64_MOD = r * cols + c := by
      rw [Nat.mul_comm cols r]
      exact Nat.mod_eq_of_lt (lt_trans hlt hsize)
    refine ⟨hlt, ?_, ?_⟩
    · simp [matrix.at_, matrix.flat_index, hidx, List.getElem?_eq_getElem hlt]
    · simp [matrix.call, matrix.flat_index, hidx, List.getElem?_eq_getElem hlt]

/-- Witness of `from_vector_round_trip`: the 2 x 3 matrix built from `[1, 2, 3, 4, 5, 6]`. -/
theorem from_vector_round_trip_witness :
    ∃ m : matrix ℚ, matrix.from_vector 2 3 [1, 2, 3, 4, 5, 6] = .ok m ∧
      ∀ r c : Nat, r < 2 → c < 3 →
        ∃ h : r * 3 + c < ([1, 2, 3, 4, 5, 6] : List ℚ).length,
          m.at_ r c = .ok (([1, 2, 3, 4, 5, 6] : List ℚ).get ⟨r * 3 + c, h⟩) ∧
          m.call r c = some (([1, 2, 3, 4, 5, 6] : List ℚ).get ⟨r * 3 + c, h⟩) :=
  from_vector_round_trip 2 3 [1, 2, 3, 4, 5, 6] (by decide) (by decide)
    (by simp [UINT64_MOD]) (by simp)

/-- Counterexample to the size check read with the exact product: `rows = cols = 2 ^ 32`
are non-zero 64-bit values and the empty vector does not have `rows * cols = 2 ^ 64`
elements, yet the constructor succeeds, because the product it compares with wraps around
to zero. -/
theorem from_vector_overflow :
    (2 ^ 32 < UINT64_MOD ∧ 2 ^ 32 ≠ 0) ∧
    ([] : List ℚ).length ≠ 2 ^ 32 * 2 ^ 32 ∧
    matrix.from_vector (2 ^ 32) (2 ^ 32) ([] : List ℚ)
      = .ok { rows := 2 ^ 32, cols := 2 ^ 32, elements := [] } ∧
    matrix.from_vector (2 ^ 32) (2 ^ 32) ([] : List ℚ) ≠ .error .initializer_wrong_size := by
  have h : matrix.from_vector (2 ^ 32) (2 ^ 32) ([] : List ℚ)
      = .ok { rows := 2 ^ 32, cols := 2 ^ 32, elements := [] } := by
    simp [matrix.from_vector, UINT64_MOD]
  refine ⟨by norm_num [UINT64_MOD], by norm_num, h, ?_⟩
  rw [h]
  intro hne
  cases hne

/-- C10: `matrix(rows, cols, flat)` fails with `zero_size` if `rows` or `cols` is zero;
otherwise it fails with `initializer_wrong_size` if and only if the length of `flat` differs
from the product `rows * cols` reduced modulo `2 ^ 64`, and otherwise it succeeds with
`get_rows() == rows` and `get_cols() == cols`. -/
theorem from_vector_outcome {T : Type} (rows cols : Nat) (flat : List T) :
    ((rows = 0 ∨ cols = 0) → matrix.from_vector rows cols flat = .error .zero_size) ∧
    (rows ≠ 0 → cols ≠ 0 →
      (matrix.from_vector rows cols flat = .error .initializer_wrong_size ↔
        flat.length ≠ rows * cols % UINT64_MOD)) ∧
    (rows ≠ 0 → cols ≠ 0 → flat.length = rows * cols % UINT64_MOD →
      ∃ m : matrix T, matrix.from_vector rows cols flat = .ok m ∧
        m.get_rows = rows ∧ m.get_cols = cols) := by
  refine ⟨fun h => by simp [matrix.from_vector, h], fun hr hc => ?_, fun hr hc hl => ?_⟩
  · by_cases hl : flat.length = rows * cols % UINT64_MOD
    · simp [matrix.from_vector, hr, hc, hl]
    · simp [matrix.from_vector, hr, hc, hl]
  · exact ⟨{ rows := rows, cols := cols, elements := flat },
      by simp [matrix.from_vector, hr, hc, hl], rfl, rfl⟩

/-- Witness of `from_vector_outcome`: a zero dimension, a vector of the wrong size and a
vector of the right size. -/
theorem from_vector_outcome_witness :
    matrix.from_vector 0 3 ([] : List ℚ) = .error .zero_size ∧
    matrix.from_vector 2 3 ([1] : List ℚ) = .error .initializer_wrong_size ∧
    ∃ m : matrix ℚ, matrix.from_vector 2 3 [1, 2, 3, 4, 5, 6] = .ok m ∧
      m.get_rows = 2 ∧ m.get_cols = 3 :=
  ⟨(from_vector_outcome 0 3 ([] : List ℚ)).1 (Or.inl rfl),
   ((from_vector_outcome 2 3 ([1] : List ℚ)).2.1 (by decide) (by decide)).2
     (by simp [UINT64_MOD]),
   (from_vector_outcome 2 3 ([1, 2, 3, 4, 5, 6] : List ℚ)).2.2 (by decide) (by decide)
     (by simp [UINT64_MOD])⟩

/-! ## The reader -/

/-- The constructor's row loop counts every line whose length is not two. -/
theorem count_rows_of_no_two (lines : List (List Char)) (NRows : Nat)
    (h : ∀ line ∈ lines, line.length ≠ 2) :
    count_rows lines NRows = .ok (NRows + lines.length) := by
  induction lines generalizing NRows with
  | nil => simp [count_rows]
  | cons line rest ih =>
    have h2 : line.length ≠ 2 := h line (by simp)
    rw [count_rows, if_neg h2, ih (NRows + 1) (fun l hl => h l (by simp [hl])),
      List.length_cons]
    congr 1
    omega

/-- The constructor's row loop throws only at a line of exactly two characters, and lines
without content are counted as rows. -/
theorem count_rows_error (lines : List (List Char)) (NRows : Nat) (e : Exception)
    (h : count_rows lines NRows = .error e) :
    ∃ (k : Nat) (line : List Char), lines[k]? = some line ∧ line.length = 2 ∧
      e = .empty_line (NRows + k + 1) := by
  induction lines generalizing NRows with
  | nil => simp [count_rows] at h
  | cons line rest ih =>
    rw [count_rows] at h
    by_cases h2 : line.length = 2
    · rw [if_pos h2] at h
      cases h
      exact ⟨0, line, by simp, h2, rfl⟩
    · rw [if_neg h2] at h
      obtain ⟨k, l, hk, hl, he⟩ := ih (NRows + 1) h
      refine ⟨k + 1, l, by simpa using hk, hl, ?_⟩
      rw [he]
      congr 1
      omega

/-- When the constructor's row loop ends normally it has counted every line. -/
theorem count_rows_ok (lines : List (List Char)) (NRows total : Nat)
    (h : count_rows lines NRows = .ok total) : total = NRows + lines.length := by
  induction lines generalizing NRows with
  | nil =>
    simp only [count_rows, Except.ok.injEq] at h
    simp [h]
  | cons line rest ih =>
    rw [count_rows] at h
    by_cases h2 : line.length = 2
    · rw [if_pos h2] at h
      cases h
    · rw [if_neg h2] at h
      rw [ih (NRows + 1) h, List.length_cons]
      omega

/-- A reader that the constructor returns has the name it was given, and its `NRows` is
the number of lines that `read_data` finds behind offset `NChar` of the same file. In
particular the index `i` of the row loop of `read_data` stays below `NRows`, the size of
`Row_numbers`, as long as the source is unchanged. -/
theorem csv_new_line_count (tm : TextMode) (fs : FileSystem) (name : String) (c : csv)
    (h : csv.new tm fs name = .ok c) :
    c.datafile = name ∧ ∃ raw : List Char, fs name = some raw ∧
      (getline_all '\n' (tm.deliver (raw.drop c.NChar))).length = c.NRows := by
  unfold csv.new at h
  cases hfile : fs name with
  | none => rw [hfile] at h; cases h
  | some raw =>
    rw [hfile] at h
    simp only at h
    cases hhead : getline '\n' (tm.deliver raw) with
    | none => rw [hhead] at h; cases h
    | some p =>
      obtain ⟨headers, rest⟩ := p
      rw [hhead] at h
      simp only at h
      cases hcount : count_rows
          (getline_all '\n' (tm.deliver (raw.drop (headers.length + 2)))) 0 with
      | error e => rw [hcount] at h; cases h
      | ok total =>
        rw [hcount] at h
        simp only [Except.ok.injEq] at h
        subst h
        refine ⟨rfl, raw, rfl, ?_⟩
        have := count_rows_ok _ 0 total hcount
        simp only [this]
        omega

/-- C7: on a source made of the header `a`, the data line `1` and then a line with no
content between two line terminators, the constructor does not throw `empty_line`: it
returns a reader that counts the blank line as a second row. This holds for two-byte and
for one-byte line terminators, under both stream conventions. -/
theorem blank_line_counted_as_row :
    (∀ tm : TextMode, ∃ c : csv,
      csv.new tm (single_file "a\r\n1\r\n\r\n") "data.csv" = .ok c ∧ c.NRows = 2) ∧
    (∀ tm : TextMode, ∃ c : csv,
      csv.new tm (single_file "a\n1\n\n") "data.csv" = .ok c ∧ c.NRows = 2) := by
  constructor
  · intro tm
    cases tm <;> exact ⟨_, rfl, rfl⟩
  · intro tm
    cases tm <;> exact ⟨_, rfl, rfl⟩

/-- The members that `read_data` never assigns keep their value through the row loop. -/
theorem read_data_loop_metadata (row_num : Bool) (lines : List (List Char)) (i : Nat) (self : csv) :
    (read_data_loop row_num lines i self).2.datafile = self.datafile ∧
    (read_data_loop row_num lines i self).2.NCols = self.NCols ∧
    (read_data_loop row_num lines i self).2.headers = self.headers ∧
    (read_data_loop row_num lines i self).2.NRows = self.NRows ∧
    (read_data_loop row_num lines i self).2.NChar = self.NChar := by
  induction lines generalizing i self with
  | nil => simp [read_data_loop]
  | cons line rest ih =>
    unfold read_data_loop
    cases hrow : self.read_rows line with
    | error e => simp
    | ok v =>
      cases row_num with
      | true => exact ih _ _
      | false => exact ih _ _

/-- The members that `read_data` never assigns keep their value through a call. -/
theorem read_data_metadata (tm : TextMode) (fs : FileSystem) (self : csv) (row_num : Bool) :
    (self.read_data tm fs row_num).2.datafile = self.datafile ∧
    (self.read_data tm fs row_num).2.NCols = self.NCols ∧
    (self.read_data tm fs row_num).2.headers = self.headers ∧
    (self.read_data tm fs row_num).2.NRows = self.NRows ∧
    (self.read_data tm fs row_num).2.NChar = self.NChar := by
  unfold csv.read_data
  cases hfile : fs self.datafile with
  | none => simp
  | some raw =>
    have hloop := read_data_loop_metadata row_num
      (getline_all '\n' (tm.deliver (raw.drop self.NChar))) 0
      { self with Matrix_elements := [], Row_numbers := List.replicate self.NRows 0 }
    simp only
    generalize read_data_loop row_num (getline_all '\n' (tm.deliver (raw.drop self.NChar))) 0
      { self with Matrix_elements := [], Row_numbers := List.replicate self.NRows 0 } = res
      at hloop ⊢
    obtain ⟨e, after⟩ := res
    cases e with
    | some e => exact hloop
    | none => cases row_num <;> exact hloop

/-- Two reader objects that differ only in their cached buffers get the same outcome from
`read_data`. -/
theorem read_data_congr (tm : TextMode) (fs : FileSystem) (a b : csv) (row_num : Bool)
    (h1 : a.datafile = b.datafile) (h2 : a.NCols = b.NCols) (h3 : a.headers = b.headers)
    (h4 : a.NRows = b.NRows) (h5 : a.NChar = b.NChar) :
    (a.read_data tm fs row_num).1 = (b.read_data tm fs row_num).1 := by
  cases a
  cases b
  simp only at h1 h2 h3 h4 h5
  subst h1 h2 h3 h4 h5
  unfold csv.read_data
  simp only
  split
  · rfl
  · rfl

/-- C8: the outcome of `read_data` does not depend on the buffers that an earlier call
left in the reader: after a first call with any flag, a second call on the same source
has the outcome that the same call has on the original reader. With equal flags, two
calls in a row therefore fail with the same exception or return the same matrix. -/
theorem read_data_twice (tm : TextMode) (fs : FileSystem) (self : csv) (first second : Bool) :
    ((self.read_data tm fs first).2.read_data tm fs second).1
      = (self.read_data tm fs second).1 := by
  obtain ⟨h1, h2, h3, h4, h5⟩ := read_data_metadata tm fs self first
  exact read_data_congr tm fs _ _ second h1 h2 h3 h4 h5


/-- Conversion of a string of digits without sign, radix character or surrounding space. -/
theorem stod_of_digits (s : List Char) (n : Nat)
    (hs : strtod_subject s = some (false, s, [])) (hn : digits_value s = n) :
    stod s = some (n : ℚ) := by
  rw [stod_eq_of_subject s false s [] n 0 hs hn rfl]
  simp

/-- Unfolding of `read_data` once the file and its data lines are known. -/
theorem read_data_of_lines (tm : TextMode) (fs : FileSystem) (self : csv) (row_num : Bool)
    (raw : List Char) (lines : List (List Char)) (hfile : fs self.datafile = some raw)
    (hlines : getline_all '\n' (tm.deliver (raw.drop self.NChar)) = lines) :
    self.read_data tm fs row_num =
      match read_data_loop row_num lines 0
        { self with Matrix_elements := [], Row_numbers := List.replicate self.NRows 0 } with
      | (some e, after) => (.error e, after)
      | (none, after) =>
        if row_num = true then
          (matrix.from_vector after.NRows (after.NCols + 1) after.Matrix_elements, after)
        else
          (matrix.from_vector after.NRows after.NCols after.Matrix_elements, after) := by
  unfold csv.read_data
  simp only [hfile, hlines]

/-- Evaluation of the `read_rows` loop on columns that are all valid numbers, as many as
the header has. -/
theorem read_rows_loop_of_valid (N : Nat) (columns : List (List Char))
    (hvalid : ∀ f ∈ columns, valid_number f = true) (hlen : columns.length = N) :
    read_rows_loop N columns 0 [] = .ok (columns.filterMap stod) := by
  have hloop := read_rows_loop_valid_prefix N columns [] hvalid 0 [] (by omega)
  rw [List.append_nil] at hloop
  rw [hloop, read_rows_loop]
  simp [hlen]

/-- A successful `read_rows` loop delivers one value per remaining column position. -/
theorem read_rows_loop_length (NCols : Nat) (columns : List (List Char)) (j : Nat)
    (v w : List ℚ) (hj : j ≤ NCols) (h : read_rows_loop NCols columns j v = .ok w) :
    w.length = v.length + (NCols - j) := by
  induction columns generalizing j v with
  | nil =>
    unfold read_rows_loop at h
    split at h
    · cases h
    · cases h
      omega
  | cons column rest ih =>
    unfold read_rows_loop at h
    split at h
    · cases h
    · split at h
      · cases hx : stod column with
        | none => rw [hx] at h; cases h
        | some x =>
          rw [hx] at h
          have := ih (j + 1) (v ++ [x]) (by omega) h
          rw [this, List.length_append, List.length_singleton]
          omega
      · cases h

/-- A row that `read_rows` accepts has exactly `NCols` values. -/
theorem read_rows_length (self : csv) (line : List Char) (v : List ℚ)
    (h : self.read_rows line = .ok v) : v.length = self.NCols := by
  have := read_rows_loop_length self.NCols _ 0 [] v (Nat.zero_le _) h
  simpa using this

/-- Inserting at the end of a vector appends. -/
theorem vector_insert_end {α : Type} (vec values : List α) (pos : Nat) (h : vec.length = pos) :
    vector_insert vec pos values = vec ++ values := by
  subst h
  simp [vector_insert]

/-- The row loop of `read_data(false)` over lines that are all accepted appends their
values in order. -/
theorem read_data_loop_false (lines : List (List Char)) (rows : List (List ℚ)) (i : Nat)
    (N : Nat) (self : csv) (hN : self.NCols = N)
    (hrows : List.Forall₂ (fun line row => read_rows_loop N (getline_all ',' line) 0 []
      = .ok row) lines rows)
    (hsize : self.Matrix_elements.length = i * self.NCols) :
    read_data_loop false lines i self
      = (none, { self with Matrix_elements := self.Matrix_elements ++ rows.flatten }) := by
  induction hrows generalizing i self with
  | nil => simp [read_data_loop]
  | @cons line row lines rows hrow _ ih =>
    have hread : self.read_rows line = .ok row := by rw [csv.read_rows, hN]; exact hrow
    have hlen := read_rows_length self line row hread
    unfold read_data_loop
    rw [hread]
    simp only [Bool.false_eq_true, if_false]
    rw [vector_insert_end _ _ _ hsize,
      ih (i + 1) { self with Matrix_elements := self.Matrix_elements ++ row } hN
        (by simp only [List.length_append, hsize, hlen]; ring)]
    simp

/-- The row loop of `read_data(true)` over lines that are all accepted appends each row
preceded by its ordinal, and leaves the length of `Row_numbers` as it was. -/
theorem read_data_loop_true (lines : List (List Char)) (rows : List (List ℚ)) (i : Nat)
    (N : Nat) (self : csv) (hN : self.NCols = N)
    (hrows : List.Forall₂ (fun line row => read_rows_loop N (getline_all ',' line) 0 []
      = .ok row) lines rows)
    (hsize : self.Matrix_elements.length = i * (self.NCols + 1))
    (hbound : i + lines.length ≤ self.Row_numbers.length) :
    (read_data_loop true lines i self).1 = none ∧
    (read_data_loop true lines i self).2.Matrix_elements
      = self.Matrix_elements ++ numbered_rows i rows ∧
    (read_data_loop true lines i self).2.Row_numbers.length = self.Row_numbers.length := by
  induction hrows generalizing i self with
  | nil => simp [read_data_loop, numbered_rows]
  | @cons line row lines rows hrow _ ih =>
    have hread : self.read_rows line = .ok row := by rw [csv.read_rows, hN]; exact hrow
    have hlen := read_rows_length self line row hread
    have hi : i < self.Row_numbers.length := by
      simp only [List.length_cons] at hbound; omega
    unfold read_data_loop
    rw [hread]
    simp only [if_true]
    have hget : (self.Row_numbers.set i ((i : ℚ) + 1)).getD i 0 = (i : ℚ) + 1 := by
      simp [List.getD, hi]
    rw [hget, vector_insert_end _ _ _ hsize,
      vector_insert_end _ _ _ (by simp [hsize])]
    have := ih (i + 1)
      { self with Row_numbers := self.Row_numbers.set i ((i : ℚ) + 1),
                  Matrix_elements := self.Matrix_elements ++ [(i : ℚ) + 1] ++ row }
      hN (by simp only [List.length_append, List.length_singleton, hsize, hlen]; ring)
      (by simp only [List.length_set]; simp only [List.length_cons] at hbound; omega)
    obtain ⟨h1, h2, h3⟩ := this
    refine ⟨h1, ?_, ?_⟩
    · rw [h2]; simp [numbered_rows]
    · rw [h3]; simp

/-- Rows accepted by `read_rows`, as many as there are lines, each of `N` values. -/
theorem rows_shape (N : Nat) (lines : List (List Char)) (rows : List (List ℚ))
    (hrows : List.Forall₂ (fun line row => read_rows_loop N (getline_all ',' line) 0 []
      = .ok row) lines rows) :
    rows.length = lines.length ∧ ∀ row ∈ rows, row.length = N := by
  induction hrows with
  | nil => simp
  | @cons line row lines rows hrow _ ih =>
    have hlen := read_rows_loop_length N _ 0 [] row (Nat.zero_le _) hrow
    refine ⟨by simp [ih.1], ?_⟩
    intro r hr
    rcases List.mem_cons.mp hr with h | h
    · subst h; simpa using hlen
    · exact ih.2 r h

/-- Number of elements of rows of equal length laid out one after the other. -/
theorem flatten_length_of_shape (N : Nat) (rows : List (List ℚ))
    (h : ∀ row ∈ rows, row.length = N) : rows.flatten.length = rows.length * N := by
  induction rows with
  | nil => simp
  | cons row rest ih =>
    rw [List.flatten_cons, List.length_append, h row (by simp),
      ih (fun r hr => h r (by simp [hr])), List.length_cons]
    ring

/-- Number of elements of numbered rows of equal length. -/
theorem numbered_rows_length (N : Nat) (rows : List (List ℚ)) (i : Nat)
    (h : ∀ row ∈ rows, row.length = N) : (numbered_rows i rows).length = rows.length * (N + 1) := by
  induction rows generalizing i with
  | nil => simp [numbered_rows]
  | cons row rest ih =>
    rw [numbered_rows, List.length_append, List.length_cons, h row (by simp),
      ih (i + 1) (fun r hr => h r (by simp [hr])), List.length_cons]
    ring

/-- Outcome of `read_data` when every data line is accepted by `read_rows` and the lines
are as many as the constructor counted. -/
theorem read_data_ok (tm : TextMode) (fs : FileSystem) (self : csv) (row_num : Bool)
    (raw : List Char) (lines : List (List Char)) (rows : List (List ℚ))
    (hfile : fs self.datafile = some raw)
    (hlines : getline_all '\n' (tm.deliver (raw.drop self.NChar)) = lines)
    (hrows : List.Forall₂ (fun line row => read_rows_loop self.NCols (getline_all ',' line) 0 []
      = .ok row) lines rows)
    (hcount : lines.length = self.NRows) (hR : self.NRows ≠ 0) (hC : self.NCols ≠ 0)
    (hfit : self.NRows * (self.NCols + 1) < UINT64_MOD) :
    (self.read_data tm fs row_num).1 =
      .ok (if row_num = true then
          { rows := self.NRows, cols := self.NCols + 1, elements := numbered_rows 0 rows }
        else { rows := self.NRows, cols := self.NCols, elements := rows.flatten }) := by
  obtain ⟨hlen, hshape⟩ := rows_shape self.NCols lines rows hrows
  rw [read_data_of_lines tm fs self row_num raw lines hfile hlines]
  cases row_num with
  | false =>
    rw [read_data_loop_false lines rows 0 self.NCols
      { self with Matrix_elements := [], Row_numbers := List.replicate self.NRows 0 } rfl hrows
      (by simp)]
    have hsz : rows.flatten.length = self.NRows * self.NCols % UINT64_MOD := by
      rw [flatten_length_of_shape self.NCols rows hshape, hlen, hcount]
      symm
      apply Nat.mod_eq_of_lt
      calc self.NRows * self.NCols ≤ self.NRows * (self.NCols + 1) :=
            Nat.mul_le_mul_left _ (Nat.le_succ _)
        _ < UINT64_MOD := hfit
    simp [matrix.from_vector, hR, hC, hsz]
  | true =>
    obtain ⟨h1, h2, -⟩ := read_data_loop_true lines rows 0 self.NCols
      { self with Matrix_elements := [], Row_numbers := List.replicate self.NRows 0 } rfl hrows
      (by simp) (by simp [hcount])
    obtain ⟨hd, hc, -, hr, -⟩ := read_data_loop_metadata true lines 0
      { self with Matrix_elements := [], Row_numbers := List.replicate self.NRows 0 }
    generalize read_data_loop true lines 0
      { self with Matrix_elements := [], Row_numbers := List.replicate self.NRows 0 } = res
      at h1 h2 hd hc hr ⊢
    obtain ⟨e, after⟩ := res
    simp only at h1 h2 hc hr
    subst h1
    have hsz : (numbered_rows 0 rows).length = self.NRows * (self.NCols + 1) % UINT64_MOD := by
      rw [numbered_rows_length self.NCols rows 0 hshape, hlen, hcount]
      exact (Nat.mod_eq_of_lt hfit).symm
    simp [matrix.from_vector, hr, hc, h2, hR, hsz]

/-- The row `1,2,3` in a three-column reader. -/
theorem read_rows_loop_123 :
    read_rows_loop 3 (getline_all ',' "1,2,3".toList) 0 [] = .ok [1, 2, 3] := by
  have hcols : getline_all ',' "1,2,3".toList = ["1".toList, "2".toList, "3".toList] := by
    decide
  rw [hcols, read_rows_loop_of_valid 3 ["1".toList, "2".toList, "3".toList] (by decide) rfl]
  simp only [List.filterMap_cons, List.filterMap_nil,
    stod_of_digits "1".toList 1 (by decide) (by decide),
    stod_of_digits "2".toList 2 (by decide) (by decide),
    stod_of_digits "3".toList 3 (by decide) (by decide)]
  simp

/-- The row `4,5,6` in a three-column reader. -/
theorem read_rows_loop_456 :
    read_rows_loop 3 (getline_all ',' "4,5,6".toList) 0 [] = .ok [4, 5, 6] := by
  have hcols : getline_all ',' "4,5,6".toList = ["4".toList, "5".toList, "6".toList] := by
    decide
  rw [hcols, read_rows_loop_of_valid 3 ["4".toList, "5".toList, "6".toList] (by decide) rfl]
  simp only [List.filterMap_cons, List.filterMap_nil,
    stod_of_digits "4".toList 4 (by decide) (by decide),
    stod_of_digits "5".toList 5 (by decide) (by decide),
    stod_of_digits "6".toList 6 (by decide) (by decide)]
  simp

/-- The example of the specification, on a source with two-byte line terminators read
through a stream that translates them: header `a,b,c`, rows `1,2,3` and `4,5,6`. -/
theorem sample_run :
    ∃ c : csv,
      csv.new .windows (single_file "a,b,c\r\n1,2,3\r\n4,5,6\r\n") "all_number.csv" = .ok c ∧
      (c.read_data .windows (single_file "a,b,c\r\n1,2,3\r\n4,5,6\r\n") false).1
        = .ok { rows := 2, cols := 3, elements := [1, 2, 3, 4, 5, 6] } ∧
      (c.read_data .windows (single_file "a,b,c\r\n1,2,3\r\n4,5,6\r\n") true).1
        = .ok { rows := 2, cols := 4, elements := [1, 1, 2, 3, 2, 4, 5, 6] } := by
  have hrows : List.Forall₂
      (fun line row => read_rows_loop 3 (getline_all ',' line) 0 [] = .ok row)
      ["1,2,3".toList, "4,5,6".toList] [[1, 2, 3], [4, 5, 6]] :=
    List.Forall₂.cons read_rows_loop_123 (List.Forall₂.cons read_rows_loop_456 List.Forall₂.nil)
  refine ⟨⟨"all_number.csv", 3, "a,b,c".toList, 2, 7, [], []⟩, rfl, ?_, ?_⟩
  · rw [read_data_ok .windows _ _ false "a,b,c\r\n1,2,3\r\n4,5,6\r\n".toList
      ["1,2,3".toList, "4,5,6".toList] [[1, 2, 3], [4, 5, 6]] rfl (by decide) hrows rfl
      (by decide) (by decide) (by norm_num [UINT64_MOD])]
    simp
  · rw [read_data_ok .windows _ _ true "a,b,c\r\n1,2,3\r\n4,5,6\r\n".toList
      ["1,2,3".toList, "4,5,6".toList] [[1, 2, 3], [4, 5, 6]] rfl (by decide) hrows rfl
      (by decide) (by decide) (by norm_num [UINT64_MOD])]
    simp [numbered_rows]
    norm_num

/-- The row `2`, which is what is left of the row `12` when its first byte is skipped. -/
theorem read_rows_loop_2 :
    read_rows_loop 1 (getline_all ',' "2".toList) 0 [] = .ok [2] := by
  have hcols : getline_all ',' "2".toList = ["2".toList] := by decide
  rw [hcols, read_rows_loop_of_valid 1 ["2".toList] (by decide) rfl]
  simp only [List.filterMap_cons, List.filterMap_nil,
    stod_of_digits "2".toList 2 (by decide) (by decide)]
  simp

/-- C1: the source with header `a` and the single data row `12` is a header of one field
followed by one non-blank line holding one valid numeric token. With two-byte line
terminators the constructor throws `empty_line` for row 1, under both stream conventions.
With one-byte line terminators the constructor succeeds and `read_data(false)` returns the
1 x 1 matrix `[[2]]`, the first byte of the row being skipped. In neither case is the
matrix `[[12]]` returned. -/
theorem two_character_row_not_read :
    valid_number "12".toList = true ∧
    (∀ tm : TextMode,
      csv.new tm (single_file "a\r\n12\r\n") "data.csv" = .error (.empty_line 1)) ∧
    (∀ tm : TextMode, ∃ c : csv,
      csv.new tm (single_file "a\n12\n") "data.csv" = .ok c ∧
      (c.read_data tm (single_file "a\n12\n") false).1
        = .ok { rows := 1, cols := 1, elements := [2] }) := by
  refine ⟨by decide, ?_, ?_⟩
  · intro tm
    cases tm <;> rfl
  · intro tm
    have hrows : List.Forall₂
        (fun line row => read_rows_loop 1 (getline_all ',' line) 0 [] = .ok row)
        ["2".toList] [[2]] :=
      List.Forall₂.cons read_rows_loop_2 List.Forall₂.nil
    refine ⟨⟨"data.csv", 1, "a".toList, 1, 3, [], []⟩, by cases tm <;> rfl, ?_⟩
    rw [read_data_ok tm _ _ false "a\n12\n".toList ["2".toList] [[2]] rfl
      (by cases tm <;> decide) hrows rfl (by decide) (by decide) (by norm_num [UINT64_MOD])]
    simp

/-! ## Sources with two-byte line terminators -/

/-- Repeated `getline` is `getline_all`: the first call delivers the first string and the
remaining calls deliver the strings of what is left unread. -/
theorem getline_all_eq_getline (delim : Char) (s : List Char) :
    getline_all delim s =
      match getline delim s with
      | none => []
      | some (line, rest) => line :: getline_all delim rest := by
  induction s with
  | nil => simp [getline, getline_all]
  | cons a as ih =>
    by_cases ha : a = delim
    · subst ha
      simp [getline, getline_all, List.takeWhile, List.dropWhile]
    · have hne : (a != delim) = true := by simp [ha]
      cases as with
      | nil => simp [getline, getline_all, List.takeWhile, List.dropWhile, ha, hne]
      | cons b bs =>
        rw [getline_all, if_neg ha, ih]
        simp [getline, List.takeWhile_cons, List.dropWhile_cons, hne]

/-- A translating stream delivers a line without carriage return and its two-byte
terminator as the line followed by a line feed. -/
theorem crlf_to_lf_line (line rest : List Char) (h : '\r' ∉ line) :
    crlf_to_lf (line ++ '\r' :: '\n' :: rest) = line ++ '\n' :: crlf_to_lf rest := by
  induction line with
  | nil => simp [crlf_to_lf]
  | cons a as ih =>
    have ha : a ≠ '\r' := fun hc => h (by simp [hc])
    have has : '\r' ∉ as := fun hc => h (by simp [hc])
    simp [crlf_to_lf, ha, ih has]

/-- A translating stream delivers lines with two-byte terminators as the same lines with
line feeds. -/
theorem crlf_to_lf_lines (lines : List (List Char)) (h : ∀ line ∈ lines, '\r' ∉ line) :
    crlf_to_lf (lines.map (fun line => line ++ ['\r', '\n'])).flatten
      = (lines.map (fun line => line ++ ['\n'])).flatten := by
  induction lines with
  | nil => simp [crlf_to_lf]
  | cons line rest ih =>
    simp only [List.map_cons, List.flatten_cons, List.append_assoc, List.cons_append,
      List.nil_append]
    rw [crlf_to_lf_line line _ (h line (by simp)), ih (fun l hl => h l (by simp [hl]))]

/-- Lines without line feed, each followed by one, are delivered one by one. -/
theorem getline_all_lines (lines : List (List Char)) (h : ∀ line ∈ lines, '\n' ∉ line) :
    getline_all '\n' (lines.map (fun line => line ++ ['\n'])).flatten = lines := by
  induction lines with
  | nil => simp [getline_all]
  | cons line rest ih =>
    simp only [List.map_cons, List.flatten_cons, List.append_assoc, List.cons_append,
      List.nil_append]
    rw [getline_all_append_delim '\n' line _ (h line (by simp)),
      ih (fun l hl => h l (by simp [hl]))]

/-- The first `getline` on a line without line feed that is followed by one. -/
theorem getline_first_line (line rest : List Char) (h : '\n' ∉ line) :
    getline '\n' (line ++ '\n' :: rest) = some (line, rest) := by
  have htake : ∀ l : List Char, '\n' ∉ l →
      (l ++ '\n' :: rest).takeWhile (fun c => c != '\n') = l ∧
      (l ++ '\n' :: rest).dropWhile (fun c => c != '\n') = '\n' :: rest := by
    intro l hl
    induction l with
    | nil => simp
    | cons a as ih =>
      have ha : (a != '\n') = true := by
        have : a ≠ '\n' := fun hc => hl (by simp [hc])
        simp [this]
      have has : '\n' ∉ as := fun hc => hl (by simp [hc])
      simp [List.takeWhile_cons, List.dropWhile_cons, ha, ih has]
  obtain ⟨h1, h2⟩ := htake line h
  cases line with
  | nil => simp [getline]
  | cons a as =>
    simp only [List.cons_append] at h1 h2 ⊢
    simp only [getline, h1, h2]
    simp

/-- The data lines that both passes deliver from a source with two-byte terminators read
through a translating stream. -/
theorem data_lines_crlf_source (header : List Char) (lines : List (List Char))
    (hlines : ∀ line ∈ lines, '\n' ∉ line ∧ '\r' ∉ line) :
    getline_all '\n'
        (TextMode.windows.deliver ((crlf_source header lines).drop (header.length + 2)))
      = lines := by
  have hdrop : (crlf_source header lines).drop (header.length + 2)
      = (lines.map (fun line => line ++ ['\r', '\n'])).flatten := by
    have : header.length + 2 = (header ++ ['\r', '\n']).length := by simp
    rw [crlf_source, this, List.drop_left]
  rw [hdrop, TextMode.deliver, crlf_to_lf_lines lines (fun l hl => (hlines l hl).2),
    getline_all_lines lines (fun l hl => (hlines l hl).1)]

/-- The constructor on a source with two-byte terminators read through a translating
stream, when no data line has exactly two characters. -/
theorem csv_new_crlf_source (fs : FileSystem) (name : String) (header : List Char)
    (lines : List (List Char)) (hfile : fs name = some (crlf_source header lines))
    (hn : '\n' ∉ header) (hr : '\r' ∉ header)
    (hlines : ∀ line ∈ lines, '\n' ∉ line ∧ '\r' ∉ line)
    (htwo : ∀ line ∈ lines, line.length ≠ 2) :
    csv.new .windows fs name =
      .ok { datafile := name, NCols := (getline_all ',' header).length, headers := header,
            NRows := lines.length, NChar := header.length + 2,
            Row_numbers := [], Matrix_elements := [] } := by
  have hhead : getline '\n' (TextMode.windows.deliver (crlf_source header lines))
      = some (header, crlf_to_lf (lines.map (fun line => line ++ ['\r', '\n'])).flatten) := by
    rw [crlf_source, TextMode.deliver, List.append_assoc]
    simp only [List.cons_append, List.nil_append]
    rw [crlf_to_lf_line header _ hr, getline_first_line header _ hn]
  have hdata := data_lines_crlf_source header lines hlines
  unfold csv.new
  simp only [hfile, hhead, hdata, count_rows_of_no_two lines 0 htwo, Nat.zero_add]

/-- A valid number holds neither a line feed nor a carriage return. -/
theorem valid_number_no_terminator (field : List Char) (h : valid_number field = true) :
    '\n' ∉ field ∧ '\r' ∉ field := by
  have hv : is_valid_num field = true := by
    simp [valid_number] at h; exact h.1
  rw [is_valid_num, is_valid_num_loop_iff field 0 0 (by omega)] at hv
  constructor
  · intro hmem
    obtain ⟨k, hk, hget⟩ := List.getElem_of_mem hmem
    rcases hv.2 k '\n' (by rw [List.getElem?_eq_getElem hk, hget]) with h | h | h | h
    · exact absurd h (by decide)
    · exact absurd h (by decide)
    · exact absurd h.1 (by decide)
    · exact absurd h (by decide)
  · intro hmem
    obtain ⟨k, hk, hget⟩ := List.getElem_of_mem hmem
    rcases hv.2 k '\r' (by rw [List.getElem?_eq_getElem hk, hget]) with h | h | h | h
    · exact absurd h (by decide)
    · exact absurd h (by decide)
    · exact absurd h.1 (by decide)
    · exact absurd h (by decide)

/-- A character of fields joined by commas is a comma or a character of one of the fields. -/
theorem mem_intercalate_comma (fields : List (List Char)) (c : Char)
    (h : c ∈ List.intercalate [','] fields) : c = ',' ∨ ∃ f ∈ fields, c ∈ f := by
  induction fields with
  | nil => simp [List.intercalate] at h
  | cons f fs ih =>
    cases fs with
    | nil =>
      simp [List.intercalate] at h
      exact Or.inr ⟨f, by simp, h⟩
    | cons g gs =>
      have hstep : List.intercalate [','] (f :: g :: gs)
          = f ++ ',' :: List.intercalate [','] (g :: gs) := by
        simp [List.intercalate, List.intersperse]
      rw [hstep, List.mem_append, List.mem_cons] at h
      rcases h with h | h | h
      · exact Or.inr ⟨f, by simp, h⟩
      · exact Or.inl h
      · rcases ih h with h' | ⟨f', hf', hc⟩
        · exact Or.inl h'
        · exact Or.inr ⟨f', by simp [hf'], hc⟩

/-- A line of valid numbers joined by commas holds neither a line feed nor a carriage
return. -/
theorem row_text_no_terminator (fields : List (List Char))
    (hvalid : ∀ f ∈ fields, valid_number f = true) :
    '\n' ∉ List.intercalate [','] fields ∧ '\r' ∉ List.intercalate [','] fields := by
  constructor
  · intro h
    rcases mem_intercalate_comma fields '\n' h with h | ⟨f, hf, hc⟩
    · exact absurd h (by decide)
    · exact (valid_number_no_terminator f (hvalid f hf)).1 hc
  · intro h
    rcases mem_intercalate_comma fields '\r' h with h | ⟨f, hf, hc⟩
    · exact absurd h (by decide)
    · exact (valid_number_no_terminator f (hvalid f hf)).2 hc

/-- Every row of a table of valid numbers with `H` fields per row is accepted by
`read_rows` in a reader with `H` columns, with the values of its fields. -/
theorem table_rows_accepted (H : Nat) (table : List (List (List Char)))
    (hshape : ∀ fields ∈ table, fields.length = H ∧ ∀ f ∈ fields, valid_number f = true) :
    List.Forall₂
      (fun line row => read_rows_loop H (getline_all ',' line) 0 [] = .ok row)
      (table.map (List.intercalate [','])) (table.map (List.filterMap stod)) := by
  induction table with
  | nil => exact List.Forall₂.nil
  | cons fields rest ih =>
    obtain ⟨hlen, hvalid⟩ := hshape fields (by simp)
    refine List.Forall₂.cons ?_ (ih (fun f hf => hshape f (by simp [hf])))
    rw [getline_all_intercalate_valid fields hvalid,
      read_rows_loop_of_valid H fields hvalid hlen]

/-- Reading a well-formed source: a header without line terminator characters followed by
at least one row, every row made of as many valid numbers as the header has columns,
all lines ended by the two-byte terminator and read through a translating stream. If no
row is exactly two characters long, construction succeeds, `read_data(false)` returns the
`R x H` matrix of the values of the fields and `read_data(true)` returns the `R x (H + 1)`
matrix of the rows preceded by their ordinals. -/
theorem read_crlf_table (fs : FileSystem) (name : String) (header : List Char)
    (table : List (List (List Char))) (H : Nat)
    (hfile : fs name = some (crlf_source header (table.map (List.intercalate [',']))))
    (hn : '\n' ∉ header) (hr : '\r' ∉ header) (hH : (getline_all ',' header).length = H)
    (hHpos : 1 ≤ H) (hR : 1 ≤ table.length)
    (hshape : ∀ fields ∈ table, fields.length = H ∧ ∀ f ∈ fields, valid_number f = true)
    (htwo : ∀ fields ∈ table, (List.intercalate [','] fields).length ≠ 2)
    (hfit : table.length * (H + 1) < UINT64_MOD) :
    ∃ c : csv, csv.new .windows fs name = .ok c ∧
      (c.read_data .windows fs false).1 =
        .ok { rows := table.length, cols := H,
              elements := (table.map (List.filterMap stod)).flatten } ∧
      (c.read_data .windows fs true).1 =
        .ok { rows := table.length, cols := H + 1,
              elements := numbered_rows 0 (table.map (List.filterMap stod)) } := by
  have hlines : ∀ line ∈ table.map (List.intercalate [',']), '\n' ∉ line ∧ '\r' ∉ line := by
    intro line hl
    obtain ⟨fields, hf, rfl⟩ := List.mem_map.mp hl
    exact row_text_no_terminator fields (hshape fields hf).2
  have htwo2 : ∀ line ∈ table.map (List.intercalate [',']), line.length ≠ 2 := by
    intro line hl
    obtain ⟨fields, hf, rfl⟩ := List.mem_map.mp hl
    exact htwo fields hf
  have hnew := csv_new_crlf_source fs name header _ hfile hn hr hlines htwo2
  rw [hH, List.length_map] at hnew
  have hdata := data_lines_crlf_source header _ hlines
  have hrows := table_rows_accepted H table hshape
  refine ⟨_, hnew, ?_, ?_⟩
  · have := read_data_ok .windows fs
      { datafile := name, NCols := H, headers := header, NRows := table.length,
        NChar := header.length + 2, Row_numbers := [], Matrix_elements := [] }
      false _ _ _ hfile hdata hrows (by simp) (by simp only; omega) (by simp only; omega) hfit
    simpa using this
  · have := read_data_ok .windows fs
      { datafile := name, NCols := H, headers := header, NRows := table.length,
        NChar := header.length + 2, Row_numbers := [], Matrix_elements := [] }
      true _ _ _ hfile hdata hrows (by simp) (by simp only; omega) (by simp only; omega) hfit
    simpa using this

/-! ## Loops over the cells of a matrix -/

/-- One more iteration of a loop. -/
theorem for_loop_succ {σ : Type} (body : Nat → σ → Option σ) (n : Nat) (s : σ) :
    for_loop body (n + 1) s = (for_loop body n s).bind (body n) := rfl

/-- A property of the state that every iteration keeps holds when the loop ends. -/
theorem for_loop_invariant {σ : Type} (Q : σ → Prop) (body : Nat → σ → Option σ)
    (hkeep : ∀ k s s', Q s → body k s = some s' → Q s') (n : Nat) (s s' : σ) (hs : Q s)
    (h : for_loop body n s = some s') : Q s' := by
  induction n generalizing s' with
  | zero =>
    simp only [for_loop, Option.some.injEq] at h
    exact h ▸ hs
  | succ n ih =>
    rw [for_loop_succ] at h
    cases hn : for_loop body n s with
    | none => rw [hn] at h; cases h
    | some t =>
      rw [hn] at h
      exact hkeep n t s' (ih t hn) h

/-- A loop with an iteration that has undefined behaviour in every state it can be
reached in has undefined behaviour. -/
theorem for_loop_undefined {σ : Type} (Q : σ → Prop) (body : Nat → σ → Option σ)
    (hkeep : ∀ k s s', Q s → body k s = some s' → Q s') (n k0 : Nat) (hk0 : k0 < n)
    (hfail : ∀ s, Q s → body k0 s = none) (s : σ) (hs : Q s) :
    for_loop body n s = none := by
  induction n with
  | zero => omega
  | succ n ih =>
    rw [for_loop_succ]
    cases hn : for_loop body n s with
    | none => rfl
    | some t =>
      have hQ : Q t := for_loop_invariant Q body hkeep n s t hs hn
      by_cases hlt : k0 < n
      · rw [ih hlt] at hn; cases hn
      · have : k0 = n := by omega
        subst this
        simpa using hfail t hQ

/-- A loop whose iterations all succeed while keeping step-indexed properties reaches the
last of them. -/
theorem for_loop_steps {σ : Type} (P : Nat → σ → Prop) (body : Nat → σ → Option σ) (n : Nat)
    (hstep : ∀ k s, k < n → P k s → ∃ s', body k s = some s' ∧ P (k + 1) s') (s : σ)
    (hs : P 0 s) : ∃ s', for_loop body n s = some s' ∧ P n s' := by
  induction n with
  | zero => exact ⟨s, rfl, hs⟩
  | succ n ih =>
    obtain ⟨t, ht, hP⟩ := ih (fun k s hk hp => hstep k s (by omega) hp)
    obtain ⟨t', ht', hP'⟩ := hstep n t (by omega) hP
    exact ⟨t', by rw [for_loop_succ, ht]; exact ht', hP'⟩

/-- Flat index of an in-range cell when the number of cells fits in 64 bits. -/
theorem flat_index_of_lt {T : Type} (m : matrix T) (rows i j : Nat) (hi : i < rows)
    (hj : j < m.cols) (hfit : rows * m.cols < UINT64_MOD) :
    m.flat_index i j = m.cols * i + j ∧ m.cols * i + j < rows * m.cols := by
  have hlt : m.cols * i + j < rows * m.cols := by
    calc m.cols * i + j < m.cols * i + m.cols := by omega
      _ = (i + 1) * m.cols := by ring
      _ ≤ rows * m.cols := Nat.mul_le_mul_right _ hi
  exact ⟨Nat.mod_eq_of_lt (lt_trans hlt hfit), hlt⟩

/-- Reading the cell that is being computed. -/
theorem filled_call {T : Type} [Zero T] (f : Nat → Nat → T) (rows cols i j : Nat) (z : T)
    (c : matrix T) (hi : i < rows) (hj : j < cols) (hfit : rows * cols < UINT64_MOD)
    (h : c.filled f rows cols (cols * i + j) z) : c.call i j = some z := by
  obtain ⟨-, hc, -, hcells⟩ := h
  subst hc
  obtain ⟨hidx, hlt⟩ := flat_index_of_lt c rows i j hi hj hfit
  rw [matrix.call, hidx, hcells _ hlt]
  simp

/-- Writing the cell that is being computed. -/
theorem filled_assign {T : Type} [Zero T] (f : Nat → Nat → T) (rows cols i j : Nat) (z v : T)
    (c : matrix T) (hi : i < rows) (hj : j < cols) (hfit : rows * cols < UINT64_MOD)
    (h : c.filled f rows cols (cols * i + j) z) :
    ∃ c', c.assign i j v = some c' ∧ c'.filled f rows cols (cols * i + j) v := by
  obtain ⟨hr, hc, hlen, hcells⟩ := h
  subst hc
  obtain ⟨hidx, hlt⟩ := flat_index_of_lt c rows i j hi hj hfit
  refine ⟨{ c with elements := c.elements.set (c.cols * i + j) v }, ?_, hr, rfl, ?_, ?_⟩
  · simp [matrix.assign, hidx, hlen, hlt]
  · simpa using hlen
  · intro q hq
    simp only [List.getElem?_set]
    by_cases hqp : c.cols * i + j = q
    · subst hqp
      simp [hlen, hlt]
    · rw [if_neg hqp, hcells q hq]
      have : ¬ q = c.cols * i + j := fun h => hqp h.symm
      simp [this]

/-- A cell that holds its final value counts as done, the next cell being still zero. -/
theorem filled_next {T : Type} [Zero T] (f : Nat → Nat → T) (rows cols i j : Nat)
    (c : matrix T) (hj : j < cols) (h : c.filled f rows cols (cols * i + j) (f i j)) :
    c.filled f rows cols (cols * i + j + 1) 0 := by
  obtain ⟨hr, hc, hlen, hcells⟩ := h
  refine ⟨hr, hc, hlen, ?_⟩
  intro q hq
  rw [hcells q hq]
  by_cases h1 : q < cols * i + j
  · simp [h1, Nat.lt_succ_of_lt h1]
  · by_cases h2 : q = cols * i + j
    · subst h2
      have hd : (cols * i + j) / cols = i := by
        rw [Nat.mul_add_div (by omega), Nat.div_eq_of_lt hj, Nat.add_zero]
      have hm : (cols * i + j) % cols = j := by
        rw [Nat.mul_add_mod, Nat.mod_eq_of_lt hj]
      simp [hd, hm]
    · have h3 : ¬ q < cols * i + j + 1 := by omega
      simp only [h1, h2, h3, if_false]
      split <;> rfl

/-- The nested loops over the cells of a result: when the statement of each cell turns a
matrix filled up to that cell into one filled up to the next, the loops turn a zero matrix
into the completely filled one. -/
theorem for_each_cell_filled {T : Type} [Zero T] (f : Nat → Nat → T) (rows cols : Nat)
    (cell : Nat → Nat → matrix T → Option (matrix T))
    (hcell : ∀ i j c, i < rows → j < cols → c.filled f rows cols (cols * i + j) 0 →
      ∃ c', cell i j c = some c' ∧ c'.filled f rows cols (cols * i + j + 1) 0)
    (c0 : matrix T) (h0 : c0.filled f rows cols 0 0) :
    ∃ c', for_each_cell rows cols cell c0 = some c' ∧ c'.filled f rows cols (rows * cols) 0 := by
  have houter := for_loop_steps (fun i c => c.filled f rows cols (cols * i) 0)
    (fun i c => for_loop (fun j c => cell i j c) cols c) rows
    (fun i c hi hP => by
      have hinner := for_loop_steps (fun j c => c.filled f rows cols (cols * i + j) 0)
        (fun j c => cell i j c) cols
        (fun j c hj hPj => hcell i j c hi hj hPj) c (by simpa using hP)
      obtain ⟨c', hc', hP'⟩ := hinner
      refine ⟨c', hc', ?_⟩
      show c'.filled f rows cols (cols * (i + 1)) 0
      have : cols * (i + 1) = cols * i + cols := by ring
      rw [this]
      exact hP')
    c0 (by simpa using h0)
  obtain ⟨c', hc', hP'⟩ := houter
  exact ⟨c', hc', by rw [Nat.mul_comm rows cols]; exact hP'⟩

/-- The two-argument constructor returns a matrix none of whose cells is done yet. -/
theorem zeros_filled {T : Type} [Zero T] (f : Nat → Nat → T) (rows cols : Nat)
    (hr : 0 < rows) (hc : 0 < cols) (hfit : rows * cols < UINT64_MOD) :
    ∃ c0 : matrix T, matrix.zeros rows cols = .ok c0 ∧ c0.filled f rows cols 0 0 := by
  refine ⟨{ rows := rows, cols := cols, elements := List.replicate (rows * cols) 0 }, ?_,
    rfl, rfl, by simp, ?_⟩
  · have h1 : rows ≠ 0 := by omega
    have h2 : cols ≠ 0 := by omega
    simp [matrix.zeros, h1, h2, Nat.mod_eq_of_lt hfit]
  · intro q hq
    simp only [List.getElem?_replicate, hq, if_true, Nat.not_lt_zero, if_false]
    split <;> rfl

/-- In a matrix that satisfies the invariant an in-range unchecked access returns the
element at that logical position. -/
theorem call_of_well_formed {T : Type} [Zero T] (m : matrix T) (h : m.well_formed) (i j : Nat)
    (hi : i < m.rows) (hj : j < m.cols) : m.call i j = some (m.entry i j) := by
  obtain ⟨-, -, hlen, hsize⟩ := h
  obtain ⟨hidx, hlt⟩ := flat_index_of_lt m m.rows i j hi hj (by rw [← hlen]; exact hsize)
  rw [matrix.call, hidx, matrix.entry, Nat.mul_comm i m.cols, List.getD_eq_getElem?_getD]
  rw [← hlen] at hlt
  simp [List.getElem?_eq_getElem hlt]

/-- A completely filled matrix satisfies the invariant and holds `f i j` in every cell. -/
theorem filled_done {T : Type} [Zero T] (f : Nat → Nat → T) (rows cols : Nat) (c : matrix T)
    (hr : 0 < rows) (hc : 0 < cols) (hfit : rows * cols < UINT64_MOD)
    (h : c.filled f rows cols (rows * cols) 0) :
    c.well_formed ∧ c.get_rows = rows ∧ c.get_cols = cols ∧
      ∀ i j : Nat, i < rows → j < cols → c.call i j = some (f i j) ∧ c.entry i j = f i j := by
  obtain ⟨hrows, hcols, hlen, hcells⟩ := h
  have hwf : c.well_formed := by
    refine ⟨by omega, by omega, by rw [hlen, hrows, hcols], by rw [hlen]; exact hfit⟩
  refine ⟨hwf, hrows, hcols, ?_⟩
  intro i j hi hj
  have hcall : c.call i j = some (f i j) := by
    subst hcols
    obtain ⟨hidx, hlt⟩ := flat_index_of_lt c rows i j hi hj hfit
    rw [matrix.call, hidx, hcells _ hlt, if_pos hlt]
    have hd : (c.cols * i + j) / c.cols = i := by
      rw [Nat.mul_add_div (by omega), Nat.div_eq_of_lt hj, Nat.add_zero]
    have hm : (c.cols * i + j) % c.cols = j := by
      rw [Nat.mul_add_mod, Nat.mod_eq_of_lt hj]
    rw [hd, hm]
  refine ⟨hcall, ?_⟩
  have := call_of_well_formed c hwf i j (by rw [hrows]; exact hi) (by rw [hcols]; exact hj)
  rw [hcall] at this
  exact (Option.some.inj this).symm

/-- The statement `c(i, j) = value` for the cell whose turn it is, `value` being the final
value of that cell. -/
theorem filled_assign_next {T : Type} [Zero T] (f : Nat → Nat → T) (rows cols i j : Nat)
    (c : matrix T) (hi : i < rows) (hj : j < cols) (hfit : rows * cols < UINT64_MOD)
    (h : c.filled f rows cols (cols * i + j) 0) :
    ∃ c', c.assign i j (f i j) = some c' ∧ c'.filled f rows cols (cols * i + j + 1) 0 := by
  obtain ⟨c', hc', hf⟩ := filled_assign f rows cols i j 0 (f i j) c hi hj hfit h
  exact ⟨c', hc', filled_next f rows cols i j c' hj hf⟩

/-! ## Arithmetic operators on matrices that satisfy the invariant -/

/-- Binary `operator+` on two matrices of equal dimensions that satisfy the invariant
returns the completely filled matrix of the cell-wise sums. -/
theorem operator_plus_filled {T : Type} [Zero T] [Add T] (a b : matrix T)
    (ha : a.well_formed) (hb : b.well_formed) (hrows : a.rows = b.rows)
    (hcols : a.cols = b.cols) :
    ∃ c, operator_plus a b = .ok (some c) ∧
      c.filled (fun i j => a.entry i j + b.entry i j) a.rows a.cols (a.rows * a.cols) 0 := by
  have hfit : a.rows * a.cols < UINT64_MOD := by rw [← ha.2.2.1]; exact ha.2.2.2
  obtain ⟨c0, hc0, hf0⟩ := zeros_filled (fun i j => a.entry i j + b.entry i j) a.rows a.cols
    ha.1 ha.2.1 hfit
  obtain ⟨c, hc, hf⟩ := for_each_cell_filled (fun i j => a.entry i j + b.entry i j)
    a.rows a.cols
    (fun i j c => (a.call i j).bind (fun x => (b.call i j).bind (fun y =>
      c.assign i j (x + y))))
    (fun i j c hi hj hfill => by
      beta_reduce
      rw [call_of_well_formed a ha i j hi hj,
        call_of_well_formed b hb i j (by rw [← hrows]; exact hi) (by rw [← hcols]; exact hj)]
      exact filled_assign_next (fun i j => a.entry i j + b.entry i j) a.rows a.cols i j c
        hi hj hfit hfill)
    c0 hf0
  refine ⟨c, ?_, hf⟩
  have hdims : ¬ (a.get_rows ≠ b.get_rows ∨ a.get_cols ≠ b.get_cols) := by
    simp [matrix.get_rows, matrix.get_cols, hrows, hcols]
  rw [operator_plus, if_neg hdims]
  simp only [matrix.get_rows, matrix.get_cols, hc0, hc]

/-- Binary `operator-` on two matrices of equal dimensions that satisfy the invariant
returns the completely filled matrix of the cell-wise differences. -/
theorem operator_minus_filled {T : Type} [Zero T] [Sub T] (a b : matrix T)
    (ha : a.well_formed) (hb : b.well_formed) (hrows : a.rows = b.rows)
    (hcols : a.cols = b.cols) :
    ∃ c, operator_minus a b = .ok (some c) ∧
      c.filled (fun i j => a.entry i j - b.entry i j) a.rows a.cols (a.rows * a.cols) 0 := by
  have hfit : a.rows * a.cols < UINT64_MOD := by rw [← ha.2.2.1]; exact ha.2.2.2
  obtain ⟨c0, hc0, hf0⟩ := zeros_filled (fun i j => a.entry i j - b.entry i j) a.rows a.cols
    ha.1 ha.2.1 hfit
  obtain ⟨c, hc, hf⟩ := for_each_cell_filled (fun i j => a.entry i j - b.entry i j)
    a.rows a.cols
    (fun i j c => (a.call i j).bind (fun x => (b.call i j).bind (fun y =>
      c.assign i j (x - y))))
    (fun i j c hi hj hfill => by
      beta_reduce
      rw [call_of_well_formed a ha i j hi hj,
        call_of_well_formed b hb i j (by rw [← hrows]; exact hi) (by rw [← hcols]; exact hj)]
      exact filled_assign_next (fun i j => a.entry i j - b.entry i j) a.rows a.cols i j c
        hi hj hfit hfill)
    c0 hf0
  refine ⟨c, ?_, hf⟩
  have hdims : ¬ (a.get_rows ≠ b.get_rows ∨ a.get_cols ≠ b.get_cols) := by
    simp [matrix.get_rows, matrix.get_cols, hrows, hcols]
  rw [operator_minus, if_neg hdims]
  simp only [matrix.get_rows, matrix.get_cols, hc0, hc]

/-- Unary `operator-` on a matrix that satisfies the invariant returns the completely
filled matrix of the negated cells. -/
theorem operator_negate_filled {T : Type} [Zero T] [Neg T] (m : matrix T)
    (hm : m.well_formed) :
    ∃ c, operator_negate m = .ok (some c) ∧
      c.filled (fun i j => -m.entry i j) m.rows m.cols (m.rows * m.cols) 0 := by
  have hfit : m.rows * m.cols < UINT64_MOD := by rw [← hm.2.2.1]; exact hm.2.2.2
  obtain ⟨c0, hc0, hf0⟩ := zeros_filled (fun i j => -m.entry i j) m.rows m.cols
    hm.1 hm.2.1 hfit
  obtain ⟨c, hc, hf⟩ := for_each_cell_filled (fun i j => -m.entry i j) m.rows m.cols
    (fun i j c => (m.call i j).bind (fun x => c.assign i j (-x)))
    (fun i j c hi hj hfill => by
      beta_reduce
      rw [call_of_well_formed m hm i j hi hj]
      exact filled_assign_next (fun i j => -m.entry i j) m.rows m.cols i j c
        hi hj hfit hfill)
    c0 hf0
  refine ⟨c, ?_, hf⟩
  rw [operator_negate]
  simp only [matrix.get_rows, matrix.get_cols, hc0, hc]

/-- Scalar `operator*` on a matrix that satisfies the invariant returns the completely
filled matrix of the cells multiplied by the scalar on the left. -/
theorem operator_times_scalar_filled {T : Type} [Zero T] [Mul T] (s : T) (m : matrix T)
    (hm : m.well_formed) :
    ∃ c, operator_times_scalar s m = .ok (some c) ∧
      c.filled (fun i j => s * m.entry i j) m.rows m.cols (m.rows * m.cols) 0 := by
  have hfit : m.rows * m.cols < UINT64_MOD := by rw [← hm.2.2.1]; exact hm.2.2.2
  obtain ⟨c0, hc0, hf0⟩ := zeros_filled (fun i j => s * m.entry i j) m.rows m.cols
    hm.1 hm.2.1 hfit
  obtain ⟨c, hc, hf⟩ := for_each_cell_filled (fun i j => s * m.entry i j) m.rows m.cols
    (fun i j c => (m.call i j).bind (fun x => c.assign i j (s * x)))
    (fun i j c hi hj hfill => by
      beta_reduce
      rw [call_of_well_formed m hm i j hi hj]
      exact filled_assign_next (fun i j => s * m.entry i j) m.rows m.cols i j c
        hi hj hfit hfill)
    c0 hf0
  refine ⟨c, ?_, hf⟩
  rw [operator_times_scalar]
  simp only [matrix.get_rows, matrix.get_cols, hc0, hc]

/-- One more term of the accumulated sum. -/
theorem dot_product_succ {T : Type} [Zero T] [Add T] [Mul T] (a b : matrix T) (i j n : Nat) :
    dot_product a b i j (n + 1) = dot_product a b i j n + a.entry i n * b.entry n j := by
  simp [dot_product, List.range_succ, List.foldl_append]

/-- The innermost loop of matrix `operator*` brings the cell whose turn it is from zero to
the accumulated sum over all `k`. -/
theorem operator_times_cell {T : Type} [Zero T] [Add T] [Mul T] (a b : matrix T)
    (ha : a.well_formed) (hb : b.well_formed) (hinner : a.cols = b.rows)
    (hfit : a.rows * b.cols < UINT64_MOD) (i j : Nat) (hi : i < a.rows) (hj : j < b.cols)
    (c : matrix T)
    (h : c.filled (fun i j => dot_product a b i j a.cols) a.rows b.cols (b.cols * i + j) 0) :
    ∃ c', for_loop
        (fun k c => (a.call i k).bind (fun x => (b.call k j).bind (fun y =>
          (c.call i j).bind (fun z => c.assign i j (z + x * y)))))
        a.cols c = some c' ∧
      c'.filled (fun i j => dot_product a b i j a.cols) a.rows b.cols (b.cols * i + j + 1) 0 := by
  have hloop := for_loop_steps
    (fun k c => c.filled (fun i j => dot_product a b i j a.cols) a.rows b.cols
      (b.cols * i + j) (dot_product a b i j k))
    (fun k c => (a.call i k).bind (fun x => (b.call k j).bind (fun y =>
      (c.call i j).bind (fun z => c.assign i j (z + x * y)))))
    a.cols
    (fun k c hk hP => by
      beta_reduce at hP ⊢
      rw [call_of_well_formed a ha i k hi hk,
        call_of_well_formed b hb k j (by rw [← hinner]; exact hk) hj,
        filled_call _ a.rows b.cols i j _ c hi hj hfit hP]
      simp only [Option.some_bind]
      rw [← dot_product_succ]
      exact filled_assign _ a.rows b.cols i j _ _ c hi hj hfit hP)
    c (by simpa [dot_product] using h)
  obtain ⟨c', hc', hP'⟩ := hloop
  exact ⟨c', hc', filled_next _ a.rows b.cols i j c' hj hP'⟩

/-- Matrix `operator*` on two matrices that satisfy the invariant, with matching inner
dimensions and a result whose number of cells fits in 64 bits, returns the completely
filled matrix of the accumulated sums. -/
theorem operator_times_filled {T : Type} [Zero T] [Add T] [Mul T] (a b : matrix T)
    (ha : a.well_formed) (hb : b.well_formed) (hinner : a.cols = b.rows)
    (hfit : a.rows * b.cols < UINT64_MOD) :
    ∃ c, operator_times a b = .ok (some c) ∧
      c.filled (fun i j => dot_product a b i j a.cols) a.rows b.cols (a.rows * b.cols) 0 := by
  obtain ⟨c0, hc0, hf0⟩ := zeros_filled (fun i j => dot_product a b i j a.cols)
    a.rows b.cols ha.1 hb.2.1 hfit
  obtain ⟨c, hc, hf⟩ := for_each_cell_filled (fun i j => dot_product a b i j a.cols)
    a.rows b.cols
    (fun i j c => for_loop
      (fun k c => (a.call i k).bind (fun x => (b.call k j).bind (fun y =>
        (c.call i j).bind (fun z => c.assign i j (z + x * y)))))
      a.cols c)
    (fun i j c hi hj hfill => operator_times_cell a b ha hb hinner hfit i j hi hj c hfill)
    c0 hf0
  refine ⟨c, ?_, hf⟩
  have hdims : ¬ (a.get_cols ≠ b.get_rows) := by
    simp [matrix.get_rows, matrix.get_cols, hinner]
  rw [operator_times, if_neg hdims]
  simp only [matrix.get_rows, matrix.get_cols, hc0, hc]

/-- An assignment through `operator()` keeps the dimensions and the number of elements. -/
theorem assign_shape {T : Type} (c c' : matrix T) (i j : Nat) (v : T)
    (h : c.assign i j v = some c') :
    c'.rows = c.rows ∧ c'.cols = c.cols ∧ c'.elements.length = c.elements.length := by
  unfold matrix.assign at h
  split at h
  · cases h
    simp
  · cases h

/-- Matrix `operator*` on two matrices that satisfy the invariant, with matching inner
dimensions, has undefined behaviour when the number of cells of the result does not fit
in 64 bits: the vector of the result is too short for one of its cells. -/
theorem operator_times_undefined {T : Type} [Zero T] [Add T] [Mul T] (a b : matrix T)
    (ha : a.well_formed) (hb : b.well_formed) (hinner : a.cols = b.rows)
    (hbig : UINT64_MOD ≤ a.rows * b.cols) :
    operator_times a b = .ok none := by
  have hM : 0 < UINT64_MOD := by norm_num [UINT64_MOD]
  have hL : a.rows * b.cols % UINT64_MOD < UINT64_MOD := Nat.mod_lt _ hM
  -- the cell whose flat index is the length of the vector
  have hi0 : a.rows * b.cols % UINT64_MOD / b.cols < a.rows := by
    apply Nat.div_lt_of_lt_mul
    calc a.rows * b.cols % UINT64_MOD < UINT64_MOD := hL
      _ ≤ a.rows * b.cols := hbig
      _ = b.cols * a.rows := Nat.mul_comm _ _
  have hj0 : a.rows * b.cols % UINT64_MOD % b.cols < b.cols := Nat.mod_lt _ hb.2.1
  have hzeros : (matrix.zeros a.rows b.cols : Except Exception (matrix T))
      = .ok { rows := a.rows, cols := b.cols,
              elements := List.replicate (a.rows * b.cols % UINT64_MOD) 0 } := by
    have h1 : a.rows ≠ 0 := by have := ha.1; omega
    have h2 : b.cols ≠ 0 := by have := hb.2.1; omega
    simp [matrix.zeros, h1, h2]
  have hkeep_k : ∀ (i j k : Nat) (c c' : matrix T),
      (c.cols = b.cols ∧ c.elements.length = a.rows * b.cols % UINT64_MOD) →
      ((a.call i k).bind (fun x => (b.call k j).bind (fun y =>
        (c.call i j).bind (fun z => c.assign i j (z + x * y))))) = some c' →
      (c'.cols = b.cols ∧ c'.elements.length = a.rows * b.cols % UINT64_MOD) := by
    intro i j k c c' hQ h
    cases hx : a.call i k with
    | none => rw [hx] at h; cases h
    | some x =>
      cases hy : b.call k j with
      | none => rw [hx, hy] at h; cases h
      | some y =>
        cases hz : c.call i j with
        | none => rw [hx, hy, hz] at h; cases h
        | some z =>
          rw [hx, hy, hz] at h
          obtain ⟨-, h2, h3⟩ := assign_shape c c' i j _ h
          exact ⟨by rw [h2, hQ.1], by rw [h3, hQ.2]⟩
  have hkeep_j : ∀ (i j : Nat) (c c' : matrix T),
      (c.cols = b.cols ∧ c.elements.length = a.rows * b.cols % UINT64_MOD) →
      for_loop (fun k c => (a.call i k).bind (fun x => (b.call k j).bind (fun y =>
        (c.call i j).bind (fun z => c.assign i j (z + x * y))))) a.cols c = some c' →
      (c'.cols = b.cols ∧ c'.elements.length = a.rows * b.cols % UINT64_MOD) :=
    fun i j c c' hQ h => for_loop_invariant _ _ (fun k s s' => hkeep_k i j k s s') a.cols c c' hQ h
  have hkeep_i : ∀ (i : Nat) (c c' : matrix T),
      (c.cols = b.cols ∧ c.elements.length = a.rows * b.cols % UINT64_MOD) →
      for_loop (fun j c => for_loop
        (fun k c => (a.call i k).bind (fun x => (b.call k j).bind (fun y =>
          (c.call i j).bind (fun z => c.assign i j (z + x * y))))) a.cols c) b.cols c = some c' →
      (c'.cols = b.cols ∧ c'.elements.length = a.rows * b.cols % UINT64_MOD) :=
    fun i c c' hQ h => for_loop_invariant _ _ (fun j s s' => hkeep_j i j s s') b.cols c c' hQ h
  have hdims : ¬ (a.get_cols ≠ b.get_rows) := by
    simp [matrix.get_rows, matrix.get_cols, hinner]
  rw [operator_times, if_neg hdims]
  simp only [matrix.get_rows, matrix.get_cols, hzeros, for_each_cell]
  congr 1
  refine for_loop_undefined
    (fun c : matrix T => c.cols = b.cols ∧ c.elements.length = a.rows * b.cols % UINT64_MOD)
    _ hkeep_i a.rows _ hi0 ?_ _ ?_
  swap
  · exact ⟨rfl, by simp⟩
  intro c hQ
  apply for_loop_undefined
    (fun c : matrix T => c.cols = b.cols ∧ c.elements.length = a.rows * b.cols % UINT64_MOD)
    _ (hkeep_j _) b.cols _ hj0 _ _ hQ
  intro c hQ
  apply for_loop_undefined
    (fun c : matrix T => c.cols = b.cols ∧ c.elements.length = a.rows * b.cols % UINT64_MOD)
    _ (hkeep_k _ _) a.cols 0 ha.2.1 _ _ hQ
  intro c hQ
  have hcall : c.call (a.rows * b.cols % UINT64_MOD / b.cols)
      (a.rows * b.cols % UINT64_MOD % b.cols) = none := by
    rw [matrix.call, matrix.flat_index, hQ.1, Nat.div_add_mod, Nat.mod_eq_of_lt hL]
    simp [hQ.2]
  rw [hcall]
  cases a.call (a.rows * b.cols % UINT64_MOD / b.cols) 0 with
  | none => rfl
  | some x =>
    cases b.call 0 (a.rows * b.cols % UINT64_MOD % b.cols) with
    | none => rfl
    | some y => rfl

/-! ## The diagonal constructor -/

/-- Two in-range cells with the same flat index are the same cell. -/
theorem flat_index_injective (n r c i j : Nat) (hc : c < n) (hj : j < n)
    (h : n * r + c = n * i + j) : r = i ∧ c = j := by
  have hn : 0 < n := by omega
  have h1 : (n * r + c) % n = c := by rw [Nat.mul_add_mod, Nat.mod_eq_of_lt hc]
  have h2 : (n * i + j) % n = j := by rw [Nat.mul_add_mod, Nat.mod_eq_of_lt hj]
  have hcj : c = j := by rw [← h1, ← h2, h]
  subst hcj
  have : n * r = n * i := by omega
  exact ⟨Nat.eq_of_mul_eq_mul_left hn this, rfl⟩

/-- The diagonal constructor on a non-empty vector whose squared length fits in 64 bits
returns a square matrix that holds the vector on its diagonal and zero elsewhere. -/
theorem from_diagonal_cells {T : Type} [Zero T] (values : List T) (hne : values.length ≠ 0)
    (hfit : values.length * values.length < UINT64_MOD) :
    ∃ m : matrix T, matrix.from_diagonal values = .ok (some m) ∧
      m.rows = values.length ∧ m.cols = values.length ∧
      m.elements.length = values.length * values.length ∧
      ∀ r c : Nat, r < values.length → c < values.length →
        m.elements[values.length * r + c]? = some (if r = c then values.getD r 0 else 0) := by
  have hloop := for_loop_steps
    (fun i (m : matrix T) => m.rows = values.length ∧ m.cols = values.length ∧
      m.elements.length = values.length * values.length ∧
      ∀ r c : Nat, r < values.length → c < values.length →
        m.elements[values.length * r + c]?
          = some (if r = c ∧ r < i then values.getD r 0 else 0))
    (fun i m => (values[i]?).bind (fun d => m.assign i i d))
    values.length
    (fun i m hi hP => by
      obtain ⟨hr, hc, hlen, hcells⟩ := hP
      have hv : values[i]? = some (values.getD i 0) := by
        rw [List.getD_eq_getElem?_getD, List.getElem?_eq_getElem hi]
        rfl
      obtain ⟨hidx, hlt⟩ := flat_index_of_lt m values.length i i hi (by rw [hc]; exact hi)
        (by rw [hc]; exact hfit)
      rw [hc] at hidx hlt
      refine ⟨{ m with elements := m.elements.set (values.length * i + i) (values.getD i 0) },
        ?_, hr, hc, by simpa using hlen, ?_⟩
      · beta_reduce
        rw [hv]
        simp [matrix.assign, hidx, hlen, hlt]
      · intro r c hr' hc'
        simp only [List.getElem?_set]
        by_cases hp : values.length * i + i = values.length * r + c
        · obtain ⟨h1, h2⟩ := flat_index_injective values.length r c i i hc' hi hp.symm
          subst h1 h2
          simp [hlen, hlt]
        · rw [if_neg hp, hcells r c hr' hc']
          by_cases hrc : r = c
          · subst hrc
            have hri : r ≠ i := fun h => hp (by rw [h])
            have : r < i + 1 ↔ r < i := by omega
            simp [this]
          · simp [hrc])
    { rows := values.length, cols := values.length,
      elements := List.replicate (values.length * values.length % UINT64_MOD) 0 }
    (by
      refine ⟨rfl, rfl, by simp [Nat.mod_eq_of_lt hfit], ?_⟩
      intro r c hr hc
      have hlt : values.length * r + c < values.length * values.length := by
        calc values.length * r + c < values.length * r + values.length := by omega
          _ = values.length * (r + 1) := by ring
          _ ≤ values.length * values.length := Nat.mul_le_mul_left _ hr
      simp [List.getElem?_replicate, Nat.mod_eq_of_lt hfit, hlt])
  obtain ⟨m, hm, hr, hc, hlen, hcells⟩ := hloop
  refine ⟨m, ?_, hr, hc, hlen, ?_⟩
  · rw [matrix.from_diagonal, if_neg hne, hm]
  · intro r c hr' hc'
    rw [hcells r c hr' hc']
    by_cases hrc : r = c
    · simp [hrc, hc']
    · simp [hrc]

/-! ## Checked access -/

/-- In a matrix that satisfies the invariant `at` returns the element at every in-range
logical position. -/
theorem at_of_well_formed {T : Type} [Zero T] (m : matrix T) (h : m.well_formed) (i j : Nat)
    (hi : i < m.rows) (hj : j < m.cols) : m.at_ i j = .ok (m.entry i j) := by
  have := call_of_well_formed m h i j hi hj
  rw [matrix.call] at this
  rw [matrix.at_, this]

/-- The checked accessor throws exactly when the flat index is not below the number of
stored elements. -/
theorem at_out_of_range_iff {T : Type} (m : matrix T) (row col : Nat) :
    m.at_ row col = .error .out_of_range ↔ m.elements.length ≤ m.flat_index row col := by
  unfold matrix.at_
  by_cases h : m.flat_index row col < m.elements.length
  · rw [List.getElem?_eq_getElem h]
    simp only [reduceCtorEq, false_iff]
    omega
  · have h' : m.elements.length ≤ m.flat_index row col := by omega
    rw [List.getElem?_eq_none h']
    simp [h']

/-- C11: in the 2 x 2 matrix of 1, 2, 3, 4 the checked accessor does not fail for the
column index 2, which is not below `cols`: `at(0, 2)` returns 3, the element at logical
position (1, 0). Nor does it fail for the row index `2 ^ 63`, whose flat index wraps
around to that of position (0, 0). -/
theorem at_accepts_column_out_of_range :
    sample_square.well_formed ∧ ¬ (2 < sample_square.get_cols) ∧
    sample_square.at_ 0 2 = .ok 3 ∧ sample_square.at_ 1 0 = .ok 3 ∧
    ¬ (2 ^ 63 < sample_square.get_rows) ∧ sample_square.at_ (2 ^ 63) 0 = .ok 1 := by
  refine ⟨?_, by decide, rfl, rfl, by decide, ?_⟩
  · unfold matrix.well_formed sample_square UINT64_MOD
    decide
  · have : sample_square.flat_index (2 ^ 63) 0 = 0 := by
      simp [matrix.flat_index, sample_square, UINT64_MOD]
    rw [matrix.at_, this]
    rfl

/-! ## The constructors -/

/-- C12: `matrix(values)` fails with `zero_size` if `values` is empty; if `values` is not
empty and the square of its length `n` fits in 64 bits, it is a square matrix of side `n`
whose element `(i, j)`, read with `operator()` or with `at`, is `values[i]` when `i == j`
and zero when `i != j`, for all `i, j < n`. -/
theorem from_diagonal_outcome {T : Type} [Zero T] (values : List T) :
    (values = [] →
      (matrix.from_diagonal values : Except Exception (Option (matrix T))) = .error .zero_size) ∧
    (values ≠ [] → values.length * values.length < UINT64_MOD →
      ∃ m : matrix T, matrix.from_diagonal values = .ok (some m) ∧
        m.get_rows = values.length ∧ m.get_cols = values.length ∧
        ∀ (i j : Nat) (hi : i < values.length), j < values.length →
          m.call i j = some (if i = j then values.get ⟨i, hi⟩ else 0) ∧
          m.at_ i j = .ok (if i = j then values.get ⟨i, hi⟩ else 0)) := by
  constructor
  · intro h
    subst h
    simp [matrix.from_diagonal]
  · intro hne hfit
    have hlen : values.length ≠ 0 := fun h => hne (List.length_eq_zero.mp h)
    obtain ⟨m, hm, hr, hc, hsize, hcells⟩ := from_diagonal_cells values hlen hfit
    refine ⟨m, hm, hr, hc, ?_⟩
    intro i j hi hj
    obtain ⟨hidx, -⟩ := flat_index_of_lt m values.length i j hi (by rw [hc]; exact hj)
      (by rw [hc]; exact hfit)
    rw [hc] at hidx
    have hget : values.getD i 0 = values.get ⟨i, hi⟩ := by
      rw [List.getD_eq_getElem?_getD, List.getElem?_eq_getElem hi]
      rfl
    rw [matrix.call, matrix.at_, hidx, hcells i j hi hj, hget]
    exact ⟨rfl, rfl⟩

/-- Witness of `from_diagonal_outcome`: the empty vector and the vector `[1, 2, 3]`, which
gives the 3 x 3 matrix with 1, 2, 3 on the diagonal and 0 elsewhere. -/
theorem from_diagonal_outcome_witness :
    (matrix.from_diagonal ([] : List ℤ) = .error .zero_size) ∧
    ∃ m : matrix ℤ, matrix.from_diagonal [1, 2, 3] = .ok (some m) ∧
      m.get_rows = 3 ∧ m.get_cols = 3 ∧
      ∀ (i j : Nat) (hi : i < 3), j < 3 →
        m.call i j = some (if i = j then ([1, 2, 3] : List ℤ).get ⟨i, hi⟩ else 0) ∧
        m.at_ i j = .ok (if i = j then ([1, 2, 3] : List ℤ).get ⟨i, hi⟩ else 0) :=
  ⟨(from_diagonal_outcome ([] : List ℤ)).1 rfl,
   (from_diagonal_outcome ([1, 2, 3] : List ℤ)).2 (by simp) (by simp [UINT64_MOD])⟩

/-- The diagonal constructor has undefined behaviour on a non-empty vector whose squared
length is a multiple of `2 ^ 64`: the vector of elements is created empty and the first
assignment to the diagonal falls outside it. -/
theorem from_diagonal_undefined {T : Type} [Zero T] (values : List T)
    (hne : values.length ≠ 0) (hwrap : values.length * values.length % UINT64_MOD = 0) :
    matrix.from_diagonal values = .ok none := by
  have hloop : for_loop (fun i m => (values[i]?).bind (fun d => m.assign i i d))
      values.length
      ({ rows := values.length, cols := values.length,
         elements := List.replicate (values.length * values.length % UINT64_MOD) 0 } : matrix T)
      = none := by
    refine for_loop_undefined (fun m : matrix T => m.elements.length = 0) _ ?_ _ 0
      (by omega) ?_ _ ?_
    · intro k s s' hs h
      cases hd : values[k]? with
      | none => rw [hd] at h; cases h
      | some d =>
        rw [hd] at h
        obtain ⟨-, -, h3⟩ := assign_shape s s' k k d h
        rw [h3, hs]
    · intro s hs
      cases hd : values[0]? with
      | none => rfl
      | some d => simp [matrix.assign, hs]
    · simp [hwrap]
  rw [matrix.from_diagonal, if_neg hne, hloop]

/-- Counterexample to the diagonal constructor on every non-empty vector: for a vector of
`2 ^ 32` elements the product `rows * cols` wraps around to zero, the vector of elements
is created empty, and the first assignment to the diagonal falls outside it, which is
undefined behaviour and not a square matrix of side `2 ^ 32`. -/
theorem from_diagonal_overflow :
    (List.replicate (2 ^ 32) (1 : ℤ)).length = 2 ^ 32 ∧
    matrix.from_diagonal (List.replicate (2 ^ 32) (1 : ℤ)) = .ok none := by
  have hlen : (List.replicate (2 ^ 32) (1 : ℤ)).length = 2 ^ 32 := List.length_replicate _ _
  refine ⟨hlen, from_diagonal_undefined _ ?_ ?_⟩
  · rw [hlen]; norm_num
  · rw [hlen]; norm_num [UINT64_MOD]

/-- C13: `matrix(rows, cols)` fails with `zero_size` if and only if `rows == 0` or
`cols == 0`, and otherwise returns a matrix with `get_rows() == rows` and
`get_cols() == cols`; if moreover `rows * cols` fits in 64 bits, every element `(r, c)`
with `r < rows` and `c < cols`, read with `operator()` or with `at`, is zero. -/
theorem zeros_outcome {T : Type} [Zero T] (rows cols : Nat) :
    ((matrix.zeros rows cols : Except Exception (matrix T)) = .error .zero_size ↔
      rows = 0 ∨ cols = 0) ∧
    (rows ≠ 0 → cols ≠ 0 →
      ∃ m : matrix T, matrix.zeros rows cols = .ok m ∧ m.get_rows = rows ∧ m.get_cols = cols ∧
        (rows * cols < UINT64_MOD → ∀ r c : Nat, r < rows → c < cols →
          m.call r c = some 0 ∧ m.at_ r c = .ok 0)) := by
  constructor
  · by_cases h : rows = 0 ∨ cols = 0
    · simp [matrix.zeros, h]
    · simp [matrix.zeros, h]
  · intro hr hc
    refine ⟨{ rows := rows, cols := cols,
              elements := List.replicate (rows * cols % UINT64_MOD) 0 }, ?_, rfl, rfl, ?_⟩
    · simp [matrix.zeros, hr, hc]
    · intro hfit r c hr' hc'
      obtain ⟨hidx, hlt⟩ := flat_index_of_lt
        ({ rows := rows, cols := cols,
           elements := List.replicate (rows * cols % UINT64_MOD) 0 } : matrix T)
        rows r c hr' hc' hfit
      simp only at hlt
      rw [matrix.call, matrix.at_, hidx]
      simp [List.getElem?_replicate, Nat.mod_eq_of_lt hfit, hlt]

/-- Witness of `zeros_outcome`: a zero dimension, and the 2 x 3 zero matrix. -/
theorem zeros_outcome_witness :
    (matrix.zeros 0 3 : Except Exception (matrix ℤ)) = .error .zero_size ∧
    ∃ m : matrix ℤ, matrix.zeros 2 3 = .ok m ∧ m.get_rows = 2 ∧ m.get_cols = 3 ∧
      ∀ r c : Nat, r < 2 → c < 3 → m.call r c = some 0 ∧ m.at_ r c = .ok 0 := by
  refine ⟨(zeros_outcome 0 3).1.2 (Or.inl rfl), ?_⟩
  obtain ⟨m, h1, h2, h3, h4⟩ := (zeros_outcome (T := ℤ) 2 3).2 (by decide) (by decide)
  exact ⟨m, h1, h2, h3, h4 (by simp [UINT64_MOD])⟩

/-- Counterexample to the zero constructor on every pair of non-zero dimensions: for
`rows = cols = 2 ^ 32` the constructor succeeds with an empty vector of elements, so the
element (0, 0) does not exist: `at(0, 0)` throws and `operator()(0, 0)` is undefined. -/
theorem zeros_overflow :
    ∃ m : matrix ℤ, matrix.zeros (2 ^ 32) (2 ^ 32) = .ok m ∧ m.elements = [] ∧
      m.at_ 0 0 = .error .out_of_range ∧ m.call 0 0 = none := by
  refine ⟨{ rows := 2 ^ 32, cols := 2 ^ 32, elements := [] }, ?_, rfl, rfl, rfl⟩
  simp [matrix.zeros, UINT64_MOD]

/-! ## Operands that do not satisfy the invariant -/

/-- The matrix that `matrix(2 ^ 32, 2 ^ 32)` returns. -/
theorem zeros_empty_square : matrix.zeros (2 ^ 32) (2 ^ 32) = .ok empty_square := by
  simp [matrix.zeros, empty_square, UINT64_MOD]

/-- The empty square is as the constructors leave a matrix, and does not satisfy the
invariant. -/
theorem empty_square_constructed :
    empty_square.constructed ∧ ¬ empty_square.well_formed ∧
      UINT64_MOD ≤ empty_square.rows * empty_square.cols := by
  refine ⟨?_, ?_, ?_⟩
  · unfold matrix.constructed empty_square
    norm_num [UINT64_MOD]
  · unfold matrix.well_formed empty_square
    norm_num
  · unfold empty_square
    norm_num [UINT64_MOD]

/-- Loops over the cells have undefined behaviour when the statement of one of the cells
has undefined behaviour whatever the result holds. -/
theorem for_each_cell_undefined {T : Type} (rows cols : Nat)
    (cell : Nat → Nat → matrix T → Option (matrix T)) (i0 j0 : Nat) (hi : i0 < rows)
    (hj : j0 < cols) (hfail : ∀ c, cell i0 j0 c = none) (c : matrix T) :
    for_each_cell rows cols cell c = none := by
  unfold for_each_cell
  exact for_loop_undefined (fun _ => True) _ (fun _ _ _ _ _ => trivial) rows i0 hi
    (fun s _ => for_loop_undefined (fun _ => True) _ (fun _ _ _ _ _ => trivial) cols j0 hj
      (fun t _ => hfail t) s trivial) c trivial

/-- A matrix as the constructors leave it, the product of whose dimensions does not fit in
64 bits, has an in-range cell that lies outside its vector: the cell whose flat index is the
size of the vector. -/
theorem constructed_missing_cell {T : Type} (m : matrix T) (h : m.constructed)
    (hbig : UINT64_MOD ≤ m.rows * m.cols) :
    ∃ i j : Nat, i < m.rows ∧ j < m.cols ∧ m.call i j = none := by
  obtain ⟨-, hc, hlen⟩ := h
  have hM : 0 < UINT64_MOD := by norm_num [UINT64_MOD]
  have hn : m.rows * m.cols % UINT64_MOD < UINT64_MOD := Nat.mod_lt _ hM
  refine ⟨m.rows * m.cols % UINT64_MOD / m.cols, m.rows * m.cols % UINT64_MOD % m.cols,
    ?_, Nat.mod_lt _ hc, ?_⟩
  · apply Nat.div_lt_of_lt_mul
    calc m.rows * m.cols % UINT64_MOD < UINT64_MOD := hn
      _ ≤ m.rows * m.cols := hbig
      _ = m.cols * m.rows := Nat.mul_comm _ _
  · unfold matrix.call matrix.flat_index
    rw [Nat.div_add_mod, Nat.mod_eq_of_lt hn]
    exact List.getElem?_eq_none (le_of_eq hlen)

/-- Binary `operator+` on operands of equal dimensions has undefined behaviour when the
left one is as the constructors leave a matrix whose number of cells does not fit in 64
bits. -/
theorem operator_plus_undefined {T : Type} [Zero T] [Add T] (a b : matrix T)
    (ha : a.constructed) (hrows : a.rows = b.rows) (hcols : a.cols = b.cols)
    (hbig : UINT64_MOD ≤ a.rows * a.cols) : operator_plus a b = .ok none := by
  obtain ⟨i, j, hi, hj, hcall⟩ := constructed_missing_cell a ha hbig
  have hdims : ¬ (a.get_rows ≠ b.get_rows ∨ a.get_cols ≠ b.get_cols) := by
    simp [matrix.get_rows, matrix.get_cols, hrows, hcols]
  have h1 : a.rows ≠ 0 := by have := ha.1; omega
  have h2 : a.cols ≠ 0 := by have := ha.2.1; omega
  rw [operator_plus, if_neg hdims]
  simp only [matrix.get_rows, matrix.get_cols, matrix.zeros, h1, h2, or_self, if_false]
  rw [for_each_cell_undefined a.rows a.cols _ i j hi hj (fun c => by rw [hcall]; rfl)]

/-- Binary `operator-` on operands of equal dimensions has undefined behaviour when the
left one is as the constructors leave a matrix whose number of cells does not fit in 64
bits. -/
theorem operator_minus_undefined {T : Type} [Zero T] [Sub T] (a b : matrix T)
    (ha : a.constructed) (hrows : a.rows = b.rows) (hcols : a.cols = b.cols)
    (hbig : UINT64_MOD ≤ a.rows * a.cols) : operator_minus a b = .ok none := by
  obtain ⟨i, j, hi, hj, hcall⟩ := constructed_missing_cell a ha hbig
  have hdims : ¬ (a.get_rows ≠ b.get_rows ∨ a.get_cols ≠ b.get_cols) := by
    simp [matrix.get_rows, matrix.get_cols, hrows, hcols]
  have h1 : a.rows ≠ 0 := by have := ha.1; omega
  have h2 : a.cols ≠ 0 := by have := ha.2.1; omega
  rw [operator_minus, if_neg hdims]
  simp only [matrix.get_rows, matrix.get_cols, matrix.zeros, h1, h2, or_self, if_false]
  rw [for_each_cell_undefined a.rows a.cols _ i j hi hj (fun c => by rw [hcall]; rfl)]

/-- Scalar `operator*` has undefined behaviour on a matrix as the constructors leave it
whose number of cells does not fit in 64 bits. -/
theorem operator_times_scalar_undefined {T : Type} [Zero T] [Mul T] (s : T) (m : matrix T)
    (hm : m.constructed) (hbig : UINT64_MOD ≤ m.rows * m.cols) :
    operator_times_scalar s m = .ok none := by
  obtain ⟨i, j, hi, hj, hcall⟩ := constructed_missing_cell m hm hbig
  have h1 : m.rows ≠ 0 := by have := hm.1; omega
  have h2 : m.cols ≠ 0 := by have := hm.2.1; omega
  rw [operator_times_scalar]
  simp only [matrix.get_rows, matrix.get_cols, matrix.zeros, h1, h2, or_self, if_false]
  rw [for_each_cell_undefined m.rows m.cols _ i j hi hj (fun c => by rw [hcall]; rfl)]

/-- Matrix `operator*` on operands with matching inner dimensions has undefined behaviour
when one of them is as the constructors leave a matrix whose number of cells does not fit
in 64 bits: the accumulation reads every cell of both operands. -/
theorem operator_times_undefined_operand {T : Type} [Zero T] [Add T] [Mul T] (a b : matrix T)
    (ha : a.constructed) (hb : b.constructed) (hinner : a.cols = b.rows)
    (hbig : UINT64_MOD ≤ a.rows * a.cols ∨ UINT64_MOD ≤ b.rows * b.cols) :
    operator_times a b = .ok none := by
  have hdims : ¬ (a.get_cols ≠ b.get_rows) := by
    simp [matrix.get_rows, matrix.get_cols, hinner]
  have h1 : a.rows ≠ 0 := by have := ha.1; omega
  have h2 : b.cols ≠ 0 := by have := hb.2.1; omega
  rw [operator_times, if_neg hdims]
  simp only [matrix.get_rows, matrix.get_cols, matrix.zeros, h1, h2, or_self, if_false]
  rcases hbig with hbig | hbig
  · obtain ⟨i, k, hi, hk, hcall⟩ := constructed_missing_cell a ha hbig
    rw [for_each_cell_undefined a.rows b.cols _ i 0 hi hb.2.1 (fun c =>
      for_loop_undefined (fun _ => True) _ (fun _ _ _ _ _ => trivial) a.cols k hk
        (fun t _ => by rw [hcall]; rfl) c trivial)]
  · obtain ⟨k, j, hk, hj, hcall⟩ := constructed_missing_cell b hb hbig
    rw [for_each_cell_undefined a.rows b.cols _ 0 j ha.1 hj (fun c =>
      for_loop_undefined (fun _ => True) _ (fun _ _ _ _ _ => trivial) a.cols k
        (by rw [hinner]; exact hk)
        (fun t _ => by
          rw [hcall]
          cases a.call 0 k <;> rfl) c trivial)]

/-! ## Addition, subtraction and scaling -/

/-- The sample matrices satisfy the invariant. -/
theorem sample_square_well_formed : sample_square.well_formed := by
  unfold matrix.well_formed sample_square UINT64_MOD
  decide

/-- The sample matrices satisfy the invariant. -/
theorem sample_wide_well_formed : sample_wide.well_formed := by
  unfold matrix.well_formed sample_wide UINT64_MOD
  decide

/-- Binary `operator+` throws `incompatible_sizes_add` exactly when the numbers of rows or
of columns differ, whatever the operands hold. -/
theorem operator_plus_mismatch_iff {T : Type} [Zero T] [Add T] (a b : matrix T) :
    operator_plus a b = .error .incompatible_sizes_add ↔
      (a.rows ≠ b.rows ∨ a.cols ≠ b.cols) := by
  constructor
  · intro h
    by_contra hne
    have hdims : ¬ (a.get_rows ≠ b.get_rows ∨ a.get_cols ≠ b.get_cols) := hne
    rw [operator_plus, if_neg hdims] at h
    unfold matrix.zeros at h
    split_ifs at h
    simp at h
  · intro h
    have : a.get_rows ≠ b.get_rows ∨ a.get_cols ≠ b.get_cols := h
    rw [operator_plus, if_pos this]

/-- Binary `operator-` throws `incompatible_sizes_add` exactly when the numbers of rows or
of columns differ, whatever the operands hold. -/
theorem operator_minus_mismatch_iff {T : Type} [Zero T] [Sub T] (a b : matrix T) :
    operator_minus a b = .error .incompatible_sizes_add ↔
      (a.rows ≠ b.rows ∨ a.cols ≠ b.cols) := by
  constructor
  · intro h
    by_contra hne
    have hdims : ¬ (a.get_rows ≠ b.get_rows ∨ a.get_cols ≠ b.get_cols) := hne
    rw [operator_minus, if_neg hdims] at h
    unfold matrix.zeros at h
    split_ifs at h
    simp at h
  · intro h
    have : a.get_rows ≠ b.get_rows ∨ a.get_cols ≠ b.get_cols := h
    rw [operator_minus, if_pos this]

/-- Counterexample to C14 as stated: the matrix that `matrix(2 ^ 32, 2 ^ 32)` returns has
the dimensions of itself, yet neither `operator+` nor binary `operator-` returns a matrix
for it: the first access `a(0, 0)` lies outside its empty vector, which is undefined
behaviour. -/
theorem plus_minus_overflow :
    matrix.zeros (2 ^ 32) (2 ^ 32) = .ok empty_square ∧
    operator_plus empty_square empty_square = .ok none ∧
    operator_minus empty_square empty_square = .ok none :=
  ⟨zeros_empty_square,
   operator_plus_undefined _ _ empty_square_constructed.1 rfl rfl empty_square_constructed.2.2,
   operator_minus_undefined _ _ empty_square_constructed.1 rfl rfl empty_square_constructed.2.2⟩

/-- C14, amended: for all matrices `a` and `b`, `operator+` and binary `operator-` fail with
`incompatible_sizes_add` if and only if the numbers of rows or of columns differ. Otherwise,
when `a` and `b` satisfy the invariant, each returns a matrix with the dimensions of `a`
whose element `(i, j)` is `a(i, j) + b(i, j)`, respectively `a(i, j) - b(i, j)`, for every
in-range `(i, j)`; and when `a` is as the constructors leave a matrix whose number of cells
`rows * cols` does not fit in 64 bits, both have undefined behaviour. -/
theorem plus_minus_outcome {T : Type} [Zero T] [Add T] [Sub T] (a b : matrix T) :
    (operator_plus a b = .error .incompatible_sizes_add ↔
      (a.rows ≠ b.rows ∨ a.cols ≠ b.cols)) ∧
    (operator_minus a b = .error .incompatible_sizes_add ↔
      (a.rows ≠ b.rows ∨ a.cols ≠ b.cols)) ∧
    (a.well_formed → b.well_formed → a.rows = b.rows → a.cols = b.cols →
      ∃ c d : matrix T, operator_plus a b = .ok (some c) ∧ operator_minus a b = .ok (some d) ∧
        c.get_rows = a.rows ∧ c.get_cols = a.cols ∧
        d.get_rows = a.rows ∧ d.get_cols = a.cols ∧
        ∀ i j : Nat, i < a.rows → j < a.cols →
          ∃ x y : T, a.call i j = some x ∧ b.call i j = some y ∧
            c.call i j = some (x + y) ∧ d.call i j = some (x - y)) ∧
    (a.constructed → a.rows = b.rows → a.cols = b.cols → UINT64_MOD ≤ a.rows * a.cols →
      operator_plus a b = .ok none ∧ operator_minus a b = .ok none) := by
  refine ⟨operator_plus_mismatch_iff a b, operator_minus_mismatch_iff a b, ?_,
    fun ha hrows hcols hbig => ⟨operator_plus_undefined a b ha hrows hcols hbig,
      operator_minus_undefined a b ha hrows hcols hbig⟩⟩
  intro ha hb hrows hcols
  have hfit : a.rows * a.cols < UINT64_MOD := by rw [← ha.2.2.1]; exact ha.2.2.2
  obtain ⟨c, hc, hcf⟩ := operator_plus_filled a b ha hb hrows hcols
  obtain ⟨d, hd, hdf⟩ := operator_minus_filled a b ha hb hrows hcols
  obtain ⟨-, hc1, hc2, hc3⟩ := filled_done _ a.rows a.cols c ha.1 ha.2.1 hfit hcf
  obtain ⟨-, hd1, hd2, hd3⟩ := filled_done _ a.rows a.cols d ha.1 ha.2.1 hfit hdf
  refine ⟨c, d, hc, hd, hc1, hc2, hd1, hd2, ?_⟩
  intro i j hi hj
  exact ⟨a.entry i j, b.entry i j, call_of_well_formed a ha i j hi hj,
    call_of_well_formed b hb i j (by rw [← hrows]; exact hi) (by rw [← hcols]; exact hj),
    (hc3 i j hi hj).1, (hd3 i j hi hj).1⟩

/-- Witness of `plus_minus_outcome`: a 2 x 2 matrix with a 2 x 3 matrix and with itself,
and the empty square with itself. -/
theorem plus_minus_outcome_witness :
    (operator_plus sample_square sample_wide = .error .incompatible_sizes_add) ∧
    (operator_minus sample_square sample_wide = .error .incompatible_sizes_add) ∧
    (∃ c d : matrix ℤ, operator_plus sample_square sample_square = .ok (some c) ∧
      operator_minus sample_square sample_square = .ok (some d) ∧
      c.get_rows = 2 ∧ c.get_cols = 2 ∧ d.get_rows = 2 ∧ d.get_cols = 2 ∧
      ∀ i j : Nat, i < 2 → j < 2 →
        ∃ x y : ℤ, sample_square.call i j = some x ∧ sample_square.call i j = some y ∧
          c.call i j = some (x + y) ∧ d.call i j = some (x - y)) ∧
    operator_plus empty_square empty_square = .ok none ∧
    operator_minus empty_square empty_square = .ok none :=
  ⟨(plus_minus_outcome sample_square sample_wide).1.2 (Or.inr (by decide)),
   (plus_minus_outcome sample_square sample_wide).2.1.2 (Or.inr (by decide)),
   (plus_minus_outcome sample_square sample_square).2.2.1 sample_square_well_formed
      sample_square_well_formed rfl rfl,
   (plus_minus_outcome empty_square empty_square).2.2.2 empty_square_constructed.1 rfl rfl
      empty_square_constructed.2.2⟩

/-- A completely filled matrix whose cells agree with those of a matrix of the same
dimensions that satisfies the invariant is that matrix. -/
theorem filled_eq_of_entries {T : Type} [Zero T] (f : Nat → Nat → T) (a c : matrix T)
    (ha : a.well_formed) (hc : c.filled f a.rows a.cols (a.rows * a.cols) 0)
    (hf : ∀ i j : Nat, i < a.rows → j < a.cols → f i j = a.entry i j) : c = a := by
  obtain ⟨hrows, hcols, hlen, hcells⟩ := hc
  obtain ⟨-, hpos, halen, -⟩ := ha
  have helems : c.elements = a.elements := by
    apply List.ext_getElem?
    intro q
    by_cases hq : q < a.rows * a.cols
    · have hdiv : q / a.cols < a.rows := by
        apply Nat.div_lt_of_lt_mul
        rw [Nat.mul_comm]; exact hq
      have hmod : q % a.cols < a.cols := Nat.mod_lt _ hpos
      rw [hcells q hq, if_pos hq, hf _ _ hdiv hmod, matrix.entry, Nat.mul_comm (q / a.cols),
        Nat.div_add_mod, List.getD_eq_getElem?_getD]
      rw [← halen] at hq
      simp [List.getElem?_eq_getElem hq]
    · rw [List.getElem?_eq_none (by omega), List.getElem?_eq_none (by omega)]
  cases c
  cases a
  simp only at hrows hcols helems
  subst hrows hcols helems
  rfl

/-- Counterexample to C17 as stated: the matrix that `matrix(2 ^ 32, 2 ^ 32)` returns and
itself have equal dimensions, yet `operator+` returns no matrix for them from which to
subtract: its behaviour is undefined. -/
theorem plus_then_minus_overflow :
    matrix.zeros (2 ^ 32) (2 ^ 32) = .ok empty_square ∧
    operator_plus empty_square empty_square = .ok none ∧
    ¬ ∃ c : matrix ℤ, operator_plus empty_square empty_square = .ok (some c) := by
  have h := operator_plus_undefined empty_square empty_square empty_square_constructed.1
    rfl rfl empty_square_constructed.2.2
  refine ⟨zeros_empty_square, h, ?_⟩
  rintro ⟨c, hc⟩
  rw [h] at hc
  cases hc

/-- C17, amended: for matrices `a` and `b` of equal dimensions, over an element type in
which `(x + y) - y = x`: when `a` and `b` satisfy the invariant, `operator+` returns a matrix
from which `operator-` with `b` returns `a` itself, with the same dimensions and the same
elements; when `a` is as the constructors leave a matrix whose number of cells `rows * cols`
does not fit in 64 bits, `operator+` has undefined behaviour. -/
theorem plus_then_minus {T : Type} [AddGroup T] (a b : matrix T) (hrows : a.rows = b.rows)
    (hcols : a.cols = b.cols) :
    (a.well_formed → b.well_formed →
      ∃ c : matrix T, operator_plus a b = .ok (some c) ∧
        operator_minus c b = .ok (some a)) ∧
    (a.constructed → UINT64_MOD ≤ a.rows * a.cols → operator_plus a b = .ok none) := by
  refine ⟨?_, fun ha hbig => operator_plus_undefined a b ha hrows hcols hbig⟩
  intro ha hb
  have hfit : a.rows * a.cols < UINT64_MOD := by rw [← ha.2.2.1]; exact ha.2.2.2
  obtain ⟨c, hc, hcf⟩ := operator_plus_filled a b ha hb hrows hcols
  obtain ⟨hcwf, hc1, hc2, hc3⟩ := filled_done _ a.rows a.cols c ha.1 ha.2.1 hfit hcf
  have hcr : c.rows = a.rows := hc1
  have hcc : c.cols = a.cols := hc2
  obtain ⟨d, hd, hdf⟩ := operator_minus_filled c b hcwf hb (by rw [hcr, hrows])
    (by rw [hcc, hcols])
  rw [hcr, hcc] at hdf
  have : d = a := by
    apply filled_eq_of_entries _ a d ha hdf
    intro i j hi hj
    rw [(hc3 i j hi hj).2]
    exact add_sub_cancel_right _ _
  rw [this] at hd
  exact ⟨c, hc, hd⟩

/-- Witness of `plus_then_minus`: the 2 x 2 sample matrix with itself, and the empty square
with itself. -/
theorem plus_then_minus_witness :
    (∃ c : matrix ℤ, operator_plus sample_square sample_square = .ok (some c) ∧
      operator_minus c sample_square = .ok (some sample_square)) ∧
    operator_plus empty_square empty_square = .ok none :=
  ⟨(plus_then_minus sample_square sample_square rfl rfl).1 sample_square_well_formed
      sample_square_well_formed,
   (plus_then_minus empty_square empty_square rfl rfl).2 empty_square_constructed.1
      empty_square_constructed.2.2⟩

/-- Counterexample to C18 as stated: for the matrix that `matrix(2 ^ 32, 2 ^ 32)` returns,
neither `operator*(m, s)` nor `operator*(s, m)` returns a matrix: the first access
`m(0, 0)` lies outside its empty vector, which is undefined behaviour. -/
theorem scalar_times_overflow :
    matrix.zeros (2 ^ 32) (2 ^ 32) = .ok empty_square ∧
    operator_times_scalar_right empty_square 3 = .ok none ∧
    operator_times_scalar 3 empty_square = .ok none :=
  ⟨zeros_empty_square,
   operator_times_scalar_undefined 3 _ empty_square_constructed.1 empty_square_constructed.2.2,
   operator_times_scalar_undefined 3 _ empty_square_constructed.1 empty_square_constructed.2.2⟩

/-- C18, amended: for every matrix `m` and scalar `s`, `operator*(m, s)` and
`operator*(s, m)` have the same outcome, and neither throws when the dimensions of `m` are
positive, as the constructors leave them. When `m` satisfies the invariant, both return the
same matrix, which has the dimensions of `m` and whose element `(i, j)` is `s * m(i, j)` for
every in-range `(i, j)`; when `m` is as the constructors leave a matrix whose number of
cells `rows * cols` does not fit in 64 bits, both have undefined behaviour. -/
theorem scalar_times_outcome {T : Type} [Zero T] [Mul T] (m : matrix T) (s : T) :
    operator_times_scalar_right m s = operator_times_scalar s m ∧
    (0 < m.rows → 0 < m.cols → ∀ e : Exception, operator_times_scalar s m ≠ .error e) ∧
    (m.well_formed →
      ∃ c : matrix T, operator_times_scalar_right m s = .ok (some c) ∧
        operator_times_scalar s m = .ok (some c) ∧
        c.get_rows = m.rows ∧ c.get_cols = m.cols ∧
        ∀ i j : Nat, i < m.rows → j < m.cols →
          ∃ x : T, m.call i j = some x ∧ c.call i j = some (s * x)) ∧
    (m.constructed → UINT64_MOD ≤ m.rows * m.cols →
      operator_times_scalar_right m s = .ok none ∧ operator_times_scalar s m = .ok none) := by
  refine ⟨rfl, ?_, ?_, fun hm hbig =>
    ⟨operator_times_scalar_undefined s m hm hbig, operator_times_scalar_undefined s m hm hbig⟩⟩
  · intro hr hc e h
    have h1 : m.rows ≠ 0 := by omega
    have h2 : m.cols ≠ 0 := by omega
    rw [operator_times_scalar] at h
    simp [matrix.get_rows, matrix.get_cols, matrix.zeros, h1, h2] at h
  · intro hm
    have hfit : m.rows * m.cols < UINT64_MOD := by rw [← hm.2.2.1]; exact hm.2.2.2
    obtain ⟨c, hc, hcf⟩ := operator_times_scalar_filled s m hm
    obtain ⟨-, hc1, hc2, hc3⟩ := filled_done _ m.rows m.cols c hm.1 hm.2.1 hfit hcf
    exact ⟨c, hc, hc, hc1, hc2, fun i j hi hj =>
      ⟨m.entry i j, call_of_well_formed m hm i j hi hj, (hc3 i j hi hj).1⟩⟩

/-- Witness of `scalar_times_outcome`: the 2 x 3 sample matrix and the scalar 3, and the
empty square and the scalar 3. -/
theorem scalar_times_outcome_witness :
    (∀ e : Exception, operator_times_scalar 3 sample_wide ≠ .error e) ∧
    (∃ c : matrix ℤ, operator_times_scalar_right sample_wide 3 = .ok (some c) ∧
      operator_times_scalar 3 sample_wide = .ok (some c) ∧
      c.get_rows = 2 ∧ c.get_cols = 3 ∧
      ∀ i j : Nat, i < 2 → j < 3 →
        ∃ x : ℤ, sample_wide.call i j = some x ∧ c.call i j = some (3 * x)) ∧
    operator_times_scalar_right empty_square 3 = .ok none ∧
    operator_times_scalar 3 empty_square = .ok none :=
  ⟨(scalar_times_outcome sample_wide 3).2.1 (by decide) (by decide),
   (scalar_times_outcome sample_wide 3).2.2.1 sample_wide_well_formed,
   (scalar_times_outcome empty_square 3).2.2.2 empty_square_constructed.1
      empty_square_constructed.2.2⟩

/-! ## Matrix product -/

/-- The long sample matrices satisfy the invariant. -/
theorem tall_column_well_formed : tall_column.well_formed := by
  unfold matrix.well_formed tall_column
  simp only [List.length_replicate]
  norm_num [UINT64_MOD]

/-- The long sample matrices satisfy the invariant. -/
theorem long_row_well_formed : long_row.well_formed := by
  unfold matrix.well_formed long_row
  simp only [List.length_replicate]
  norm_num [UINT64_MOD]

/-- A matrix that satisfies the invariant is as the constructors leave a matrix. -/
theorem constructed_of_well_formed {T : Type} (m : matrix T) (h : m.well_formed) :
    m.constructed :=
  ⟨h.1, h.2.1, by rw [h.2.2.1]; exact (Nat.mod_eq_of_lt (by rw [← h.2.2.1]; exact h.2.2.2)).symm⟩

/-- Counterexample to the success of the matrix product whenever the inner dimensions
match. First, a column of `2 ^ 32` elements and a row of `2 ^ 32` elements satisfy the
invariant and have matching inner dimensions, yet their product neither fails nor returns a
`2 ^ 32 x 2 ^ 32` matrix: the vector of the result is created empty and the first
accumulation falls outside it. Second, the matrix that `matrix(2 ^ 32, 2 ^ 32)` returns and
that column have matching inner dimensions and the `2 ^ 32` cells of their product fit in
64 bits, yet the product is not returned either: the first access `a(0, 0)` lies outside the
empty vector of the left operand. -/
theorem operator_times_overflow :
    (tall_column.well_formed ∧ long_row.well_formed ∧
      tall_column.get_cols = long_row.get_rows ∧
      operator_times tall_column long_row = .ok none) ∧
    (matrix.zeros (2 ^ 32) (2 ^ 32) = .ok empty_square ∧ tall_column.well_formed ∧
      empty_square.get_cols = tall_column.get_rows ∧
      empty_square.get_rows * tall_column.get_cols < UINT64_MOD ∧
      operator_times empty_square tall_column = .ok none) :=
  ⟨⟨tall_column_well_formed, long_row_well_formed, rfl,
    operator_times_undefined tall_column long_row tall_column_well_formed
      long_row_well_formed rfl (by norm_num [tall_column, long_row, UINT64_MOD])⟩,
   ⟨zeros_empty_square, tall_column_well_formed, rfl,
    by norm_num [empty_square, tall_column, matrix.get_rows, matrix.get_cols, UINT64_MOD],
    operator_times_undefined_operand empty_square tall_column empty_square_constructed.1
      (constructed_of_well_formed _ tall_column_well_formed)
      rfl (Or.inl empty_square_constructed.2.2)⟩⟩

/-- Matrix `operator*` throws `incompatible_sizes_multiply` exactly when the inner
dimensions differ, whatever the operands hold. -/
theorem operator_times_mismatch_iff {T : Type} [Zero T] [Add T] [Mul T] (a b : matrix T) :
    operator_times a b = .error .incompatible_sizes_multiply ↔ a.cols ≠ b.rows := by
  constructor
  · intro h
    by_contra hne
    have hdims : ¬ (a.get_cols ≠ b.get_rows) := fun h1 => h1 hne
    rw [operator_times, if_neg hdims] at h
    unfold matrix.zeros at h
    split_ifs at h
    simp at h
  · intro h
    have : a.get_cols ≠ b.get_rows := h
    rw [operator_times, if_pos this]

/-- C15, amended: for all matrices `a` and `b`, `operator*(a, b)` fails with
`incompatible_sizes_multiply` if and only if `a.cols != b.rows`. Otherwise, when `a` and `b`
satisfy the invariant and `a.rows * b.cols` fits in 64 bits, it succeeds with a result of
shape `a.rows x b.cols`; when they satisfy the invariant and that product does not fit, and
when one of them is as the constructors leave a matrix whose own number of cells does not
fit in 64 bits, it has undefined behaviour. -/
theorem times_outcome {T : Type} [Zero T] [Add T] [Mul T] (a b : matrix T) :
    (operator_times a b = .error .incompatible_sizes_multiply ↔ a.cols ≠ b.rows) ∧
    (a.well_formed → b.well_formed → a.cols = b.rows → a.rows * b.cols < UINT64_MOD →
      ∃ c : matrix T, operator_times a b = .ok (some c) ∧
        c.get_rows = a.rows ∧ c.get_cols = b.cols) ∧
    (a.well_formed → b.well_formed → a.cols = b.rows → UINT64_MOD ≤ a.rows * b.cols →
      operator_times a b = .ok none) ∧
    (a.constructed → b.constructed → a.cols = b.rows →
      (UINT64_MOD ≤ a.rows * a.cols ∨ UINT64_MOD ≤ b.rows * b.cols) →
      operator_times a b = .ok none) := by
  refine ⟨operator_times_mismatch_iff a b, ?_,
    fun ha hb hinner hbig => operator_times_undefined a b ha hb hinner hbig,
    fun ha hb hinner hbig => operator_times_undefined_operand a b ha hb hinner hbig⟩
  intro ha hb hinner hfit
  obtain ⟨c, hc, hcf⟩ := operator_times_filled a b ha hb hinner hfit
  obtain ⟨-, hc1, hc2, -⟩ := filled_done _ a.rows b.cols c ha.1 hb.2.1 hfit hcf
  exact ⟨c, hc, hc1, hc2⟩

/-- Witness of `times_outcome`: the product of the 2 x 3 sample by the 2 x 2 sample fails,
the product of the 2 x 2 sample by the 2 x 3 sample has shape 2 x 3, the product of the
long column by the long row is undefined, and so is the product of the empty square by the
long column. -/
theorem times_outcome_witness :
    operator_times sample_wide sample_square = .error .incompatible_sizes_multiply ∧
    (∃ c : matrix ℤ, operator_times sample_square sample_wide = .ok (some c) ∧
      c.get_rows = 2 ∧ c.get_cols = 3) ∧
    operator_times tall_column long_row = .ok none ∧
    operator_times empty_square tall_column = .ok none :=
  ⟨(times_outcome sample_wide sample_square).1.2 (by decide),
   (times_outcome sample_square sample_wide).2.1 sample_square_well_formed
      sample_wide_well_formed rfl (by norm_num [sample_square, sample_wide, UINT64_MOD]),
   (times_outcome tall_column long_row).2.2.1 tall_column_well_formed
      long_row_well_formed rfl (by norm_num [tall_column, long_row, UINT64_MOD]),
   (times_outcome empty_square tall_column).2.2.2 empty_square_constructed.1
      (constructed_of_well_formed _ tall_column_well_formed) rfl
      (Or.inl empty_square_constructed.2.2)⟩

/-- The accumulated sum is the sum of the products. -/
theorem dot_product_eq_sum {T : Type} [Semiring T] (a b : matrix T) (i j n : Nat) :
    dot_product a b i j n = ∑ k in Finset.range n, a.entry i k * b.entry k j := by
  induction n with
  | zero => simp [dot_product]
  | succ n ih => rw [dot_product_succ, Finset.sum_range_succ, ih]

/-- C16: for matrices `a` and `b` that satisfy the invariant, over a semiring of elements,
with `a.cols == b.rows`: every element `(i, j)` of a matrix returned by `operator*(a, b)`,
`i < a.rows`, `j < b.cols`, is the sum over `k < a.cols` of `a(i, k) * b(k, j)`,
accumulated from zero in increasing `k`, where `a(i, k)` and `b(k, j)` are what
`operator()` returns; and the operator does return a matrix whenever `a.rows * b.cols`
fits in 64 bits. -/
theorem times_elements {T : Type} [Semiring T] (a b : matrix T)
    (ha : a.well_formed) (hb : b.well_formed) (hinner : a.cols = b.rows) :
    (∀ c : matrix T, operator_times a b = .ok (some c) →
      ∀ i j : Nat, i < a.rows → j < b.cols →
        c.call i j = some (dot_product a b i j a.cols) ∧
        dot_product a b i j a.cols = ∑ k in Finset.range a.cols, a.entry i k * b.entry k j ∧
        ∀ k : Nat, k < a.cols →
          a.call i k = some (a.entry i k) ∧ b.call k j = some (b.entry k j)) ∧
    (a.rows * b.cols < UINT64_MOD → ∃ c : matrix T, operator_times a b = .ok (some c)) := by
  constructor
  · intro c hc i j hi hj
    by_cases hfit : a.rows * b.cols < UINT64_MOD
    · obtain ⟨c', hc', hcf⟩ := operator_times_filled a b ha hb hinner hfit
      rw [hc] at hc'
      cases hc'
      obtain ⟨-, -, -, hc3⟩ := filled_done _ a.rows b.cols c ha.1 hb.2.1 hfit hcf
      exact ⟨(hc3 i j hi hj).1, dot_product_eq_sum a b i j a.cols, fun k hk =>
        ⟨call_of_well_formed a ha i k hi hk,
         call_of_well_formed b hb k j (by rw [← hinner]; exact hk) hj⟩⟩
    · rw [operator_times_undefined a b ha hb hinner (by omega)] at hc
      cases hc
  · intro hfit
    obtain ⟨c, hc, -⟩ := operator_times_filled a b ha hb hinner hfit
    exact ⟨c, hc⟩

/-- Witness of `times_elements`: the product of the 2 x 2 sample by the 2 x 3 sample. -/
theorem times_elements_witness :
    ∃ c : matrix ℤ, operator_times sample_square sample_wide = .ok (some c) ∧
      ∀ i j : Nat, i < 2 → j < 3 →
        c.call i j = some (dot_product sample_square sample_wide i j 2) ∧
        dot_product sample_square sample_wide i j 2
          = ∑ k in Finset.range 2, sample_square.entry i k * sample_wide.entry k j := by
  obtain ⟨c, hc⟩ := (times_elements sample_square sample_wide sample_square_well_formed
    sample_wide_well_formed rfl).2 (by norm_num [sample_square, sample_wide, UINT64_MOD])
  refine ⟨c, hc, fun i j hi hj => ?_⟩
  have := (times_elements sample_square sample_wide sample_square_well_formed
    sample_wide_well_formed rfl).1 c hc i j hi hj
  exact ⟨this.1, this.2.1⟩

/-! ## The invariant of the results -/

/-- A matrix as the constructors leave it satisfies the invariant when the product of its
dimensions fits in 64 bits. -/
theorem well_formed_of_constructed {T : Type} (m : matrix T) (h : m.constructed)
    (hfit : m.rows * m.cols < UINT64_MOD) : m.well_formed := by
  obtain ⟨h1, h2, h3⟩ := h
  rw [Nat.mod_eq_of_lt hfit] at h3
  exact ⟨h1, h2, h3, by rw [h3]; exact hfit⟩

/-- What the two-argument constructor establishes. -/
theorem zeros_constructed {T : Type} [Zero T] (rows cols : Nat) (m : matrix T)
    (h : matrix.zeros rows cols = .ok m) : m.constructed := by
  unfold matrix.zeros at h
  split at h
  · cases h
  · rename_i hne
    cases h
    exact ⟨Nat.pos_of_ne_zero (fun h0 => hne (Or.inl h0)),
      Nat.pos_of_ne_zero (fun h0 => hne (Or.inr h0)), by simp [matrix.constructed]⟩

/-- What the constructor from a vector of elements establishes. -/
theorem from_vector_constructed {T : Type} (rows cols : Nat) (flat : List T) (m : matrix T)
    (h : matrix.from_vector rows cols flat = .ok m) : m.constructed := by
  unfold matrix.from_vector at h
  split at h
  · cases h
  · rename_i hne
    split at h
    · cases h
    · rename_i hlen
      cases h
      exact ⟨Nat.pos_of_ne_zero (fun h0 => hne (Or.inl h0)),
        Nat.pos_of_ne_zero (fun h0 => hne (Or.inr h0)), by simpa using hlen⟩

/-- What the diagonal constructor establishes when it returns. -/
theorem from_diagonal_constructed {T : Type} [Zero T] (values : List T) (m : matrix T)
    (h : matrix.from_diagonal values = .ok (some m)) : m.constructed := by
  unfold matrix.from_diagonal at h
  split at h
  · cases h
  · rename_i hne
    simp only [Except.ok.injEq] at h
    have hQ := for_loop_invariant
      (fun c : matrix T => c.rows = values.length ∧ c.cols = values.length ∧
        c.elements.length = values.length * values.length % UINT64_MOD)
      _ (fun k s s' hs hstep => by
        cases hd : values[k]? with
        | none => rw [hd] at hstep; cases hstep
        | some d =>
          rw [hd] at hstep
          obtain ⟨h1, h2, h3⟩ := assign_shape s s' k k d hstep
          exact ⟨by rw [h1, hs.1], by rw [h2, hs.2.1], by rw [h3, hs.2.2]⟩)
      _ _ m ⟨rfl, rfl, by simp⟩ h
    obtain ⟨h1, h2, h3⟩ := hQ
    exact ⟨by omega, by omega, by rw [h1, h2]; exact h3⟩

/-- A matrix returned by `operator+` on matrices that satisfy the invariant satisfies it. -/
theorem operator_plus_well_formed {T : Type} [Zero T] [Add T] (a b c : matrix T)
    (ha : a.well_formed) (hb : b.well_formed) (h : operator_plus a b = .ok (some c)) :
    c.well_formed := by
  have hfit : a.rows * a.cols < UINT64_MOD := by rw [← ha.2.2.1]; exact ha.2.2.2
  by_cases hd : a.get_rows ≠ b.get_rows ∨ a.get_cols ≠ b.get_cols
  · rw [operator_plus, if_pos hd] at h; cases h
  · have hrows : a.rows = b.rows := by
      by_contra h1; exact hd (Or.inl h1)
    have hcols : a.cols = b.cols := by
      by_contra h1; exact hd (Or.inr h1)
    obtain ⟨c', hc', hcf⟩ := operator_plus_filled a b ha hb hrows hcols
    rw [h] at hc'
    cases hc'
    exact (filled_done _ a.rows a.cols c ha.1 ha.2.1 hfit hcf).1

/-- A matrix returned by binary `operator-` on matrices that satisfy the invariant
satisfies it. -/
theorem operator_minus_well_formed {T : Type} [Zero T] [Sub T] (a b c : matrix T)
    (ha : a.well_formed) (hb : b.well_formed) (h : operator_minus a b = .ok (some c)) :
    c.well_formed := by
  have hfit : a.rows * a.cols < UINT64_MOD := by rw [← ha.2.2.1]; exact ha.2.2.2
  by_cases hd : a.get_rows ≠ b.get_rows ∨ a.get_cols ≠ b.get_cols
  · rw [operator_minus, if_pos hd] at h; cases h
  · have hrows : a.rows = b.rows := by
      by_contra h1; exact hd (Or.inl h1)
    have hcols : a.cols = b.cols := by
      by_contra h1; exact hd (Or.inr h1)
    obtain ⟨c', hc', hcf⟩ := operator_minus_filled a b ha hb hrows hcols
    rw [h] at hc'
    cases hc'
    exact (filled_done _ a.rows a.cols c ha.1 ha.2.1 hfit hcf).1

/-- A matrix returned by unary `operator-` on a matrix that satisfies the invariant
satisfies it. -/
theorem operator_negate_well_formed {T : Type} [Zero T] [Neg T] (m c : matrix T)
    (hm : m.well_formed) (h : operator_negate m = .ok (some c)) : c.well_formed := by
  have hfit : m.rows * m.cols < UINT64_MOD := by rw [← hm.2.2.1]; exact hm.2.2.2
  obtain ⟨c', hc', hcf⟩ := operator_negate_filled m hm
  rw [h] at hc'
  cases hc'
  exact (filled_done _ m.rows m.cols c hm.1 hm.2.1 hfit hcf).1

/-- A matrix returned by scalar `operator*` on a matrix that satisfies the invariant
satisfies it. -/
theorem operator_times_scalar_well_formed {T : Type} [Zero T] [Mul T] (s : T) (m c : matrix T)
    (hm : m.well_formed) (h : operator_times_scalar s m = .ok (some c)) : c.well_formed := by
  have hfit : m.rows * m.cols < UINT64_MOD := by rw [← hm.2.2.1]; exact hm.2.2.2
  obtain ⟨c', hc', hcf⟩ := operator_times_scalar_filled s m hm
  rw [h] at hc'
  cases hc'
  exact (filled_done _ m.rows m.cols c hm.1 hm.2.1 hfit hcf).1

/-- A matrix returned by matrix `operator*` on matrices that satisfy the invariant
satisfies it. -/
theorem operator_times_well_formed {T : Type} [Zero T] [Add T] [Mul T] (a b c : matrix T)
    (ha : a.well_formed) (hb : b.well_formed) (h : operator_times a b = .ok (some c)) :
    c.well_formed := by
  by_cases hd : a.get_cols ≠ b.get_rows
  · rw [operator_times, if_pos hd] at h; cases h
  · have hinner : a.cols = b.rows := by
      by_contra h1; exact hd h1
    by_cases hfit : a.rows * b.cols < UINT64_MOD
    · obtain ⟨c', hc', hcf⟩ := operator_times_filled a b ha hb hinner hfit
      rw [h] at hc'
      cases hc'
      exact (filled_done _ a.rows b.cols c ha.1 hb.2.1 hfit hcf).1
    · rw [operator_times_undefined a b ha hb hinner (by omega)] at h
      cases h

/-- When a compound assignment returns a matrix, that matrix is the result of its
right-hand side and the new value of the left operand. -/
theorem assign_result_returned {T : Type} (a c : matrix T)
    (sum : Except Exception (Option (matrix T))) (h : (assign_result a sum).1 = .ok (some c)) :
    sum = .ok (some c) ∧ (assign_result a sum).2 = c := by
  unfold assign_result at h ⊢
  split at h
  · cases h
  · cases h
  · simp only [Except.ok.injEq, Option.some.injEq] at h
    subst h
    exact ⟨rfl, rfl⟩

/-- Counterexample to the element count of every constructed matrix: for `rows = 2 ^ 63`
and `cols = 2` the zero constructor succeeds with positive dimensions and an empty vector
of elements, not with `rows * cols = 2 ^ 64` elements. -/
theorem zeros_breaks_invariant :
    ∃ m : matrix ℤ, matrix.zeros (2 ^ 63) 2 = .ok m ∧ 0 < m.rows ∧ 0 < m.cols ∧
      m.rows < UINT64_MOD ∧ m.cols < UINT64_MOD ∧
      m.elements.length = 0 ∧ m.elements.length ≠ m.rows * m.cols := by
  refine ⟨{ rows := 2 ^ 63, cols := 2, elements := [] }, ?_, by norm_num, by norm_num,
    by norm_num [UINT64_MOD], by norm_num [UINT64_MOD], rfl, by norm_num⟩
  simp [matrix.zeros, UINT64_MOD]

/-- C19: every matrix produced by a constructor that succeeds has `rows > 0`, `cols > 0`
and as many stored elements as the product `rows * cols` reduced modulo `2 ^ 64`, hence
exactly `rows * cols` elements when that product fits in 64 bits; and every matrix
produced by a successful arithmetic operator (`+`, `+=`, unary `-`, binary `-`, `-=`,
matrix `*`, scalar `*`) on matrices that satisfy the invariant satisfies the invariant:
`rows > 0`, `cols > 0` and exactly `rows * cols` stored elements. -/
theorem results_keep_invariant {T : Type} [Zero T] [Add T] [Sub T] [Neg T] [Mul T] :
    (∀ (rows cols : Nat) (m : matrix T), matrix.zeros rows cols = .ok m →
      m.constructed ∧ (m.rows * m.cols < UINT64_MOD → m.well_formed)) ∧
    (∀ (values : List T) (m : matrix T), matrix.from_diagonal values = .ok (some m) →
      m.constructed ∧ (m.rows * m.cols < UINT64_MOD → m.well_formed)) ∧
    (∀ (rows cols : Nat) (flat : List T) (m : matrix T),
      matrix.from_vector rows cols flat = .ok m →
      m.constructed ∧ (m.rows * m.cols < UINT64_MOD → m.well_formed)) ∧
    (∀ a b c : matrix T, a.well_formed → b.well_formed →
      (operator_plus a b = .ok (some c) → c.well_formed) ∧
      ((operator_plus_assign a b).1 = .ok (some c) →
        c.well_formed ∧ (operator_plus_assign a b).2.well_formed) ∧
      (operator_minus a b = .ok (some c) → c.well_formed) ∧
      ((operator_minus_assign a b).1 = .ok (some c) →
        c.well_formed ∧ (operator_minus_assign a b).2.well_formed) ∧
      (operator_times a b = .ok (some c) → c.well_formed)) ∧
    (∀ (m c : matrix T) (s : T), m.well_formed →
      (operator_negate m = .ok (some c) → c.well_formed) ∧
      (operator_times_scalar s m = .ok (some c) → c.well_formed) ∧
      (operator_times_scalar_right m s = .ok (some c) → c.well_formed)) := by
  refine ⟨?_, ?_, ?_, ?_, ?_⟩
  · intro rows cols m h
    exact ⟨zeros_constructed rows cols m h,
      well_formed_of_constructed m (zeros_constructed rows cols m h)⟩
  · intro values m h
    exact ⟨from_diagonal_constructed values m h,
      well_formed_of_constructed m (from_diagonal_constructed values m h)⟩
  · intro rows cols flat m h
    exact ⟨from_vector_constructed rows cols flat m h,
      well_formed_of_constructed m (from_vector_constructed rows cols flat m h)⟩
  · intro a b c ha hb
    refine ⟨operator_plus_well_formed a b c ha hb, ?_, operator_minus_well_formed a b c ha hb,
      ?_, operator_times_well_formed a b c ha hb⟩
    · intro h
      obtain ⟨h1, h2⟩ := assign_result_returned a c (operator_plus a b) h
      have hc := operator_plus_well_formed a b c ha hb h1
      refine ⟨hc, ?_⟩
      rw [operator_plus_assign, h2]
      exact hc
    · intro h
      obtain ⟨h1, h2⟩ := assign_result_returned a c (operator_minus a b) h
      have hc := operator_minus_well_formed a b c ha hb h1
      refine ⟨hc, ?_⟩
      rw [operator_minus_assign, h2]
      exact hc
  · intro m c s hm
    exact ⟨operator_negate_well_formed m c hm, operator_times_scalar_well_formed s m c hm,
      operator_times_scalar_well_formed s m c hm⟩

/-- Witness of `results_keep_invariant`: the sum of the 2 x 2 sample with itself and the
2 x 3 zero matrix satisfy the invariant. -/
theorem results_keep_invariant_witness :
    (∀ c : matrix ℤ, operator_plus sample_square sample_square = .ok (some c) →
      c.well_formed) ∧
    (∀ m : matrix ℤ, matrix.zeros 2 3 = .ok m →
      m.constructed ∧ (m.rows * m.cols < UINT64_MOD → m.well_formed)) :=
  ⟨fun c => ((results_keep_invariant (T := ℤ)).2.2.2.1 sample_square sample_square c
      sample_square_well_formed sample_square_well_formed).1,
   fun m => (results_keep_invariant (T := ℤ)).1 2 3 m⟩

/-! ## Compound assignment and the operands of the operators -/

/-- Assigning twice to the object at one address leaves what the second assignment wrote. -/
theorem update_update {T : Type} (s : Objects T) (c : Nat) (m : matrix T) :
    Function.update (Function.update s c m) c = Function.update s c := by
  funext w
  exact Function.update_idem _ _ _

/-- A loop whose iterations act on the object at the address `c` alone, as `body` acts on a
matrix, acts on that object as the loop of `body` does and leaves the other objects. -/
theorem for_loop_on_object {T : Type} (objs : Objects T) (c : Nat)
    (body_at : Nat → Objects T → Option (Objects T))
    (body : Nat → matrix T → Option (matrix T))
    (hrel : ∀ k s, (∀ x, x ≠ c → s x = objs x) →
      body_at k s = (body k (s c)).map (Function.update s c))
    (n : Nat) (s : Objects T) (hs : ∀ x, x ≠ c → s x = objs x) :
    for_loop body_at n s = (for_loop body n (s c)).map (Function.update s c) := by
  induction n with
  | zero => simp [for_loop]
  | succ n ih =>
    rw [for_loop_succ, for_loop_succ, ih]
    cases hn : for_loop body n (s c) with
    | none => rfl
    | some m =>
      have hframe : ∀ x, x ≠ c → Function.update s c m x = objs x := by
        intro x hx
        rw [Function.update_noteq hx, hs x hx]
      simp only [Option.map_some', Option.some_bind]
      rw [hrel n _ hframe, Function.update_same, update_update]

/-- The shared steps of the operators, when the cell statement acts on the local result
alone as `cell` acts on a matrix: the call returns what the loops over the cells of a matrix
return, and leaves every object but the local as it was. -/
theorem operator_call_eq {T : Type} [Zero T] (objs : Objects T) (c rows cols : Nat)
    (cell_at : Nat → Nat → Objects T → Option (Objects T))
    (cell : Nat → Nat → matrix T → Option (matrix T))
    (hrel : ∀ i j s, (∀ x, x ≠ c → s x = objs x) →
      cell_at i j s = (cell i j (s c)).map (Function.update s c)) :
    (operator_call objs c rows cols cell_at).1
      = (match (matrix.zeros rows cols : Except Exception (matrix T)) with
        | .error e => .error e
        | .ok m => .ok (for_each_cell rows cols cell m)) ∧
    ∀ x, x ≠ c → (operator_call objs c rows cols cell_at).2 x = objs x := by
  unfold operator_call
  cases hz : (matrix.zeros rows cols : Except Exception (matrix T)) with
  | error e => exact ⟨rfl, fun _ _ => rfl⟩
  | ok m =>
    have hframe : ∀ x, x ≠ c → Function.update objs c m x = objs x :=
      fun x hx => Function.update_noteq hx _ _
    have hloops := for_loop_on_object objs c
      (fun i s => for_loop (fun j s => cell_at i j s) cols s)
      (fun i m => for_loop (fun j m => cell i j m) cols m)
      (fun i s hs => for_loop_on_object objs c (fun j s => cell_at i j s)
        (fun j m => cell i j m) (fun j s hs => hrel i j s hs) cols s hs)
      rows (Function.update objs c m) hframe
    rw [Function.update_same, update_update] at hloops
    simp only
    rw [hloops]
    unfold for_each_cell
    cases for_loop (fun i m => for_loop (fun j m => cell i j m) cols m) rows m with
    | none => exact ⟨rfl, fun _ _ => rfl⟩
    | some r =>
      simp only [Option.map_some', Function.update_same]
      exact ⟨trivial, fun x hx => Function.update_noteq hx _ _⟩

/-- Binary `operator+` as a call returns what `operator_plus` returns for the matrices that
its operands hold, and leaves every object but its local result as it was. -/
theorem operator_plus_at_eq {T : Type} [Zero T] [Add T] (objs : Objects T) (a b c : Nat)
    (ha : a ≠ c) (hb : b ≠ c) :
    (operator_plus_at objs a b c).1 = operator_plus (objs a) (objs b) ∧
    ∀ x, x ≠ c → (operator_plus_at objs a b c).2 x = objs x := by
  unfold operator_plus_at operator_plus
  split_ifs with hd
  · exact ⟨rfl, fun _ _ => rfl⟩
  · exact operator_call_eq objs c _ _ _
      (fun i j m => ((objs a).call i j).bind (fun x => ((objs b).call i j).bind (fun y =>
        m.assign i j (x + y))))
      (fun i j s hs => by
        beta_reduce
        rw [hs a ha, hs b hb]
        unfold Objects.assign
        cases (objs a).call i j with
        | none => rfl
        | some x =>
          cases (objs b).call i j with
          | none => rfl
          | some y => rfl)

/-- Binary `operator-` as a call returns what `operator_minus` returns for the matrices
that its operands hold, and leaves every object but its local result as it was. -/
theorem operator_minus_at_eq {T : Type} [Zero T] [Sub T] (objs : Objects T) (a b c : Nat)
    (ha : a ≠ c) (hb : b ≠ c) :
    (operator_minus_at objs a b c).1 = operator_minus (objs a) (objs b) ∧
    ∀ x, x ≠ c → (operator_minus_at objs a b c).2 x = objs x := by
  unfold operator_minus_at operator_minus
  split_ifs with hd
  · exact ⟨rfl, fun _ _ => rfl⟩
  · exact operator_call_eq objs c _ _ _
      (fun i j m => ((objs a).call i j).bind (fun x => ((objs b).call i j).bind (fun y =>
        m.assign i j (x - y))))
      (fun i j s hs => by
        beta_reduce
        rw [hs a ha, hs b hb]
        unfold Objects.assign
        cases (objs a).call i j with
        | none => rfl
        | some x =>
          cases (objs b).call i j with
          | none => rfl
          | some y => rfl)

/-- Unary `operator-` as a call returns what `operator_negate` returns for the matrix that
its operand holds, and leaves every object but its local result as it was. -/
theorem operator_negate_at_eq {T : Type} [Zero T] [Neg T] (objs : Objects T) (m c : Nat)
    (hm : m ≠ c) :
    (operator_negate_at objs m c).1 = operator_negate (objs m) ∧
    ∀ x, x ≠ c → (operator_negate_at objs m c).2 x = objs x := by
  unfold operator_negate_at operator_negate
  exact operator_call_eq objs c _ _ _
    (fun i j r => ((objs m).call i j).bind (fun x => r.assign i j (-x)))
    (fun i j s hs => by
      beta_reduce
      rw [hs m hm]
      unfold Objects.assign
      cases (objs m).call i j with
      | none => rfl
      | some x => rfl)

/-- Scalar `operator*` as a call returns what `operator_times_scalar` returns for the
matrix that its operand holds, and leaves every object but its local result as it was. -/
theorem operator_times_scalar_at_eq {T : Type} [Zero T] [Mul T] (objs : Objects T) (s : T)
    (m c : Nat) (hm : m ≠ c) :
    (operator_times_scalar_at objs s m c).1 = operator_times_scalar s (objs m) ∧
    ∀ x, x ≠ c → (operator_times_scalar_at objs s m c).2 x = objs x := by
  unfold operator_times_scalar_at operator_times_scalar
  exact operator_call_eq objs c _ _ _
    (fun i j r => ((objs m).call i j).bind (fun x => r.assign i j (s * x)))
    (fun i j t ht => by
      beta_reduce
      rw [ht m hm]
      unfold Objects.assign
      cases (objs m).call i j with
      | none => rfl
      | some x => rfl)

/-- Matrix `operator*` as a call returns what `operator_times` returns for the matrices
that its operands hold, and leaves every object but its local result as it was. -/
theorem operator_times_at_eq {T : Type} [Zero T] [Add T] [Mul T] (objs : Objects T)
    (a b c : Nat) (ha : a ≠ c) (hb : b ≠ c) :
    (operator_times_at objs a b c).1 = operator_times (objs a) (objs b) ∧
    ∀ x, x ≠ c → (operator_times_at objs a b c).2 x = objs x := by
  unfold operator_times_at operator_times
  split_ifs with hd
  · exact ⟨rfl, fun _ _ => rfl⟩
  · exact operator_call_eq objs c _ _ _
      (fun i j m => for_loop
        (fun k m => ((objs a).call i k).bind (fun x => ((objs b).call k j).bind (fun y =>
          (m.call i j).bind (fun z => m.assign i j (z + x * y)))))
        (objs a).get_cols m)
      (fun i j s hs => for_loop_on_object objs c _ _
        (fun k t ht => by
          rw [ht a ha, ht b hb]
          unfold Objects.assign
          cases (objs a).call i k with
          | none => rfl
          | some x =>
            cases (objs b).call k j with
            | none => rfl
            | some y =>
              cases (t c).call i j with
              | none => rfl
              | some z => rfl)
        (objs a).get_cols s hs)

/-- Compound `operator+=` as a call has the outcome of `operator_plus` on the matrices
that its operands hold, leaves in the object `a` what `operator_plus_assign` leaves in its
left operand, and leaves every other object but the temporary as it was. -/
theorem operator_plus_assign_at_eq {T : Type} [Zero T] [Add T] (objs : Objects T)
    (a b c : Nat) (ha : a ≠ c) (hb : b ≠ c) :
    (operator_plus_assign_at objs a b c).1 = operator_plus (objs a) (objs b) ∧
    (operator_plus_assign_at objs a b c).2 a = (operator_plus_assign (objs a) (objs b)).2 ∧
    ∀ x, x ≠ a → x ≠ c → (operator_plus_assign_at objs a b c).2 x = objs x := by
  obtain ⟨h1, h2⟩ := operator_plus_at_eq objs a b c ha hb
  unfold operator_plus_assign_at operator_plus_assign assign_result
  generalize operator_plus_at objs a b c = r at h1 h2
  obtain ⟨o, s⟩ := r
  simp only at h1 h2
  rw [← h1]
  cases o with
  | error e => exact ⟨rfl, h2 a ha, fun x _ hx => h2 x hx⟩
  | ok res =>
    cases res with
    | none => exact ⟨rfl, h2 a ha, fun x _ hx => h2 x hx⟩
    | some sum =>
      refine ⟨rfl, Function.update_same _ _ _, fun x hxa hx => ?_⟩
      simp only
      rw [Function.update_noteq hxa, h2 x hx]

/-- Compound `operator-=` as a call has the outcome of `operator_minus` on the matrices
that its operands hold, leaves in the object `a` what `operator_minus_assign` leaves in its
left operand, and leaves every other object but the temporary as it was. -/
theorem operator_minus_assign_at_eq {T : Type} [Zero T] [Sub T] (objs : Objects T)
    (a b c : Nat) (ha : a ≠ c) (hb : b ≠ c) :
    (operator_minus_assign_at objs a b c).1 = operator_minus (objs a) (objs b) ∧
    (operator_minus_assign_at objs a b c).2 a = (operator_minus_assign (objs a) (objs b)).2 ∧
    ∀ x, x ≠ a → x ≠ c → (operator_minus_assign_at objs a b c).2 x = objs x := by
  obtain ⟨h1, h2⟩ := operator_minus_at_eq objs a b c ha hb
  unfold operator_minus_assign_at operator_minus_assign assign_result
  generalize operator_minus_at objs a b c = r at h1 h2
  obtain ⟨o, s⟩ := r
  simp only at h1 h2
  rw [← h1]
  cases o with
  | error e => exact ⟨rfl, h2 a ha, fun x _ hx => h2 x hx⟩
  | ok res =>
    cases res with
    | none => exact ⟨rfl, h2 a ha, fun x _ hx => h2 x hx⟩
    | some difference =>
      refine ⟨rfl, Function.update_same _ _ _, fun x hxa hx => ?_⟩
      simp only
      rw [Function.update_noteq hxa, h2 x hx]

/-- Counterexample to C20 as stated. First, for two objects that hold the matrix that
`matrix(2 ^ 32, 2 ^ 32)` returns, the dimensions match, yet `a += b` and `a -= b` return no
matrix: their behaviour is undefined, as that of `a + b` and `a - b` is. Second, when `b` is
the object `a` itself, holding the 2 x 2 sample, `a += b` returns the doubled sample and
leaves it in that object, so that `b` has changed. -/
theorem compound_assignment_overflow :
    (matrix.zeros (2 ^ 32) (2 ^ 32) = .ok empty_square ∧
      (operator_plus_assign_at (fun _ => empty_square) 0 1 2).1 = .ok none ∧
      (operator_minus_assign_at (fun _ => empty_square) 0 1 2).1 = .ok none) ∧
    ((operator_plus_assign_at (fun _ => sample_square) 0 0 2).1
        = .ok (some { rows := 2, cols := 2, elements := [2, 4, 6, 8] }) ∧
      (operator_plus_assign_at (fun _ => sample_square) 0 0 2).2 0
        = { rows := 2, cols := 2, elements := [2, 4, 6, 8] } ∧
      ({ rows := 2, cols := 2, elements := [2, 4, 6, 8] } : matrix ℤ) ≠ sample_square) := by
  refine ⟨⟨zeros_empty_square, ?_, ?_⟩, rfl, rfl, ?_⟩
  · rw [(operator_plus_assign_at_eq (fun _ => empty_square) 0 1 2 (by decide) (by decide)).1]
    exact operator_plus_undefined _ _ empty_square_constructed.1 rfl rfl
      empty_square_constructed.2.2
  · rw [(operator_minus_assign_at_eq (fun _ => empty_square) 0 1 2 (by decide) (by decide)).1]
    exact operator_minus_undefined _ _ empty_square_constructed.1 rfl rfl
      empty_square_constructed.2.2
  · intro h
    have := congrArg matrix.elements h
    revert this
    decide

/-- C20, amended: the operators as calls on objects, the operands being the objects at the
addresses `a` and `b` (which may be one object) and `c` the address of the local result or
temporary, an object of its own. For all matrices: `a += b` (`a -= b`) has the outcome of
`operator+` (`operator-`) on the matrices that `a` and `b` hold before the call; when that
is a matrix, the call leaves `a` equal to it and every other object as it was, `b` included
unless `b` is the object `a`. For operands that satisfy the invariant and whose dimensions
match, that outcome is a matrix. When the dimensions differ the call fails with
`incompatible_sizes_add` and leaves every object as it was. The operators `+`, binary `-`,
unary `-`, matrix `*` and scalar `*` return what they return for the matrices that their
operands hold, and, whenever their behaviour is defined, leave every object but their
local result as it was, their operands included. -/
theorem compound_assignment {T : Type} [Zero T] [Add T] [Sub T] [Neg T] [Mul T]
    (objs : Objects T) (a b c : Nat) (s : T) (ha : a ≠ c) (hb : b ≠ c) :
    (operator_plus_assign_at objs a b c).1 = operator_plus (objs a) (objs b) ∧
    (operator_minus_assign_at objs a b c).1 = operator_minus (objs a) (objs b) ∧
    (∀ sum : matrix T, operator_plus (objs a) (objs b) = .ok (some sum) →
      (operator_plus_assign_at objs a b c).2 a = sum ∧
      ∀ x, x ≠ a → x ≠ c → (operator_plus_assign_at objs a b c).2 x = objs x) ∧
    (∀ difference : matrix T, operator_minus (objs a) (objs b) = .ok (some difference) →
      (operator_minus_assign_at objs a b c).2 a = difference ∧
      ∀ x, x ≠ a → x ≠ c → (operator_minus_assign_at objs a b c).2 x = objs x) ∧
    ((objs a).well_formed → (objs b).well_formed →
      (objs a).rows = (objs b).rows → (objs a).cols = (objs b).cols →
      ∃ sum difference : matrix T,
        operator_plus (objs a) (objs b) = .ok (some sum) ∧
        (operator_plus_assign_at objs a b c).1 = .ok (some sum) ∧
        (operator_plus_assign_at objs a b c).2 a = sum ∧
        (b ≠ a → (operator_plus_assign_at objs a b c).2 b = objs b) ∧
        operator_minus (objs a) (objs b) = .ok (some difference) ∧
        (operator_minus_assign_at objs a b c).1 = .ok (some difference) ∧
        (operator_minus_assign_at objs a b c).2 a = difference ∧
        (b ≠ a → (operator_minus_assign_at objs a b c).2 b = objs b)) ∧
    (((objs a).rows ≠ (objs b).rows ∨ (objs a).cols ≠ (objs b).cols) →
      operator_plus_assign_at objs a b c = (.error .incompatible_sizes_add, objs) ∧
      operator_minus_assign_at objs a b c = (.error .incompatible_sizes_add, objs)) ∧
    ((operator_plus_at objs a b c).1 = operator_plus (objs a) (objs b) ∧
      ((operator_plus_at objs a b c).1 ≠ .ok none →
        ∀ x, x ≠ c → (operator_plus_at objs a b c).2 x = objs x)) ∧
    ((operator_minus_at objs a b c).1 = operator_minus (objs a) (objs b) ∧
      ((operator_minus_at objs a b c).1 ≠ .ok none →
        ∀ x, x ≠ c → (operator_minus_at objs a b c).2 x = objs x)) ∧
    ((operator_negate_at objs a c).1 = operator_negate (objs a) ∧
      ((operator_negate_at objs a c).1 ≠ .ok none →
        ∀ x, x ≠ c → (operator_negate_at objs a c).2 x = objs x)) ∧
    ((operator_times_at objs a b c).1 = operator_times (objs a) (objs b) ∧
      ((operator_times_at objs a b c).1 ≠ .ok none →
        ∀ x, x ≠ c → (operator_times_at objs a b c).2 x = objs x)) ∧
    ((operator_times_scalar_at objs s a c).1 = operator_times_scalar s (objs a) ∧
      (operator_times_scalar_right_at objs a s c).1
        = operator_times_scalar_right (objs a) s ∧
      ((operator_times_scalar_at objs s a c).1 ≠ .ok none →
        ∀ x, x ≠ c → (operator_times_scalar_at objs s a c).2 x = objs x ∧
          (operator_times_scalar_right_at objs a s c).2 x = objs x)) := by
  obtain ⟨p1, p2, p3⟩ := operator_plus_assign_at_eq objs a b c ha hb
  obtain ⟨m1, m2, m3⟩ := operator_minus_assign_at_eq objs a b c ha hb
  have hsum : ∀ sum : matrix T, operator_plus (objs a) (objs b) = .ok (some sum) →
      (operator_plus_assign_at objs a b c).2 a = sum := by
    intro sum h
    rw [p2, operator_plus_assign, h]
    rfl
  have hdiff : ∀ difference : matrix T,
      operator_minus (objs a) (objs b) = .ok (some difference) →
      (operator_minus_assign_at objs a b c).2 a = difference := by
    intro difference h
    rw [m2, operator_minus_assign, h]
    rfl
  refine ⟨p1, m1, fun sum h => ⟨hsum sum h, p3⟩, fun difference h => ⟨hdiff difference h, m3⟩,
    ?_, ?_, ?_, ?_, ?_, ?_, ?_⟩
  · intro hwa hwb hrows hcols
    obtain ⟨sum, hs, -⟩ := operator_plus_filled (objs a) (objs b) hwa hwb hrows hcols
    obtain ⟨difference, hd, -⟩ := operator_minus_filled (objs a) (objs b) hwa hwb hrows hcols
    exact ⟨sum, difference, hs, p1.trans hs, hsum sum hs, fun hba => p3 b hba hb,
      hd, m1.trans hd, hdiff difference hd, fun hba => m3 b hba hb⟩
  · intro hne
    have hd : (objs a).get_rows ≠ (objs b).get_rows ∨ (objs a).get_cols ≠ (objs b).get_cols :=
      hne
    constructor
    · rw [operator_plus_assign_at, operator_plus_at, if_pos hd]
    · rw [operator_minus_assign_at, operator_minus_at, if_pos hd]
  · exact ⟨(operator_plus_at_eq objs a b c ha hb).1,
      fun _ => (operator_plus_at_eq objs a b c ha hb).2⟩
  · exact ⟨(operator_minus_at_eq objs a b c ha hb).1,
      fun _ => (operator_minus_at_eq objs a b c ha hb).2⟩
  · exact ⟨(operator_negate_at_eq objs a c ha).1, fun _ => (operator_negate_at_eq objs a c ha).2⟩
  · exact ⟨(operator_times_at_eq objs a b c ha hb).1,
      fun _ => (operator_times_at_eq objs a b c ha hb).2⟩
  · exact ⟨(operator_times_scalar_at_eq objs s a c ha).1,
      (operator_times_scalar_at_eq objs s a c ha).1,
      fun _ x hx => ⟨(operator_times_scalar_at_eq objs s a c ha).2 x hx,
        (operator_times_scalar_at_eq objs s a c ha).2 x hx⟩⟩

/-- Witness of `compound_assignment`: two objects that hold the 2 x 2 sample, an object
that holds the 2 x 2 sample with one that holds the 2 x 3 sample, and the operands of a sum
and of a product after the call. -/
theorem compound_assignment_witness :
    (∃ sum difference : matrix ℤ,
      operator_plus sample_square sample_square = .ok (some sum) ∧
      (operator_plus_assign_at (fun _ => sample_square) 0 1 2).1 = .ok (some sum) ∧
      (operator_plus_assign_at (fun _ => sample_square) 0 1 2).2 0 = sum ∧
      (operator_plus_assign_at (fun _ => sample_square) 0 1 2).2 1 = sample_square ∧
      operator_minus sample_square sample_square = .ok (some difference) ∧
      (operator_minus_assign_at (fun _ => sample_square) 0 1 2).1 = .ok (some difference) ∧
      (operator_minus_assign_at (fun _ => sample_square) 0 1 2).2 0 = difference ∧
      (operator_minus_assign_at (fun _ => sample_square) 0 1 2).2 1 = sample_square) ∧
    operator_plus_assign_at (fun x => if x = 1 then sample_wide else sample_square) 0 1 2
      = (.error .incompatible_sizes_add,
          fun x => if x = 1 then sample_wide else sample_square) ∧
    operator_minus_assign_at (fun x => if x = 1 then sample_wide else sample_square) 0 1 2
      = (.error .incompatible_sizes_add,
          fun x => if x = 1 then sample_wide else sample_square) ∧
    ((operator_plus_at (fun _ => sample_square) 0 1 2).2 0 = sample_square ∧
      (operator_plus_at (fun _ => sample_square) 0 1 2).2 1 = sample_square) ∧
    ((operator_times_at (fun x => if x = 1 then sample_wide else sample_square) 0 1 2).2 0
        = sample_square ∧
      (operator_times_at (fun x => if x = 1 then sample_wide else sample_square) 0 1 2).2 1
        = sample_wide) := by
  obtain ⟨sum, difference, h1, h2, h3, h4, h5, h6, h7, h8⟩ :=
    (compound_assignment (fun _ => sample_square) 0 1 2 (3 : ℤ) (by decide)
      (by decide)).2.2.2.2.1 sample_square_well_formed sample_square_well_formed rfl rfl
  have hmis := (compound_assignment (fun x => if x = 1 then sample_wide else sample_square)
    0 1 2 (3 : ℤ) (by decide) (by decide)).2.2.2.2.2.1 (Or.inr (by decide))
  have hplus := ((compound_assignment (fun _ => sample_square) 0 1 2 (3 : ℤ) (by decide)
    (by decide)).2.2.2.2.2.2.1).2 (fun h => by cases h)
  have htimes := ((compound_assignment (fun x => if x = 1 then sample_wide else sample_square)
    0 1 2 (3 : ℤ) (by decide) (by decide)).2.2.2.2.2.2.2.2.2.1).2 (fun h => by cases h)
  exact ⟨⟨sum, difference, h1, h2, h3, h4 (by decide), h5, h6, h7, h8 (by decide)⟩,
    hmis.1, hmis.2, ⟨hplus 0 (by decide), hplus 1 (by decide)⟩,
    ⟨htimes 0 (by decide), htimes 1 (by decide)⟩⟩

/-! ## Worked examples -/

/-- The example of the specification: the diagonal constructor on `[1, 2, 3]`. -/
theorem from_diagonal_example :
    matrix.from_diagonal ([1, 2, 3] : List ℤ)
      = .ok (some { rows := 3, cols := 3, elements := [1, 0, 0, 0, 2, 0, 0, 0, 3] }) := rfl

/-- The operators on the sample matrices. -/
theorem operators_example :
    operator_plus sample_square sample_square
      = .ok (some { rows := 2, cols := 2, elements := [2, 4, 6, 8] }) ∧
    operator_minus sample_square sample_square
      = .ok (some { rows := 2, cols := 2, elements := [0, 0, 0, 0] }) ∧
    operator_negate sample_square
      = .ok (some { rows := 2, cols := 2, elements := [-1, -2, -3, -4] }) ∧
    operator_times sample_square sample_wide
      = .ok (some { rows := 2, cols := 3, elements := [1, 2, 8, 3, 4, 18] }) ∧
    operator_times_scalar 3 sample_wide
      = .ok (some { rows := 2, cols := 3, elements := [3, 0, 6, 0, 3, 9] }) :=
  ⟨rfl, rfl, rfl, rfl, rfl⟩

/-! ## Row numbers of `read_data` -/

/-- A reader state is a state of the same reader as itself. -/
theorem same_reader_refl (a : csv) : a.same_reader a := ⟨rfl, rfl, rfl, rfl, rfl⟩

/-- A call of `read_data` leaves a state of the same reader. -/
theorem read_data_same_reader (tm : TextMode) (fs : FileSystem) (a self : csv) (row_num : Bool)
    (h : a.same_reader self) : a.same_reader (self.read_data tm fs row_num).2 := by
  obtain ⟨h1, h2, h3, h4, h5⟩ := h
  obtain ⟨g1, g2, g3, g4, g5⟩ := read_data_metadata tm fs self row_num
  exact ⟨h1.trans g1.symm, h2.trans g2.symm, h3.trans g3.symm, h4.trans g4.symm,
    h5.trans g5.symm⟩

/-- Size of a vector after `insert`. -/
theorem vector_insert_length {α : Type} (vec values : List α) (pos : Nat) :
    (vector_insert vec pos values).length = vec.length + values.length := by
  simp only [vector_insert, List.length_append, List.length_take, List.length_drop]
  omega

/-- A row loop of `read_data` that ends without an exception has accepted every line. -/
theorem read_data_loop_rows (row_num : Bool) (lines : List (List Char)) (i : Nat) (N : Nat)
    (self : csv) (hN : self.NCols = N) (h : (read_data_loop row_num lines i self).1 = none) :
    ∃ rows : List (List ℚ), List.Forall₂
      (fun line row => read_rows_loop N (getline_all ',' line) 0 [] = .ok row) lines rows := by
  induction lines generalizing i self with
  | nil => exact ⟨[], List.Forall₂.nil⟩
  | cons line rest ih =>
    unfold read_data_loop at h
    cases hrow : self.read_rows line with
    | error e => rw [hrow] at h; simp at h
    | ok v =>
      rw [hrow] at h
      have hv : read_rows_loop N (getline_all ',' line) 0 [] = .ok v := by
        rw [← hN]; exact hrow
      cases row_num with
      | true =>
        simp only [if_true] at h
        obtain ⟨rows, hrows⟩ := ih (i + 1) _ (by exact hN) h
        exact ⟨v :: rows, List.Forall₂.cons hv hrows⟩
      | false =>
        simp only [Bool.false_eq_true, if_false] at h
        obtain ⟨rows, hrows⟩ := ih (i + 1) _ (by exact hN) h
        exact ⟨v :: rows, List.Forall₂.cons hv hrows⟩

/-- Size of `Matrix_elements` after the row loop of `read_data` over lines that are all
accepted: every line adds its values, and its ordinal when row numbers are asked for. This
holds whatever the size of `Row_numbers` is. -/
theorem read_data_loop_size (row_num : Bool) (lines : List (List Char)) (rows : List (List ℚ))
    (i : Nat) (N : Nat) (self : csv) (hN : self.NCols = N)
    (hrows : List.Forall₂ (fun line row => read_rows_loop N (getline_all ',' line) 0 []
      = .ok row) lines rows) :
    (read_data_loop row_num lines i self).1 = none ∧
    (read_data_loop row_num lines i self).2.Matrix_elements.length
      = self.Matrix_elements.length + lines.length * (if row_num = true then N + 1 else N) := by
  induction hrows generalizing i self with
  | nil => simp [read_data_loop]
  | @cons line row lines rows hrow _ ih =>
    have hread : self.read_rows line = .ok row := by rw [csv.read_rows, hN]; exact hrow
    have hlen := read_rows_length self line row hread
    unfold read_data_loop
    rw [hread]
    cases row_num with
    | true =>
      simp only [if_true]
      obtain ⟨h1, h2⟩ := ih (i + 1)
        { self with
          Row_numbers := self.Row_numbers.set i ((i : ℚ) + 1),
          Matrix_elements := vector_insert
            (vector_insert self.Matrix_elements (i * (self.NCols + 1))
              [(self.Row_numbers.set i ((i : ℚ) + 1)).getD i 0])
            (i * (self.NCols + 1) + 1) row } hN
      refine ⟨h1, ?_⟩
      rw [h2]
      simp only [vector_insert_length, List.length_singleton, List.length_cons,
        List.length_nil, hlen, hN, if_true]
      ring
    | false =>
      simp only [Bool.false_eq_true, if_false]
      obtain ⟨h1, h2⟩ := ih (i + 1)
        { self with Matrix_elements := vector_insert self.Matrix_elements (i * self.NCols) row } hN
      refine ⟨h1, ?_⟩
      rw [h2]
      simp only [vector_insert_length, List.length_cons, hlen, hN, Bool.false_eq_true, if_false]
      ring

/-- What the constructor from a vector has checked when it returns a matrix. -/
theorem from_vector_ok {T : Type} (rows cols : Nat) (flat : List T) (m : matrix T)
    (h : matrix.from_vector rows cols flat = .ok m) :
    rows ≠ 0 ∧ cols ≠ 0 ∧ flat.length = rows * cols % UINT64_MOD ∧
      m = { rows := rows, cols := cols, elements := flat } := by
  unfold matrix.from_vector at h
  split_ifs at h with h0 hsize
  · push_neg at h0 hsize
    cases h
    exact ⟨h0.1, h0.2, hsize, rfl⟩

/-- A stream delivers at most as many strings as it has characters. -/
theorem getline_all_length_le (delim : Char) (s : List Char) :
    (getline_all delim s).length ≤ s.length := by
  induction s with
  | nil => simp [getline_all]
  | cons c cs ih =>
    unfold getline_all
    split_ifs with hc
    · simp only [List.length_cons]; omega
    · cases hrest : getline_all delim cs with
      | nil => simp
      | cons t ts =>
        rw [hrest] at ih
        simp only [List.length_cons] at ih ⊢
        omega

/-- Newline translation delivers at most as many characters as the file has bytes. -/
theorem crlf_to_lf_length_le (s : List Char) : (crlf_to_lf s).length ≤ s.length := by
  induction s with
  | nil => simp [crlf_to_lf]
  | cons c cs ih =>
    unfold crlf_to_lf
    split_ifs with hc
    · simp only [List.length_cons]; omega
    · simp only [List.length_cons]; omega

/-- The data lines that `read_data` finds behind offset `NChar` are at most as many as the
file has bytes. -/
theorem data_lines_length_le (tm : TextMode) (raw : List Char) (NChar : Nat) :
    (getline_all '\n' (tm.deliver (raw.drop NChar))).length ≤ raw.length := by
  have h1 := getline_all_length_le '\n' (tm.deliver (raw.drop NChar))
  have h2 : (tm.deliver (raw.drop NChar)).length ≤ (raw.drop NChar).length := by
    cases tm
    · exact le_refl _
    · exact crlf_to_lf_length_le _
  have h3 : (raw.drop NChar).length ≤ raw.length := by
    rw [List.length_drop]; omega
  omega

/-- What a call of `read_data` that returns a matrix has found: the file opens, every data
line is accepted by `read_rows`, the sizes are not zero, and the number of values read equals
the number of cells in `uint64_t` arithmetic. -/
theorem read_data_ok_inv (tm : TextMode) (fs : FileSystem) (self : csv) (row_num : Bool)
    (D : matrix ℚ) (h : (self.read_data tm fs row_num).1 = .ok D) :
    ∃ (raw : List Char) (rows : List (List ℚ)),
      fs self.datafile = some raw ∧
      List.Forall₂ (fun line row => read_rows_loop self.NCols (getline_all ',' line) 0 []
        = .ok row) (getline_all '\n' (tm.deliver (raw.drop self.NChar))) rows ∧
      self.NRows ≠ 0 ∧ (row_num = false → self.NCols ≠ 0) ∧
      (getline_all '\n' (tm.deliver (raw.drop self.NChar))).length
          * (if row_num = true then self.NCols + 1 else self.NCols)
        = self.NRows * (if row_num = true then self.NCols + 1 else self.NCols) % UINT64_MOD := by
  cases hfile : fs self.datafile with
  | none =>
    unfold csv.read_data at h
    simp [hfile] at h
  | some raw =>
    rw [read_data_of_lines tm fs self row_num raw _ hfile rfl] at h
    have hnone : (read_data_loop row_num (getline_all '\n' (tm.deliver (raw.drop self.NChar))) 0
        { self with Matrix_elements := [], Row_numbers := List.replicate self.NRows 0 }).1
        = none := by
      generalize read_data_loop row_num (getline_all '\n' (tm.deliver (raw.drop self.NChar))) 0
        { self with Matrix_elements := [], Row_numbers := List.replicate self.NRows 0 } = res
        at h ⊢
      obtain ⟨e, after⟩ := res
      cases e with
      | some e => simp at h
      | none => rfl
    obtain ⟨rows, hrows⟩ := read_data_loop_rows row_num _ 0 self.NCols
      { self with Matrix_elements := [], Row_numbers := List.replicate self.NRows 0 } rfl hnone
    obtain ⟨-, hsize⟩ := read_data_loop_size row_num _ rows 0 self.NCols
      { self with Matrix_elements := [], Row_numbers := List.replicate self.NRows 0 } rfl hrows
    obtain ⟨-, hc, -, hr, -⟩ := read_data_loop_metadata row_num
      (getline_all '\n' (tm.deliver (raw.drop self.NChar))) 0
      { self with Matrix_elements := [], Row_numbers := List.replicate self.NRows 0 }
    generalize read_data_loop row_num (getline_all '\n' (tm.deliver (raw.drop self.NChar))) 0
      { self with Matrix_elements := [], Row_numbers := List.replicate self.NRows 0 } = res
      at h hnone hsize hc hr
    obtain ⟨e, after⟩ := res
    simp only at hnone hsize hc hr
    subst hnone
    simp only [List.length_nil, Nat.zero_add] at hsize
    refine ⟨raw, rows, rfl, hrows, ?_⟩
    cases row_num with
    | true =>
      simp only [if_true] at h hsize ⊢
      obtain ⟨h1, -, h3, -⟩ := from_vector_ok _ _ _ _ h
      rw [hr] at h1
      rw [hr, hc, hsize] at h3
      exact ⟨h1, by simp, h3⟩
    | false =>
      simp only [Bool.false_eq_true, if_false] at h hsize ⊢
      obtain ⟨h1, h2, h3, -⟩ := from_vector_ok _ _ _ _ h
      rw [hr] at h1
      rw [hc] at h2
      rw [hr, hc, hsize] at h3
      exact ⟨h1, fun _ => h2, h3⟩

/-- In numbered rows of `N` values each, the element that starts row `i` is its ordinal. -/
theorem numbered_rows_ordinal (N : Nat) (rows : List (List ℚ)) (s i : Nat)
    (h : ∀ row ∈ rows, row.length = N) (hi : i < rows.length) :
    (numbered_rows s rows)[(N + 1) * i]? = some (((s + i : Nat) : ℚ) + 1) := by
  induction rows generalizing s i with
  | nil => simp at hi
  | cons row rest ih =>
    rw [numbered_rows]
    cases i with
    | zero => simp
    | succ k =>
      have hlen : (((s : ℚ) + 1) :: row).length = N + 1 := by
        rw [List.length_cons, h row (by simp)]
      have hidx : (N + 1) * (k + 1) = (N + 1) * k + (N + 1) := by ring
      rw [hidx, List.getElem?_append_right (by rw [hlen]; omega), hlen, Nat.add_sub_cancel,
        ih (s + 1) k (fun r hr => h r (by simp [hr]))
          (by simp only [List.length_cons] at hi; omega)]
      congr 3
      omega

/-- In numbered rows of `N` values each, the element behind the ordinal of row `i` at
column `j` is the element of the plain rows at row `i` and column `j`, which exists. -/
theorem numbered_rows_value (N : Nat) (rows : List (List ℚ)) (s i j : Nat)
    (h : ∀ row ∈ rows, row.length = N) (hi : i < rows.length) (hj : j < N) :
    ∃ x : ℚ, rows.flatten[N * i + j]? = some x ∧
      (numbered_rows s rows)[(N + 1) * i + (j + 1)]? = some x := by
  induction rows generalizing s i with
  | nil => simp at hi
  | cons row rest ih =>
    have hrow : row.length = N := h row (by simp)
    rw [numbered_rows, List.flatten_cons]
    cases i with
    | zero =>
      have hj' : j < row.length := by omega
      refine ⟨row[j], ?_, ?_⟩
      · rw [Nat.mul_zero, Nat.zero_add, List.getElem?_append_left hj',
          List.getElem?_eq_getElem hj']
      · rw [Nat.mul_zero, Nat.zero_add, List.cons_append, List.getElem?_cons_succ,
          List.getElem?_append_left hj', List.getElem?_eq_getElem hj']
    | succ k =>
      have hlen : (((s : ℚ) + 1) :: row).length = N + 1 := by
        rw [List.length_cons, hrow]
      obtain ⟨x, hx1, hx2⟩ := ih (s + 1) k (fun r hr => h r (by simp [hr]))
        (by simp only [List.length_cons] at hi; omega)
      refine ⟨x, ?_, ?_⟩
      · have hidx : N * (k + 1) + j = N * k + j + row.length := by rw [hrow]; ring
        rw [hidx, List.getElem?_append_right (by omega), Nat.add_sub_cancel]
        exact hx1
      · have hidx : (N + 1) * (k + 1) + (j + 1) = (N + 1) * k + (j + 1) + (N + 1) := by ring
        rw [hidx, List.getElem?_append_right (by rw [hlen]; omega), hlen, Nat.add_sub_cancel]
        exact hx2

/-- The range-checked accessor returns what the unchecked one finds. -/
theorem at_of_call {T : Type} (m : matrix T) (i j : Nat) (x : T) (h : m.call i j = some x) :
    m.at_ i j = .ok x := by
  unfold matrix.call at h
  unfold matrix.at_
  rw [h]

/-- Two counts below `2 ^ 64` are equal when their products with `C` and with `C + 1`
agree in `uint64_t` arithmetic. -/
theorem count_eq_of_products (L R C : Nat) (hL : L < UINT64_MOD) (hR : R < UINT64_MOD)
    (h1 : L * C = R * C % UINT64_MOD) (h2 : L * (C + 1) = R * (C + 1) % UINT64_MOD) :
    L = R := by
  rw [Nat.mul_succ, Nat.mul_succ] at h2
  generalize L * C = y at h1 h2
  generalize R * C = x at h1 h2
  unfold UINT64_MOD at *
  omega

/-- The matrices that two successful calls of `read_data` on one reader return, one without
and one with row numbers: both come from the same accepted rows. The two size checks of the
matrix constructor force the data lines to be as many as `NRows`, so that every index of the
row loop is inside `Row_numbers`, and the number of cells to fit in 64 bits. -/
theorem read_data_both (tm : TextMode) (fs : FileSystem) (a b : csv) (D D' : matrix ℚ)
    (hsame : a.same_reader b)
    (hfs : ∀ (name : String) (raw : List Char), fs name = some raw → raw.length < UINT64_MOD)
    (hR : a.NRows < UINT64_MOD)
    (hD : (a.read_data tm fs false).1 = .ok D) (hD' : (b.read_data tm fs true).1 = .ok D') :
    ∃ rows : List (List ℚ), rows.length = a.NRows ∧ (∀ row ∈ rows, row.length = a.NCols) ∧
      a.NCols ≠ 0 ∧ a.NRows * (a.NCols + 1) < UINT64_MOD ∧
      D = { rows := a.NRows, cols := a.NCols, elements := rows.flatten } ∧
      D' = { rows := a.NRows, cols := a.NCols + 1, elements := numbered_rows 0 rows } := by
  obtain ⟨s1, s2, s3, s4, s5⟩ := hsame
  rw [← read_data_congr tm fs a b true s1 s2 s3 s4 s5] at hD'
  obtain ⟨raw, rows, hfile, hrows, hR0, hC0, hsz⟩ := read_data_ok_inv tm fs a false D hD
  obtain ⟨raw', rows', hfile', -, -, -, hsz'⟩ := read_data_ok_inv tm fs a true D' hD'
  rw [hfile] at hfile'
  cases hfile'
  simp only [Bool.false_eq_true, if_false] at hsz
  simp only [if_true] at hsz'
  have hL : (getline_all '\n' (tm.deliver (raw.drop a.NChar))).length < UINT64_MOD :=
    lt_of_le_of_lt (data_lines_length_le tm raw a.NChar) (hfs _ raw hfile)
  have hcount := count_eq_of_products _ _ _ hL hR hsz hsz'
  have hfit : a.NRows * (a.NCols + 1) < UINT64_MOD := by
    rw [hcount] at hsz'
    rw [hsz']
    exact Nat.mod_lt _ (by norm_num [UINT64_MOD])
  obtain ⟨hlen, hshape⟩ := rows_shape a.NCols _ rows hrows
  have e1 := read_data_ok tm fs a false raw _ rows hfile rfl hrows hcount hR0 (hC0 rfl) hfit
  have e2 := read_data_ok tm fs a true raw _ rows hfile rfl hrows hcount hR0 (hC0 rfl) hfit
  rw [hD] at e1
  rw [hD'] at e2
  simp only [Bool.false_eq_true, if_false, Except.ok.injEq] at e1
  simp only [if_true, Except.ok.injEq] at e2
  exact ⟨rows, hlen.trans hcount, hshape, hC0 rfl, hfit, e1, e2⟩

/-- The two data lines of the sample file are accepted by a three-column reader. -/
theorem sample_rows_accepted :
    List.Forall₂ (fun line row => read_rows_loop 3 (getline_all ',' line) 0 [] = .ok row)
      ["1,2,3".toList, "4,5,6".toList] [[1, 2, 3], [4, 5, 6]] :=
  List.Forall₂.cons read_rows_loop_123
    (List.Forall₂.cons read_rows_loop_456 List.Forall₂.nil)

/-- Every state of the sample reader reads the sample file into the matrix of its two rows,
with their ordinals in front when row numbers are asked for. -/
theorem sample_reader_reads (self : csv) (h : sample_reader.same_reader self) (row_num : Bool) :
    (self.read_data .windows (single_file "a,b,c\r\n1,2,3\r\n4,5,6\r\n") row_num).1
      = .ok (if row_num = true then { rows := 2, cols := 4, elements := [1, 1, 2, 3, 2, 4, 5, 6] }
        else { rows := 2, cols := 3, elements := [1, 2, 3, 4, 5, 6] }) := by
  have hrows := sample_rows_accepted
  obtain ⟨s1, s2, s3, s4, s5⟩ := h
  rw [← read_data_congr .windows _ sample_reader self row_num s1 s2 s3 s4 s5,
    read_data_ok .windows _ sample_reader row_num "a,b,c\r\n1,2,3\r\n4,5,6\r\n".toList
      ["1,2,3".toList, "4,5,6".toList] [[1, 2, 3], [4, 5, 6]] rfl (by decide) hrows rfl
      (by decide) (by decide) (by norm_num [UINT64_MOD, sample_reader])]
  cases row_num
  · simp [sample_reader]
  · simp [numbered_rows, sample_reader]
    norm_num

/-- The sample file has fewer than `2 ^ 64` bytes. -/
theorem sample_file_size (name : String) (raw : List Char)
    (h : single_file "a,b,c\r\n1,2,3\r\n4,5,6\r\n" name = some raw) :
    raw.length < UINT64_MOD := by
  cases h
  decide

/-- The unchecked accessor on an in-range cell of a matrix whose number of cells fits in 64
bits reads the flat vector at `cols * i + j`. -/
theorem call_of_fit {T : Type} (rows cols : Nat) (flat : List T) (i j : Nat) (hi : i < rows)
    (hj : j < cols) (hfit : rows * cols < UINT64_MOD) :
    ({ rows := rows, cols := cols, elements := flat } : matrix T).call i j
      = flat[cols * i + j]? := by
  unfold matrix.call
  rw [(flat_index_of_lt _ rows i j hi hj hfit).1]

/-- C21: for every reader on which `read_data(false)` and `read_data(true)` both return a
matrix, `D` and `D'`, whatever the buffers of the reader hold at either call: `D` has `NRows`
rows and `NCols` columns, `D'` has the same rows and one column more, and for every row `i`
the element `D'(i, 0)` is `i + 1` and `D'(i, j + 1)` is `D(i, j)` for every column `j` of `D`,
through `operator()` and through `at`. The reader's `NRows` and the size of every file are
values of 64 bits. -/
theorem row_numbers_prepended (tm : TextMode) (fs : FileSystem) (a b : csv) (D D' : matrix ℚ)
    (hsame : a.same_reader b)
    (hfs : ∀ (name : String) (raw : List Char), fs name = some raw → raw.length < UINT64_MOD)
    (hR : a.NRows < UINT64_MOD)
    (hD : (a.read_data tm fs false).1 = .ok D) (hD' : (b.read_data tm fs true).1 = .ok D') :
    D.get_rows = a.NRows ∧ D.get_cols = a.NCols ∧
    D'.get_rows = D.get_rows ∧ D'.get_cols = D.get_cols + 1 ∧
    ∀ i : Nat, i < D.get_rows →
      D'.call i 0 = some ((i : ℚ) + 1) ∧ D'.at_ i 0 = .ok ((i : ℚ) + 1) ∧
      ∀ j : Nat, j < D.get_cols → ∃ x : ℚ,
        D.call i j = some x ∧ D.at_ i j = .ok x ∧
        D'.call i (j + 1) = some x ∧ D'.at_ i (j + 1) = .ok x := by
  obtain ⟨rows, hlen, hshape, hC, hfit, rfl, rfl⟩ :=
    read_data_both tm fs a b D D' hsame hfs hR hD hD'
  refine ⟨rfl, rfl, rfl, rfl, ?_⟩
  intro i hi
  simp only [matrix.get_rows] at hi
  have hfit' : a.NRows * a.NCols < UINT64_MOD :=
    lt_of_le_of_lt (Nat.mul_le_mul_left _ (Nat.le_succ _)) hfit
  have h0 : ({ rows := a.NRows, cols := a.NCols + 1, elements := numbered_rows 0 rows } :
      matrix ℚ).call i 0 = some ((i : ℚ) + 1) := by
    rw [call_of_fit _ _ _ i 0 hi (Nat.succ_pos _) hfit, Nat.add_zero,
      numbered_rows_ordinal a.NCols rows 0 i hshape (by omega), Nat.zero_add]
  refine ⟨h0, at_of_call _ _ _ _ h0, ?_⟩
  intro j hj
  simp only [matrix.get_cols] at hj
  obtain ⟨x, hx1, hx2⟩ := numbered_rows_value a.NCols rows 0 i j hshape (by omega) hj
  have h1 : ({ rows := a.NRows, cols := a.NCols, elements := rows.flatten } :
      matrix ℚ).call i j = some x := by
    rw [call_of_fit _ _ _ i j hi hj hfit']
    exact hx1
  have h2 : ({ rows := a.NRows, cols := a.NCols + 1, elements := numbered_rows 0 rows } :
      matrix ℚ).call i (j + 1) = some x := by
    rw [call_of_fit _ _ _ i (j + 1) hi (Nat.succ_lt_succ hj) hfit]
    exact hx2
  exact ⟨x, h1, at_of_call _ _ _ _ h1, h2, at_of_call _ _ _ _ h2⟩

/-- Witness of `row_numbers_prepended`: the sample file, read without row numbers by the
reader as constructed and with row numbers by the reader as the first call left it. -/
theorem row_numbers_prepended_witness :
    sample_reader.same_reader
      (sample_reader.read_data .windows (single_file "a,b,c\r\n1,2,3\r\n4,5,6\r\n") false).2 ∧
    (sample_reader.read_data .windows (single_file "a,b,c\r\n1,2,3\r\n4,5,6\r\n") false).1
      = .ok { rows := 2, cols := 3, elements := [1, 2, 3, 4, 5, 6] } ∧
    ((sample_reader.read_data .windows (single_file "a,b,c\r\n1,2,3\r\n4,5,6\r\n") false).2.read_data
        .windows (single_file "a,b,c\r\n1,2,3\r\n4,5,6\r\n") true).1
      = .ok { rows := 2, cols := 4, elements := [1, 1, 2, 3, 2, 4, 5, 6] } ∧
    ∀ i : Nat, i < 2 →
      matrix.call ({ rows := 2, cols := 4, elements := [1, 1, 2, 3, 2, 4, 5, 6] } : matrix ℚ) i 0
        = some ((i : ℚ) + 1) ∧
      ∀ j : Nat, j < 3 → ∃ x : ℚ,
        matrix.call ({ rows := 2, cols := 3, elements := [1, 2, 3, 4, 5, 6] } : matrix ℚ) i j
          = some x ∧
        matrix.call ({ rows := 2, cols := 4, elements := [1, 1, 2, 3, 2, 4, 5, 6] } : matrix ℚ)
          i (j + 1) = some x := by
  have hsame := read_data_same_reader .windows (single_file "a,b,c\r\n1,2,3\r\n4,5,6\r\n")
    sample_reader sample_reader false (same_reader_refl _)
  have hD := sample_reader_reads sample_reader (same_reader_refl _) false
  have hD' := sample_reader_reads _ hsame true
  simp only [Bool.false_eq_true, if_false] at hD
  simp only [if_true] at hD'
  have key := row_numbers_prepended .windows (single_file "a,b,c\r\n1,2,3\r\n4,5,6\r\n")
    sample_reader _ _ _ hsame sample_file_size (by norm_num [sample_reader, UINT64_MOD]) hD hD'
  refine ⟨hsame, hD, hD', fun i hi => ?_⟩
  obtain ⟨k0, -, k1⟩ := key.2.2.2.2 i hi
  refine ⟨k0, fun j hj => ?_⟩
  obtain ⟨x, x1, -, x2, -⟩ := k1 j hj
  exact ⟨x, x1, x2⟩

/-- The row loop of `read_data(false)` never writes to `Row_numbers`. -/
theorem read_data_loop_false_row_numbers (lines : List (List Char)) (i : Nat) (self : csv) :
    (read_data_loop false lines i self).2.Row_numbers = self.Row_numbers := by
  induction lines generalizing i self with
  | nil => simp [read_data_loop]
  | cons line rest ih =>
    unfold read_data_loop
    cases hrow : self.read_rows line with
    | error e => simp
    | ok v =>
      simp only [Bool.false_eq_true, if_false]
      rw [ih]

/-- Every call of `read_data(false)` that opens the file leaves `NRows` zeros in
`Row_numbers`: the vector is created anew before the row loop, which does not write to it. -/
theorem read_data_false_row_numbers (tm : TextMode) (fs : FileSystem) (self : csv)
    (raw : List Char) (hfile : fs self.datafile = some raw) :
    (self.read_data tm fs false).2.Row_numbers = List.replicate self.NRows 0 := by
  rw [read_data_of_lines tm fs self false raw _ hfile rfl]
  have h := read_data_loop_false_row_numbers
    (getline_all '\n' (tm.deliver (raw.drop self.NChar))) 0
    { self with Matrix_elements := [], Row_numbers := List.replicate self.NRows 0 }
  generalize read_data_loop false (getline_all '\n' (tm.deliver (raw.drop self.NChar))) 0
    { self with Matrix_elements := [], Row_numbers := List.replicate self.NRows 0 } = res
    at h ⊢
  obtain ⟨e, after⟩ := res
  cases e with
  | some e => exact h
  | none => exact h

/-- The row loop of `read_data(true)` over lines that are all accepted writes the ordinal
`k + 1` at every index `k` that it passes, and leaves the other elements of `Row_numbers`
as they were. -/
theorem read_data_loop_true_numbers (lines : List (List Char)) (rows : List (List ℚ)) (i : Nat)
    (N : Nat) (self : csv) (hN : self.NCols = N)
    (hrows : List.Forall₂ (fun line row => read_rows_loop N (getline_all ',' line) 0 []
      = .ok row) lines rows)
    (hbound : i + lines.length ≤ self.Row_numbers.length) (k : Nat) :
    (read_data_loop true lines i self).2.Row_numbers[k]?
      = if i ≤ k ∧ k < i + lines.length then some ((k : ℚ) + 1) else self.Row_numbers[k]? := by
  induction hrows generalizing i self with
  | nil =>
    have hk : ¬(i ≤ k ∧ k < i + ([] : List (List Char)).length) := by
      simp only [List.length_nil]; omega
    rw [if_neg hk]
    simp [read_data_loop]
  | @cons line row lines rows hrow _ ih =>
    have hread : self.read_rows line = .ok row := by rw [csv.read_rows, hN]; exact hrow
    simp only [List.length_cons] at hbound
    unfold read_data_loop
    rw [hread]
    simp only [if_true]
    rw [ih (i + 1) _ (by exact hN) (by simp only [List.length_set]; omega)]
    simp only [List.length_cons, List.getElem?_set]
    by_cases hk : i = k
    · subst hk
      have hi : i < self.Row_numbers.length := by omega
      simp [hi]
    · have h1 : (i + 1 ≤ k ∧ k < i + 1 + lines.length)
          ↔ (i ≤ k ∧ k < i + (lines.length + 1)) := by omega
      simp only [hk, if_false, h1]

/-- After a call of `read_data(true)` on which every data line is accepted and the lines are
as many as `NRows`, `Row_numbers` holds the ordinals `1, 2, ..., NRows`. -/
theorem read_data_true_row_numbers (tm : TextMode) (fs : FileSystem) (self : csv)
    (raw : List Char) (rows : List (List ℚ)) (hfile : fs self.datafile = some raw)
    (hrows : List.Forall₂ (fun line row => read_rows_loop self.NCols (getline_all ',' line) 0 []
      = .ok row) (getline_all '\n' (tm.deliver (raw.drop self.NChar))) rows)
    (hcount : (getline_all '\n' (tm.deliver (raw.drop self.NChar))).length = self.NRows) :
    (self.read_data tm fs true).2.Row_numbers
      = (List.range self.NRows).map (fun k : Nat => (k : ℚ) + 1) := by
  rw [read_data_of_lines tm fs self true raw _ hfile rfl]
  have hnum := read_data_loop_true_numbers _ rows 0 self.NCols
    { self with Matrix_elements := [], Row_numbers := List.replicate self.NRows 0 } rfl hrows
    (by simp [hcount])
  have hnone := (read_data_loop_size true _ rows 0 self.NCols
    { self with Matrix_elements := [], Row_numbers := List.replicate self.NRows 0 } rfl hrows).1
  generalize read_data_loop true (getline_all '\n' (tm.deliver (raw.drop self.NChar))) 0
    { self with Matrix_elements := [], Row_numbers := List.replicate self.NRows 0 } = res
    at hnum hnone ⊢
  obtain ⟨e, after⟩ := res
  simp only at hnum hnone
  subst hnone
  simp only [if_true]
  apply List.ext_getElem?
  intro k
  rw [hnum k, hcount]
  by_cases hk : k < self.NRows
  · rw [if_pos ⟨Nat.zero_le _, by omega⟩, List.getElem?_map, List.getElem?_range hk]
    rfl
  · rw [if_neg (by omega), List.getElem?_map, List.getElem?_eq_none (by simp; omega),
      List.getElem?_eq_none (by simp; omega)]
    rfl

/-- The constructor returns the sample reader for the sample file. -/
theorem sample_reader_new :
    csv.new .windows (single_file "a,b,c\r\n1,2,3\r\n4,5,6\r\n") "all_number.csv"
      = .ok sample_reader := rfl

/-- C22, amended: `get_row_numbers` returns the sequence that the most recent call of
`read_data` left, with or without row numbers. For a reader `c` that the constructor
returned for a source, in any state `self` that later calls left it in, reading that source:
after `read_data(true)` returns a matrix, `get_row_numbers` returns `[1, 2, ..., NRows]`;
after `read_data(false)` returns a matrix, `get_row_numbers` returns `NRows` zeros, whatever
it returned before; and the state after either call is again a state of the reader `c`, so
that both facts hold for every later call. -/
theorem get_row_numbers_after_read (tm : TextMode) (fs : FileSystem) (name : String)
    (c self : csv) (hnew : csv.new tm fs name = .ok c) (hself : c.same_reader self) :
    (∀ D' : matrix ℚ, (self.read_data tm fs true).1 = .ok D' →
      (self.read_data tm fs true).2.get_row_numbers
        = (List.range c.NRows).map (fun k : Nat => (k : ℚ) + 1)) ∧
    (∀ D : matrix ℚ, (self.read_data tm fs false).1 = .ok D →
      (self.read_data tm fs false).2.get_row_numbers = List.replicate c.NRows 0) ∧
    ∀ row_num : Bool, c.same_reader (self.read_data tm fs row_num).2 := by
  obtain ⟨hname, raw, hfile, hcount⟩ := csv_new_line_count tm fs name c hnew
  obtain ⟨s1, s2, s3, s4, s5⟩ := hself
  have hfile' : fs self.datafile = some raw := by rw [← s1, hname]; exact hfile
  refine ⟨fun D' hD' => ?_, fun D _ => ?_, fun row_num =>
    read_data_same_reader tm fs c self row_num ⟨s1, s2, s3, s4, s5⟩⟩
  · obtain ⟨raw', rows, hf, hrows, -⟩ := read_data_ok_inv tm fs self true D' hD'
    rw [hfile'] at hf
    cases hf
    unfold csv.get_row_numbers
    rw [read_data_true_row_numbers tm fs self raw rows hfile' hrows (by rw [← s5, hcount, s4]),
      s4]
  · unfold csv.get_row_numbers
    rw [read_data_false_row_numbers tm fs self raw hfile', s4]

/-- Witness of `get_row_numbers_after_read`: the sample reader read with row numbers, and
then without. -/
theorem get_row_numbers_after_read_witness :
    (sample_reader.read_data .windows (single_file "a,b,c\r\n1,2,3\r\n4,5,6\r\n")
        true).2.get_row_numbers = (List.range 2).map (fun k : Nat => (k : ℚ) + 1) ∧
    ((sample_reader.read_data .windows (single_file "a,b,c\r\n1,2,3\r\n4,5,6\r\n")
        true).2.read_data .windows (single_file "a,b,c\r\n1,2,3\r\n4,5,6\r\n")
        false).2.get_row_numbers = List.replicate 2 0 :=
  ⟨(get_row_numbers_after_read .windows (single_file "a,b,c\r\n1,2,3\r\n4,5,6\r\n")
      "all_number.csv" sample_reader sample_reader sample_reader_new (same_reader_refl _)).1 _
      (sample_reader_reads sample_reader (same_reader_refl _) true),
   (get_row_numbers_after_read .windows (single_file "a,b,c\r\n1,2,3\r\n4,5,6\r\n")
      "all_number.csv" sample_reader _ sample_reader_new
      (read_data_same_reader .windows _ sample_reader sample_reader true
        (same_reader_refl _))).2.1 _
      (sample_reader_reads _ (read_data_same_reader .windows _ sample_reader sample_reader true
        (same_reader_refl _)) false)⟩

/-- Counterexample to C22 as stated: the constructor returns the sample reader, which has 2
rows; `read_data(true)` returns a matrix and leaves `[1, 2]` for `get_row_numbers`; the later
`read_data(false)` on the same reader returns a matrix as well, after which
`get_row_numbers` returns `[0, 0]` and not `[1, 2]`. -/
theorem row_numbers_lost_without_flag :
    csv.new .windows (single_file "a,b,c\r\n1,2,3\r\n4,5,6\r\n") "all_number.csv"
      = .ok sample_reader ∧
    sample_reader.NRows = 2 ∧
    (sample_reader.read_data .windows (single_file "a,b,c\r\n1,2,3\r\n4,5,6\r\n") true).1
      = .ok { rows := 2, cols := 4, elements := [1, 1, 2, 3, 2, 4, 5, 6] } ∧
    (sample_reader.read_data .windows (single_file "a,b,c\r\n1,2,3\r\n4,5,6\r\n")
        true).2.get_row_numbers = [1, 2] ∧
    ((sample_reader.read_data .windows (single_file "a,b,c\r\n1,2,3\r\n4,5,6\r\n")
        true).2.read_data .windows (single_file "a,b,c\r\n1,2,3\r\n4,5,6\r\n") false).1
      = .ok { rows := 2, cols := 3, elements := [1, 2, 3, 4, 5, 6] } ∧
    ((sample_reader.read_data .windows (single_file "a,b,c\r\n1,2,3\r\n4,5,6\r\n")
        true).2.read_data .windows (single_file "a,b,c\r\n1,2,3\r\n4,5,6\r\n")
        false).2.get_row_numbers = [0, 0] ∧
    ([0, 0] : List ℚ) ≠ [1, 2] := by
  have hrows := sample_rows_accepted
  have hsame := read_data_same_reader .windows (single_file "a,b,c\r\n1,2,3\r\n4,5,6\r\n")
    sample_reader sample_reader true (same_reader_refl _)
  have h1 := sample_reader_reads sample_reader (same_reader_refl _) true
  have h2 := sample_reader_reads _ hsame false
  simp only [if_true] at h1
  simp only [Bool.false_eq_true, if_false] at h2
  refine ⟨rfl, rfl, h1, ?_, h2, ?_, by norm_num⟩
  · unfold csv.get_row_numbers
    rw [read_data_true_row_numbers .windows _ sample_reader
      "a,b,c\r\n1,2,3\r\n4,5,6\r\n".toList [[1, 2, 3], [4, 5, 6]] rfl
      (by rw [show getline_all '\n' (TextMode.windows.deliver
          ("a,b,c\r\n1,2,3\r\n4,5,6\r\n".toList.drop sample_reader.NChar))
          = ["1,2,3".toList, "4,5,6".toList] by decide]; exact hrows) (by decide)]
    simp [sample_reader, List.range_succ]
    norm_num
  · unfold csv.get_row_numbers
    rw [read_data_false_row_numbers .windows _ _ "a,b,c\r\n1,2,3\r\n4,5,6\r\n".toList rfl]
    rfl

end ReadingCSV
